import Mathlib

/-!
# VINS estimator node: sensor synchronisation, buffering and dispatch

A shallow embedding of `vins_estimator/src/estimator_node.cpp`.

Conventions of the embedding

* Time stamps (`header.stamp.toSec()`) and all measurements are rationals: the
  arithmetic of the node is read exactly.
* A `std::queue` is a list whose head is `front()` and whose last element is
  `back()`; `push` appends at the end, `pop` removes the head.
* `front()` / `back()` of an empty queue, an index beyond the end of a vector and
  a failed `ROS_ASSERT` have no continuation: the functions that can reach them
  return `Option` / `Except`.
* Values of type `int` are mathematical integers; `/` and `%` truncate toward
  zero as in C++.
* The threads are not modelled: a callback and one iteration of the dispatcher
  loop are atomic steps of a run.
* The back-end `Estimator`, the publishers of `utility/visualization.h` and the
  Eigen conversion of a rotation matrix to a quaternion are outside this file of
  the repository; they are parameters (`Env`), and every call made to them is
  recorded in a log.
-/

namespace VinsNode

/-! ## Messages -/

/-- An `Eigen::Vector3d` (also `geometry_msgs::Vector3` / `Point32`). -/
structure Vec3 where
  x : ℚ
  y : ℚ
  z : ℚ
deriving DecidableEq

/-- An `Eigen::Quaterniond`, coefficients in the order of its constructor. -/
structure Quat where
  w : ℚ
  x : ℚ
  y : ℚ
  z : ℚ
deriving DecidableEq

/-- An `Eigen::Matrix3d`, by rows. -/
structure Mat3 where
  r0 : Vec3
  r1 : Vec3
  r2 : Vec3
deriving DecidableEq

/-- The fields of a `sensor_msgs::Imu` that the node reads. -/
structure ImuMsg where
  stamp : ℚ
  linear_acceleration : Vec3
  angular_velocity : Vec3
deriving DecidableEq

/-- The fields of a `sensor_msgs::PointCloud` that the node reads. -/
structure PointCloud where
  stamp : ℚ
  points : List Vec3
  channels : List (List ℚ)
deriving DecidableEq

/-- One element of the vector returned by `getMeasurements`. -/
abbrev Batch := List ImuMsg × PointCloud

/-! ## Logs of the outward calls -/

/-- The `ROS_WARN` messages of the node. -/
inductive Warn
  | imu_disorder
  | throw_img
  | no_imu_between
  | restart
deriving DecidableEq

/-- The value type of the feature map handed to `processImage`:
`pair<int, Matrix<double, 7, 1>>`, the vector as the list of its seven entries. -/
abbrev Obs := Int × List ℚ

/-- A `map<int, vector<pair<int, Matrix<double, 7, 1>>>>`: keys in increasing order. -/
abbrev Image := List (Int × List Obs)

/-- The operations the node invokes on the back-end, with their arguments. -/
inductive EstCall
  | processIMU (dt : ℚ) (acc : Vec3) (gyr : Vec3)
  | processImage (image : Image) (stamp : ℚ)
  | setReloFrame (stamp : ℚ) (frame_index : Int) (match_points : List Vec3)
      (relo_t : Vec3) (relo_r : Mat3)
  | clearState
  | setParameter
deriving DecidableEq

/-- The publications of the node (`utility/visualization.h`); every header
carries `frame_id = "world"`, so only its stamp is recorded. -/
inductive Pub
  | latestOdometry (P : Vec3) (Q : Quat) (V : Vec3) (stamp : ℚ)
  | odometry (stamp : ℚ)
  | keyPoses (stamp : ℚ)
  | cameraPose (stamp : ℚ)
  | pointCloud (stamp : ℚ)
  | tf (stamp : ℚ)
  | keyframe
  | relocalization
deriving DecidableEq

/-! ## getMeasurements (lines 114-160) -/

/-- The part of the global state that `getMeasurements` reads and writes. -/
structure Bufs where
  imu_buf : List ImuMsg
  feature_buf : List PointCloud
  sum_of_wait : Int
  warns : List Warn
deriving DecidableEq

/-- Lines 146-151: the inner `while` that moves the samples before `tf` from
`imu_buf` to `IMUs`, followed by the copy of the new front. The result is the
pair `(IMUs, imu_buf)`; `none` is `imu_buf.front()` on an empty queue. -/
def collectIMUs (tf : ℚ) : List ImuMsg → List ImuMsg → Option (List ImuMsg × List ImuMsg)
  | [], _ => none
  | m :: rest, IMUs =>
    if m.stamp < tf then collectIMUs tf rest (IMUs ++ [m])
    else some (IMUs ++ [m], m :: rest)

/-- Lines 119-158: the `while (true)` loop. Every iteration that does not return
pops `feature_buf`, so the recursion is on `feature_buf`. The counter
`sum_of_wait` is read as a mathematical integer. -/
def getMeasurementsLoop (td : ℚ) :
    List PointCloud → List ImuMsg → Int → List Warn → List Batch → Option (List Batch × Bufs)
  | [], imu_buf, sum_of_wait, warns, measurements =>
    some (measurements, ⟨imu_buf, [], sum_of_wait, warns⟩)
  | img :: feature_buf, [], sum_of_wait, warns, measurements =>
    some (measurements, ⟨[], img :: feature_buf, sum_of_wait, warns⟩)
  | img :: feature_buf, front :: rest, sum_of_wait, warns, measurements =>
    if ¬ (((front :: rest).getLast (List.cons_ne_nil front rest)).stamp > img.stamp + td) then
      some (measurements, ⟨front :: rest, img :: feature_buf, sum_of_wait + 1, warns⟩)
    else if ¬ (front.stamp < img.stamp + td) then
      getMeasurementsLoop td feature_buf (front :: rest) sum_of_wait (warns ++ [Warn.throw_img])
        measurements
    else
      match collectIMUs (img.stamp + td) (front :: rest) [] with
      | none => none
      | some (IMUs, imu_buf1) =>
        getMeasurementsLoop td feature_buf imu_buf1 sum_of_wait
          (if IMUs.isEmpty then warns ++ [Warn.no_imu_between] else warns)
          (measurements ++ [(IMUs, img)])

/-- The function `getMeasurements`, on the buffers it touches; `td` is `estimator.td`. -/
def getMeasurementsBufs (td : ℚ) (b : Bufs) : Option (List Batch × Bufs) :=
  getMeasurementsLoop td b.feature_buf b.imu_buf b.sum_of_wait b.warns []

/-! ## Vector and quaternion arithmetic (Eigen) -/

instance : Add Vec3 := ⟨fun a b => ⟨a.x + b.x, a.y + b.y, a.z + b.z⟩⟩

instance : Sub Vec3 := ⟨fun a b => ⟨a.x - b.x, a.y - b.y, a.z - b.z⟩⟩

instance : HMul ℚ Vec3 Vec3 := ⟨fun k a => ⟨k * a.x, k * a.y, k * a.z⟩⟩

instance : HMul Vec3 ℚ Vec3 := ⟨fun a k => ⟨a.x * k, a.y * k, a.z * k⟩⟩

/-- The cross product `a.cross(b)`. -/
def Vec3.cross (a b : Vec3) : Vec3 :=
  ⟨a.y * b.z - a.z * b.y, a.z * b.x - a.x * b.z, a.x * b.y - a.y * b.x⟩

/-- The imaginary part `q.vec()`. -/
def Quat.vec (q : Quat) : Vec3 := ⟨q.x, q.y, q.z⟩

/-- Quaternion product `a * b` of Eigen. -/
instance : Mul Quat := ⟨fun a b =>
  ⟨a.w * b.w - a.x * b.x - a.y * b.y - a.z * b.z,
   a.w * b.x + a.x * b.w + a.y * b.z - a.z * b.y,
   a.w * b.y + a.y * b.w + a.z * b.x - a.x * b.z,
   a.w * b.z + a.z * b.w + a.x * b.y - a.y * b.x⟩⟩

/-- Quaternion applied to a vector, `q * v`, as Eigen computes it:
`uv = q.vec().cross(v); uv += uv; v + q.w() * uv + q.vec().cross(uv)`. -/
def Quat.rotate (q : Quat) (v : Vec3) : Vec3 :=
  let uv := q.vec.cross v
  let uv := uv + uv
  v + q.w * uv + q.vec.cross uv

/-- Modelled from the spec: `Utility::deltaQ` (utility/utility.h, not among the
sources), the small-angle quaternion `δQ(θ) = [1, θ/2]`. -/
def deltaQ (theta : Vec3) : Quat := ⟨1, theta.x / 2, theta.y / 2, theta.z / 2⟩

/-- `Quaterniond::toRotationMatrix()` of Eigen. -/
def Quat.toRotationMatrix (q : Quat) : Mat3 :=
  let tx := 2 * q.x
  let ty := 2 * q.y
  let tz := 2 * q.z
  let twx := tx * q.w
  let twy := ty * q.w
  let twz := tz * q.w
  let txx := tx * q.x
  let txy := ty * q.x
  let txz := tz * q.x
  let tyy := ty * q.y
  let tyz := tz * q.y
  let tzz := tz * q.z
  ⟨⟨1 - (tyy + tzz), txy - twz, txz + twy⟩,
   ⟨txy + twz, 1 - (txx + tzz), tyz - twx⟩,
   ⟨txz - twy, tyz + twx, 1 - (txx + tyy)⟩⟩

/-! ## The global state -/

/-- The values of `Estimator::SolverFlag`. -/
inductive SolverFlag
  | INITIAL
  | NON_LINEAR
deriving DecidableEq

/-- The fields of the global `estimator` that the node reads, and the record of
the operations invoked on it so far. `Ps`, `Rs`, `Vs`, `Bas`, `Bgs` are the
entries at index `WINDOW_SIZE`. -/
structure Estimator where
  td : ℚ
  solver_flag : SolverFlag
  g : Vec3
  Ps : Vec3
  Rs : Mat3
  Vs : Vec3
  Bas : Vec3
  Bgs : Vec3
  acc_0 : Vec3
  gyr_0 : Vec3
  calls : List EstCall
deriving DecidableEq

/-- What lies outside `estimator_node.cpp`: the constant `NUM_OF_CAM`
(parameters.h), the conversion `Quaterniond = Matrix3d` of Eigen, and the effect
of each back-end operation on the fields the node reads. The result of an
operation may depend on everything recorded in the `Estimator`, its call record
included. -/
structure Env where
  NUM_OF_CAM : Int
  quatOfRot : Mat3 → Quat
  processIMU : Estimator → ℚ → Vec3 → Vec3 → Estimator
  processImage : Estimator → Image → ℚ → Estimator
  setReloFrame : Estimator → ℚ → Int → List Vec3 → Vec3 → Mat3 → Estimator
  clearState : Estimator → Estimator
  setParameter : Estimator → Estimator

/-- The call `estimator.processIMU(dt, acc, gyr)`. -/
def Estimator.doProcessIMU (env : Env) (e : Estimator) (dt : ℚ) (acc gyr : Vec3) : Estimator :=
  { env.processIMU e dt acc gyr with calls := e.calls ++ [EstCall.processIMU dt acc gyr] }

/-- The call `estimator.processImage(image, header)`. -/
def Estimator.doProcessImage (env : Env) (e : Estimator) (image : Image) (stamp : ℚ) :
    Estimator :=
  { env.processImage e image stamp with calls := e.calls ++ [EstCall.processImage image stamp] }

/-- The call `estimator.setReloFrame(...)`. -/
def Estimator.doSetReloFrame (env : Env) (e : Estimator) (stamp : ℚ) (frame_index : Int)
    (match_points : List Vec3) (relo_t : Vec3) (relo_r : Mat3) : Estimator :=
  { env.setReloFrame e stamp frame_index match_points relo_t relo_r with
    calls := e.calls ++ [EstCall.setReloFrame stamp frame_index match_points relo_t relo_r] }

/-- The call `estimator.clearState()`. -/
def Estimator.doClearState (env : Env) (e : Estimator) : Estimator :=
  { env.clearState e with calls := e.calls ++ [EstCall.clearState] }

/-- The call `estimator.setParameter()`. -/
def Estimator.doSetParameter (env : Env) (e : Estimator) : Estimator :=
  { env.setParameter e with calls := e.calls ++ [EstCall.setParameter] }

/-- The globals of `estimator_node.cpp` (lines 16-46), with the logs of the
warnings raised and of the messages published, and the history `clock_log` of the
values given to `current_time` (its initial value first). -/
structure State where
  estimator : Estimator
  current_time : ℚ
  clock_log : List ℚ
  imu_buf : List ImuMsg
  feature_buf : List PointCloud
  relo_buf : List PointCloud
  sum_of_wait : Int
  latest_time : ℚ
  tmp_P : Vec3
  tmp_Q : Quat
  tmp_V : Vec3
  tmp_Ba : Vec3
  tmp_Bg : Vec3
  acc_0 : Vec3
  gyr_0 : Vec3
  init_feature : Bool
  init_imu : Bool
  last_imu_t : ℚ
  warns : List Warn
  pubs : List Pub
deriving DecidableEq

/-- The state at program start (lines 16-46): `current_time = -1`,
`sum_of_wait = 0`, `init_feature = 0`, `init_imu = 1`, `last_imu_t = 0`, empty
queues, the other globals zero; `e` is the estimator as `main` leaves it, and
the record of calls starts empty. -/
def State.initial (e : Estimator) : State :=
  { estimator := { e with calls := [] }
    current_time := -1
    clock_log := [-1]
    imu_buf := []
    feature_buf := []
    relo_buf := []
    sum_of_wait := 0
    latest_time := 0
    tmp_P := ⟨0, 0, 0⟩
    tmp_Q := ⟨0, 0, 0, 0⟩
    tmp_V := ⟨0, 0, 0⟩
    tmp_Ba := ⟨0, 0, 0⟩
    tmp_Bg := ⟨0, 0, 0⟩
    acc_0 := ⟨0, 0, 0⟩
    gyr_0 := ⟨0, 0, 0⟩
    init_feature := false
    init_imu := true
    last_imu_t := 0
    warns := []
    pubs := [] }

/-- An assignment `current_time = t`. -/
def State.setClock (s : State) (t : ℚ) : State :=
  { s with current_time := t, clock_log := s.clock_log ++ [t] }

/-! ## predict and update (lines 50-108) -/

/-- The function `predict` (lines 50-86). -/
def predict (s : State) (imu_msg : ImuMsg) : State :=
  let t := imu_msg.stamp
  if s.init_imu then
    { s with latest_time := t, init_imu := false }
  else
    let dt := t - s.latest_time
    let linear_acceleration := imu_msg.linear_acceleration
    let angular_velocity := imu_msg.angular_velocity
    let un_acc_0 := s.tmp_Q.rotate (s.acc_0 - s.tmp_Ba) - s.estimator.g
    let un_gyr := (1 / 2 : ℚ) * (s.gyr_0 + angular_velocity) - s.tmp_Bg
    let tmp_Q := s.tmp_Q * deltaQ (un_gyr * dt)
    let un_acc_1 := tmp_Q.rotate (linear_acceleration - s.tmp_Ba) - s.estimator.g
    let un_acc := (1 / 2 : ℚ) * (un_acc_0 + un_acc_1)
    { s with
      latest_time := t
      tmp_Q := tmp_Q
      tmp_P := s.tmp_P + dt * s.tmp_V + ((1 / 2 : ℚ) * dt * dt) * un_acc
      tmp_V := s.tmp_V + dt * un_acc
      acc_0 := linear_acceleration
      gyr_0 := angular_velocity }

/-- Lines 105-106: `predict` on every element of the copy `tmp_imu_buf`, front
to back. -/
def updateLoop : List ImuMsg → State → State
  | [], s => s
  | tmp_imu_msg :: tmp_imu_buf, s => updateLoop tmp_imu_buf (predict s tmp_imu_msg)

/-- The function `update` (lines 89-108). -/
def update (env : Env) (s : State) : State :=
  let s1 := { s with
    latest_time := s.current_time
    tmp_P := s.estimator.Ps
    tmp_Q := env.quatOfRot s.estimator.Rs
    tmp_V := s.estimator.Vs
    tmp_Ba := s.estimator.Bas
    tmp_Bg := s.estimator.Bgs
    acc_0 := s.estimator.acc_0
    gyr_0 := s.estimator.gyr_0 }
  updateLoop s1.imu_buf s1

/-! ## The callbacks (lines 163-249) -/

/-- The function `getMeasurements` on the global state. -/
def getMeasurements (s : State) : Option (List Batch × State) :=
  match getMeasurementsBufs s.estimator.td ⟨s.imu_buf, s.feature_buf, s.sum_of_wait, s.warns⟩ with
  | none => none
  | some (measurements, b) =>
    some (measurements,
      { s with
        imu_buf := b.imu_buf
        feature_buf := b.feature_buf
        sum_of_wait := b.sum_of_wait
        warns := b.warns })

/-- The function `imu_callback` (lines 163-197). -/
def imu_callback (s : State) (imu_msg : ImuMsg) : State :=
  if imu_msg.stamp ≤ s.last_imu_t then
    { s with warns := s.warns ++ [Warn.imu_disorder] }
  else
    let s := { s with last_imu_t := imu_msg.stamp }
    let s := { s with imu_buf := s.imu_buf ++ [imu_msg] }
    let s := { s with last_imu_t := imu_msg.stamp }
    let s := predict s imu_msg
    if s.estimator.solver_flag = SolverFlag.NON_LINEAR then
      { s with pubs := s.pubs ++ [Pub.latestOdometry s.tmp_P s.tmp_Q s.tmp_V imu_msg.stamp] }
    else s

/-- The function `feature_callback` (lines 200-217). -/
def feature_callback (s : State) (feature_msg : PointCloud) : State :=
  if ¬ s.init_feature then
    { s with init_feature := true }
  else
    { s with feature_buf := s.feature_buf ++ [feature_msg] }

/-- The loop `while (!q.empty()) q.pop();` (lines 226-229). -/
def popAll {α : Type} : List α → List α
  | [] => []
  | _ :: q => popAll q

/-- The function `restart_callback` (lines 220-240); `data` is `restart_msg->data`. -/
def restart_callback (env : Env) (s : State) (data : Bool) : State :=
  if data = true then
    let s := { s with warns := s.warns ++ [Warn.restart] }
    let s := { s with feature_buf := popAll s.feature_buf }
    let s := { s with imu_buf := popAll s.imu_buf }
    let s := { s with estimator := s.estimator.doClearState env }
    let s := { s with estimator := s.estimator.doSetParameter env }
    let s := s.setClock (-1)
    { s with last_imu_t := 0 }
  else s

/-- The function `relocalization_callback` (lines 243-249). -/
def relocalization_callback (s : State) (points_msg : PointCloud) : State :=
  { s with relo_buf := s.relo_buf ++ [points_msg] }

/-! ## The dispatcher `process` (lines 253-422) -/

/-- The ways an execution of the node stops: a failed `ROS_ASSERT`, an index
beyond the end of a `channels` / `values` vector, `front()` of an empty queue. -/
inductive Fault
  | assert_dt
  | assert_dt_1
  | assert_dt_2
  | assert_dt_sum
  | assert_z
  | out_of_range
  | empty_front
deriving DecidableEq

/-- Lines 298-341: the body of the loop over the IMU samples of one measurement.
`d` and `r` are the locals `(dx, dy, dz)` and `(rx, ry, rz)`. -/
def processImuMsg (env : Env) (img_msg : PointCloud) (s : State) (d r : Vec3)
    (imu_msg : ImuMsg) : Except Fault (State × Vec3 × Vec3) :=
  let t := imu_msg.stamp
  let img_t := img_msg.stamp + s.estimator.td
  if t ≤ img_t then
    let s := if s.current_time < 0 then s.setClock t else s
    let dt := t - s.current_time
    if ¬ (dt ≥ 0) then Except.error Fault.assert_dt
    else
      let s := s.setClock t
      let d := imu_msg.linear_acceleration
      let r := imu_msg.angular_velocity
      Except.ok ({ s with estimator := s.estimator.doProcessIMU env dt d r }, d, r)
  else
    let dt_1 := img_t - s.current_time
    let dt_2 := t - img_t
    let s := s.setClock img_t
    if ¬ (dt_1 ≥ 0) then Except.error Fault.assert_dt_1
    else if ¬ (dt_2 ≥ 0) then Except.error Fault.assert_dt_2
    else if ¬ (dt_1 + dt_2 > 0) then Except.error Fault.assert_dt_sum
    else
      let w1 := dt_2 / (dt_1 + dt_2)
      let w2 := dt_1 / (dt_1 + dt_2)
      let d : Vec3 :=
        ⟨w1 * d.x + w2 * imu_msg.linear_acceleration.x,
         w1 * d.y + w2 * imu_msg.linear_acceleration.y,
         w1 * d.z + w2 * imu_msg.linear_acceleration.z⟩
      let r : Vec3 :=
        ⟨w1 * r.x + w2 * imu_msg.angular_velocity.x,
         w1 * r.y + w2 * imu_msg.angular_velocity.y,
         w1 * r.z + w2 * imu_msg.angular_velocity.z⟩
      Except.ok ({ s with estimator := s.estimator.doProcessIMU env dt_1 d r }, d, r)

/-- Lines 296-342: `for (auto &imu_msg : measurement.first)`. -/
def imuLoop (env : Env) (img_msg : PointCloud) :
    List ImuMsg → State → Vec3 → Vec3 → Except Fault State
  | [], s, _, _ => Except.ok s
  | imu_msg :: rest, s, d, r =>
    match processImuMsg env img_msg s d r imu_msg with
    | Except.error f => Except.error f
    | Except.ok (s1, d1, r1) => imuLoop env img_msg rest s1 d1 r1

/-- Lines 347-351: the loop that empties `relo_buf` and keeps the last message
popped in `relo_msg`. The result is `(relo_msg, relo_buf)`. -/
def drainRelo : List PointCloud → Option PointCloud → Option PointCloud × List PointCloud
  | [], relo_msg => (relo_msg, [])
  | m :: relo_buf, _ => drainRelo relo_buf (some m)

/-- A conversion of a floating value to `int`: truncation toward zero. -/
def toInt (v : ℚ) : Int := if 0 ≤ v then ⌊v⌋ else ⌈v⌉

/-- Lines 346-370: the relocalization step of one measurement. The second
component of the result is the local `relo_msg`. -/
def setRelo (env : Env) (s : State) : Except Fault (State × Option PointCloud) :=
  let (relo_msg, relo_buf) := drainRelo s.relo_buf none
  let s := { s with relo_buf := relo_buf }
  match relo_msg with
  | none => Except.ok (s, none)
  | some m =>
    let match_points := m.points.map (fun p => (⟨p.x, p.y, p.z⟩ : Vec3))
    let frame_stamp := m.stamp
    match m.channels with
    | (v0 :: v1 :: v2 :: v3 :: v4 :: v5 :: v6 :: v7 :: _) :: _ =>
      let relo_t : Vec3 := ⟨v0, v1, v2⟩
      let relo_q : Quat := ⟨v3, v4, v5, v6⟩
      let relo_r := relo_q.toRotationMatrix
      let frame_index := toInt v7
      Except.ok
        ({ s with
           estimator :=
             s.estimator.doSetReloFrame env frame_stamp frame_index match_points relo_t relo_r },
         some m)
    | _ => Except.error Fault.out_of_range

/-- The statement `image[feature_id].emplace_back(camera_id, xyz_uv_velocity)` on
a map kept in key order. -/
def imageInsert (feature_id : Int) (o : Obs) : Image → Image
  | [] => [(feature_id, [o])]
  | (k, v) :: rest =>
    if feature_id = k then (k, v ++ [o]) :: rest
    else if feature_id < k then (feature_id, [o]) :: (k, v) :: rest
    else (k, v) :: imageInsert feature_id o rest

/-- The value `img_msg->channels[c].values[i]`. -/
def PointCloud.chan (img_msg : PointCloud) (c i : Nat) : Option ℚ :=
  match img_msg.channels.get? c with
  | none => none
  | some values => values.get? i

/-- Lines 379-381: the decoding of a channel-0 value into `(feature_id, camera_id)`. -/
def decodeId (NUM_OF_CAM : Int) (value : ℚ) : Int × Int :=
  let v := toInt (value + 1 / 2)
  (Int.tdiv v NUM_OF_CAM, Int.tmod v NUM_OF_CAM)

/-- Lines 377-393: the loop that fills the feature map; the first argument is
what is left of `img_msg->points` from index `i` on. -/
def buildImage (env : Env) (img_msg : PointCloud) : List Vec3 → Nat → Image → Except Fault Image
  | [], _, image => Except.ok image
  | p :: points, i, image =>
    match img_msg.chan 0 i, img_msg.chan 1 i, img_msg.chan 2 i, img_msg.chan 3 i,
      img_msg.chan 4 i with
    | some c0, some p_u, some p_v, some velocity_x, some velocity_y =>
      let id := decodeId env.NUM_OF_CAM c0
      if ¬ (p.z = 1) then Except.error Fault.assert_z
      else
        buildImage env img_msg points (i + 1)
          (imageInsert id.1 (id.2, [p.x, p.y, p.z, p_u, p_v, velocity_x, velocity_y]) image)
    | _, _, _, _, _ => Except.error Fault.out_of_range

/-- Lines 290-411: the body of `for (auto &measurement : measurements)`. -/
def processMeasurement (env : Env) (s : State) (measurement : Batch) : Except Fault State :=
  let img_msg := measurement.2
  match imuLoop env img_msg measurement.1 s ⟨0, 0, 0⟩ ⟨0, 0, 0⟩ with
  | Except.error f => Except.error f
  | Except.ok s =>
    match setRelo env s with
    | Except.error f => Except.error f
    | Except.ok (s, relo_msg) =>
      match buildImage env img_msg img_msg.points 0 [] with
      | Except.error f => Except.error f
      | Except.ok image =>
        let s := { s with estimator := s.estimator.doProcessImage env image img_msg.stamp }
        let s := { s with pubs := s.pubs ++
          [Pub.odometry img_msg.stamp, Pub.keyPoses img_msg.stamp, Pub.cameraPose img_msg.stamp,
           Pub.pointCloud img_msg.stamp, Pub.tf img_msg.stamp, Pub.keyframe] }
        Except.ok (if relo_msg.isSome then { s with pubs := s.pubs ++ [Pub.relocalization] } else s)

/-- Lines 290-411: `for (auto &measurement : measurements)`. -/
def processLoop (env : Env) : List Batch → State → Except Fault State
  | [], s => Except.ok s
  | measurement :: rest, s =>
    match processMeasurement env s measurement with
    | Except.error f => Except.error f
    | Except.ok s1 => processLoop env rest s1

/-- One evaluation of the wait predicate of `process` (line 284) and, when it
holds, the rest of that iteration of the dispatcher loop (lines 286-420). When
`getMeasurements` returns no measurement the dispatcher stays in `con.wait`. -/
def processIteration (env : Env) (s : State) : Except Fault State :=
  match getMeasurements s with
  | none => Except.error Fault.empty_front
  | some (measurements, s) =>
    if ¬ (measurements.length ≠ 0) then Except.ok s
    else
      match processLoop env measurements s with
      | Except.error f => Except.error f
      | Except.ok s =>
        Except.ok (if s.estimator.solver_flag = SolverFlag.NON_LINEAR then update env s else s)

/-! ## Runs of the node -/

/-- The steps of a run: a message delivered to one of the four callbacks, or one
wake-up of the dispatcher. -/
inductive Event
  | imu (imu_msg : ImuMsg)
  | feature (feature_msg : PointCloud)
  | relocalization (points_msg : PointCloud)
  | restart (data : Bool)
  | dispatch
deriving DecidableEq

/-- One step of a run. -/
def step (env : Env) (s : State) : Event → Except Fault State
  | Event.imu imu_msg => Except.ok (imu_callback s imu_msg)
  | Event.feature feature_msg => Except.ok (feature_callback s feature_msg)
  | Event.relocalization points_msg => Except.ok (relocalization_callback s points_msg)
  | Event.restart data => Except.ok (restart_callback env s data)
  | Event.dispatch => processIteration env s

/-- A run: the steps in order, stopping at the first fault. -/
def run (env : Env) : List Event → State → Except Fault State
  | [], s => Except.ok s
  | ev :: evs, s =>
    match step env s ev with
    | Except.error f => Except.error f
    | Except.ok s1 => run env evs s1

/-! ## Predicates used in the statements -/

/-- The batch invariant of one measurement `(IMUs, img)` for the offset `td`:
with `tf = img.t + td`, every sample but the last is before `tf`, the last is at
or after `tf`, and the first is before `tf`. -/
def BatchInv (td : ℚ) (b : Batch) : Prop :=
  (∀ m ∈ b.1.dropLast, m.stamp < b.2.stamp + td) ∧
  (∃ last, b.1.getLast? = some last ∧ b.2.stamp + td ≤ last.stamp) ∧
  (∃ first, b.1.head? = some first ∧ first.stamp < b.2.stamp + td)

/-! ## Sample data for the scenarios -/

/-- An IMU message at time `t` with zero measurements. -/
def imuAt (t : ℚ) : ImuMsg := ⟨t, ⟨0, 0, 0⟩, ⟨0, 0, 0⟩⟩

/-- A feature message at time `t` without points. -/
def featureAt (t : ℚ) : PointCloud := ⟨t, [], []⟩

/-- An estimator with time offset `td`, in solver phase `flag`, all other
fields zero. -/
def estimatorWith (td : ℚ) (flag : SolverFlag) : Estimator :=
  { td := td
    solver_flag := flag
    g := ⟨0, 0, 0⟩
    Ps := ⟨0, 0, 0⟩
    Rs := ⟨⟨0, 0, 0⟩, ⟨0, 0, 0⟩, ⟨0, 0, 0⟩⟩
    Vs := ⟨0, 0, 0⟩
    Bas := ⟨0, 0, 0⟩
    Bgs := ⟨0, 0, 0⟩
    acc_0 := ⟨0, 0, 0⟩
    gyr_0 := ⟨0, 0, 0⟩
    calls := [] }

/-- The initial state with the two queues filled as given, `td = 0`. -/
def stateWith (imu_buf : List ImuMsg) (feature_buf : List PointCloud) : State :=
  { State.initial (estimatorWith 0 SolverFlag.INITIAL) with
    imu_buf := imu_buf
    feature_buf := feature_buf }

/-- The steps that only enqueue sensor data: a message delivered to
`imu_callback` or to `feature_callback`. -/
def Event.isEnqueue : Event → Bool
  | Event.imu _ => true
  | Event.feature _ => true
  | _ => false

/-- Two consecutive batches share the straddle sample: the last IMU sample of
`a` is the first IMU sample of `b`. -/
def SharesStraddle (a b : Batch) : Prop :=
  ∃ m, a.1.getLast? = some m ∧ b.1.head? = some m

/-- An environment whose back-end operations leave the readable fields as they
are, with one camera and the unit quaternion for every rotation matrix. -/
def idleEnv : Env :=
  { NUM_OF_CAM := 1
    quatOfRot := fun _ => ⟨1, 0, 0, 0⟩
    processIMU := fun e _ _ _ => e
    processImage := fun e _ _ => e
    setReloFrame := fun e _ _ _ _ _ => e
    clearState := fun e => e
    setParameter := fun e => e }

/-! ## The fast-path state of the specification (section 4.2) -/

/-- The entity `FastState` of the specification. -/
structure FastState where
  P : Vec3
  Q : Quat
  V : Vec3
  Ba : Vec3
  Bg : Vec3
  acc_prev : Vec3
  gyr_prev : Vec3
  t_latest : ℚ
deriving DecidableEq

/-- The midpoint-integration step of section 4.2 of the specification, steps 1
to 8, for an IMU sample with time stamp `t`, acceleration `acc` and angular
velocity `ω`, with `dt = t - t_latest` and `g` the gravity vector. -/
def specStep (g : Vec3) (f : FastState) (sample : ImuMsg) : FastState :=
  let dt := sample.stamp - f.t_latest
  let a0_w := f.Q.rotate (f.acc_prev - f.Ba) - g
  let ω_bar := (1 / 2 : ℚ) * (f.gyr_prev + sample.angular_velocity) - f.Bg
  let Q := f.Q * deltaQ (ω_bar * dt)
  let a1_w := Q.rotate (sample.linear_acceleration - f.Ba) - g
  let a_bar := (1 / 2 : ℚ) * (a0_w + a1_w)
  { P := f.P + dt * f.V + ((1 / 2 : ℚ) * dt ^ 2) * a_bar
    Q := Q
    V := f.V + dt * a_bar
    Ba := f.Ba
    Bg := f.Bg
    acc_prev := sample.linear_acceleration
    gyr_prev := sample.angular_velocity
    t_latest := sample.stamp }

/-- The fast-path state held in the globals `tmp_P`, `tmp_Q`, `tmp_V`, `tmp_Ba`,
`tmp_Bg`, `acc_0`, `gyr_0`, `latest_time`. -/
def State.fast (s : State) : FastState :=
  { P := s.tmp_P
    Q := s.tmp_Q
    V := s.tmp_V
    Ba := s.tmp_Ba
    Bg := s.tmp_Bg
    acc_prev := s.acc_0
    gyr_prev := s.gyr_0
    t_latest := s.latest_time }

/-- The seed of the resynchronisation (section 4.4 of the specification): the
tail of the sliding window, the last IMU measurement of the back-end, and
`t_latest = t_current`. -/
def specSeed (env : Env) (s : State) : FastState :=
  { P := s.estimator.Ps
    Q := env.quatOfRot s.estimator.Rs
    V := s.estimator.Vs
    Ba := s.estimator.Bas
    Bg := s.estimator.Bgs
    acc_prev := s.estimator.acc_0
    gyr_prev := s.estimator.gyr_0
    t_latest := s.current_time }

/-- The state of scenario S6: back-end in `NON_LINEAR` with the sliding-window
tail `P = [1, 2, 3]`, `V = 0`, `Ba = Bg = 0`, clock at 1, and two buffered IMU
samples at 1.01 and 1.02. -/
def stateS6 : State :=
  { State.initial { estimatorWith 0 SolverFlag.NON_LINEAR with Ps := ⟨1, 2, 3⟩ } with
    current_time := 1
    init_imu := false
    imu_buf := [imuAt (101 / 100), imuAt (102 / 100)] }

/-! ## Predicates on runs -/

/-- The back-end operations called by the dispatcher leave `td` as it is
("fixed `td`"). -/
def Env.KeepsTd (env : Env) : Prop :=
  (∀ e dt acc gyr, (env.processIMU e dt acc gyr).td = e.td) ∧
  (∀ e image stamp, (env.processImage e image stamp).td = e.td) ∧
  (∀ e stamp i pts t r, (env.setReloFrame e stamp i pts t r).td = e.td)

/-- The `dt` argument of a call of `processIMU`. -/
def EstCall.dt? : EstCall → Option ℚ
  | EstCall.processIMU dt _ _ => some dt
  | _ => none

/-- The `dt` arguments handed to `processIMU`, in call order. -/
def dtsOf (calls : List EstCall) : List ℚ := calls.filterMap EstCall.dt?

/-- The parts of the state that the IMU loop of `process` does not touch. -/
def SameQueues (s s1 : State) : Prop :=
  s1.imu_buf = s.imu_buf ∧ s1.feature_buf = s.feature_buf ∧ s1.relo_buf = s.relo_buf ∧
    s1.last_imu_t = s.last_imu_t ∧ s1.estimator.td = s.estimator.td ∧
    s1.init_imu = s.init_imu

/-- The calls `processIMU(dt, acc, gyr)` for a list of argument triples. -/
def imuCalls (args : List (ℚ × Vec3 × Vec3)) : List EstCall :=
  args.map (fun a => EstCall.processIMU a.1 a.2.1 a.2.2)

/-- The history of `current_time` never goes backwards and ends at the present
value. -/
def ClockLogOK (s : State) : Prop :=
  List.Chain' (fun a b : ℚ => a ≤ b) s.clock_log ∧ s.clock_log.getLast? = some s.current_time

/-- What an execution leaves to observe of the dispatcher clock: the final
`current_time` and the `dt` arguments handed to `processIMU`. -/
def clockAndDts : Except Fault State → Option (ℚ × List ℚ)
  | Except.ok s => some (s.current_time, dtsOf s.estimator.calls)
  | Except.error _ => none

/-- How the batches of one call of `getMeasurements` sit in the IMU queue: the
queue `imu` at the start, the batches formed, and the queue `imu1` left. Each
batch takes the samples before `tf` off the front and copies the new front. -/
def BatchesOK (td : ℚ) : List ImuMsg → List Batch → List ImuMsg → Prop
  | imu, [], imu1 => imu1 = imu
  | imu, (IMUs, img) :: rest, imu1 =>
    ∃ first pre last post, imu = first :: pre ++ last :: post ∧
      IMUs = first :: pre ++ [last] ∧
      (∀ m ∈ first :: pre, m.stamp < img.stamp + td) ∧ img.stamp + td ≤ last.stamp ∧
      BatchesOK td (last :: post) rest imu1

/-- A feature message that `process` can read: every point has `z = 1`, and each
of the channels 0 to 4 has a value for every point. -/
def FeatureOK (img : PointCloud) : Prop :=
  (∀ p ∈ img.points, p.z = 1) ∧
    ∀ c i, c < 5 → i < img.points.length → ∃ v, img.chan c i = some v

/-- A relocalization message that `process` can read: channel 0 has eight values. -/
def ReloOK (m : PointCloud) : Prop :=
  ∃ values rest, m.channels = values :: rest ∧ 8 ≤ values.length

/-- The messages of an event can be read by `process`. -/
def Event.WellFormed : Event → Prop
  | Event.feature feature_msg => FeatureOK feature_msg
  | Event.relocalization points_msg => ReloOK points_msg
  | _ => True

/-- All buffered feature and relocalization messages can be read by `process`. -/
def WFState (s : State) : Prop :=
  (∀ f ∈ s.feature_buf, FeatureOK f) ∧ (∀ m ∈ s.relo_buf, ReloOK m)

/-- The invariant of the runs without restart: the buffered IMU time stamps are
non-negative, in order and at most `last_imu_t`; the dispatcher clock is the
sentinel or is not after any buffered sample; the clock never went backwards;
and every `dt` handed to `processIMU` was non-negative. -/
def Inv (s : State) : Prop :=
  s.imu_buf.Pairwise (fun a b => a.stamp ≤ b.stamp) ∧
    (∀ m ∈ s.imu_buf, 0 ≤ m.stamp ∧ m.stamp ≤ s.last_imu_t) ∧
    0 ≤ s.last_imu_t ∧
    (s.current_time < 0 ∨
      (s.current_time ≤ s.last_imu_t ∧ ∀ m ∈ s.imu_buf, s.current_time ≤ m.stamp)) ∧
    ClockLogOK s ∧
    (∀ dt ∈ dtsOf s.estimator.calls, 0 ≤ dt)

/-- An IMU message at time `t` with acceleration `(a, 0, 0)` and angular
velocity `(0, 0, a)`. -/
def imuWith (t a : ℚ) : ImuMsg := ⟨t, ⟨a, 0, 0⟩, ⟨0, 0, a⟩⟩

/-- The calls recorded by an execution, if it did not stop. -/
def callsOf : Except Fault State → Option (List EstCall)
  | Except.ok s => some s.estimator.calls
  | Except.error _ => none

/-- The calls of `setReloFrame`. -/
def EstCall.isSetReloFrame : EstCall → Bool
  | EstCall.setReloFrame _ _ _ _ _ => true
  | _ => false

/-- A relocalization message at time `t`: one match point, translation
`(1, 2, 3)`, the unit quaternion, frame index `i`. -/
def reloAt (t i : ℚ) : PointCloud := ⟨t, [⟨4, 5, 6⟩], [[1, 2, 3, 1, 0, 0, 0, i]]⟩

/-- The initial state (`td = 0`) with two buffered relocalization messages, at
times 1 and 2 with frame indices 7 and 9. -/
def stateRelo : State :=
  { stateWith [] [] with relo_buf := [reloAt 1 7, reloAt 2 9] }

/-- The fast-path clock `latest_time` an execution ends with, if it did not stop. -/
def latestOf : Except Fault State → Option ℚ
  | Except.ok s => some s.latest_time
  | Except.error _ => none

/-- The invariant behind the fast-path clock: `latest_time` is not after
`last_imu_t`, and the back of a non-empty `imu_buf` is the sample accepted last. -/
def FastClockInv (s : State) : Prop :=
  s.latest_time ≤ s.last_imu_t ∧
    ∀ back, s.imu_buf.getLast? = some back → back.stamp = s.last_imu_t

/-! ## Queue operations -/

/-- The operations on the three queues: a message delivered to one of the four
callbacks, or a call of `getMeasurements`. -/
inductive QueueOp
  | imu (imu_msg : ImuMsg)
  | feature (feature_msg : PointCloud)
  | relocalization (points_msg : PointCloud)
  | restart (data : Bool)
  | getMeasurements
deriving DecidableEq

/-- One queue operation; `none` is `front()` of an empty queue. -/
def applyOp (env : Env) (s : State) : QueueOp → Option State
  | QueueOp.imu imu_msg => some (imu_callback s imu_msg)
  | QueueOp.feature feature_msg => some (feature_callback s feature_msg)
  | QueueOp.relocalization points_msg => some (relocalization_callback s points_msg)
  | QueueOp.restart data => some (restart_callback env s data)
  | QueueOp.getMeasurements =>
    match getMeasurements s with
    | none => none
    | some (_, s1) => some s1

/-- A sequence of queue operations, in order. -/
def applyOps (env : Env) : List QueueOp → State → Option State
  | [], s => some s
  | op :: ops, s =>
    match applyOp env s op with
    | none => none
    | some s1 => applyOps env ops s1

/-- The feature message of an operation, if it delivers one. -/
def QueueOp.feature? : QueueOp → Option PointCloud
  | QueueOp.feature feature_msg => some feature_msg
  | _ => none

/-- The relocalization message of an operation, if it delivers one. -/
def QueueOp.relocalization? : QueueOp → Option PointCloud
  | QueueOp.relocalization points_msg => some points_msg
  | _ => none

/-- The time stamps of the queued messages, front to back, of the three queues
an execution ends with. -/
def queueStamps : Option State → Option (List ℚ × List ℚ × List ℚ)
  | some s => some (s.imu_buf.map (fun m => m.stamp), s.feature_buf.map (fun m => m.stamp),
      s.relo_buf.map (fun m => m.stamp))
  | none => none

/-! ## Lock discipline -/

/-- The three mutexes of the node (lines 30-32). -/
inductive Mutex
  | m_buf
  | m_state
  | m_estimator
deriving DecidableEq

/-- The three shared queues (lines 26-28). -/
inductive Queue
  | imu_buf
  | feature_buf
  | relo_buf
deriving DecidableEq

/-- What one thread does to the mutexes and the shared queues, in program order:
it locks or unlocks a mutex, or calls a member of a queue (`push`, `pop`,
`front`, `back`, `empty`, or the copy constructor). -/
inductive Act
  | lock (m : Mutex)
  | unlock (m : Mutex)
  | access (q : Queue)
deriving DecidableEq

/-- The queue members called by lines 146-151, on the `imu_buf` given: the loop
test reads `front()`, the body reads `front()` and calls `pop()`, and line 151
reads `front()` once more. -/
def collectIMUsActs (tf : ℚ) : List ImuMsg → List Act
  | [] => [Act.access Queue.imu_buf]
  | m :: rest =>
    if m.stamp < tf then
      [Act.access Queue.imu_buf, Act.access Queue.imu_buf, Act.access Queue.imu_buf] ++
        collectIMUsActs tf rest
    else [Act.access Queue.imu_buf, Act.access Queue.imu_buf]

/-- The queue members called by the loop of `getMeasurements` (lines 119-158),
on the queues given; the function itself takes no lock. -/
def getMeasurementsActs (td : ℚ) : List PointCloud → List ImuMsg → List Act
  | _, [] => [Act.access Queue.imu_buf]
  | [], _ :: _ => [Act.access Queue.imu_buf, Act.access Queue.feature_buf]
  | img :: feature_buf, front :: rest =>
    [Act.access Queue.imu_buf, Act.access Queue.feature_buf,
      Act.access Queue.imu_buf, Act.access Queue.feature_buf] ++
    if ¬ (((front :: rest).getLast (List.cons_ne_nil front rest)).stamp > img.stamp + td) then []
    else
      [Act.access Queue.imu_buf, Act.access Queue.feature_buf] ++
      if ¬ (front.stamp < img.stamp + td) then
        [Act.access Queue.feature_buf] ++ getMeasurementsActs td feature_buf (front :: rest)
      else
        [Act.access Queue.feature_buf, Act.access Queue.feature_buf] ++
          collectIMUsActs (img.stamp + td) (front :: rest) ++
          match collectIMUs (img.stamp + td) (front :: rest) [] with
          | none => []
          | some (_, imu_buf1) => getMeasurementsActs td feature_buf imu_buf1

/-- The queue member called by `update` (line 104): the copy of `imu_buf`; the
loop that follows works on the copy. -/
def updateActs : List Act := [Act.access Queue.imu_buf]

/-- The locks and queue members of `imu_callback` (lines 163-197). -/
def imu_callbackActs (s : State) (imu_msg : ImuMsg) : List Act :=
  if imu_msg.stamp ≤ s.last_imu_t then []
  else
    [Act.lock Mutex.m_buf, Act.access Queue.imu_buf, Act.unlock Mutex.m_buf,
      Act.lock Mutex.m_state, Act.unlock Mutex.m_state]

/-- The locks and queue members of `feature_callback` (lines 200-217). -/
def feature_callbackActs (s : State) : List Act :=
  if ¬ s.init_feature then []
  else [Act.lock Mutex.m_buf, Act.access Queue.feature_buf, Act.unlock Mutex.m_buf]

/-- The queue members called by `while (!q.empty()) q.pop();` on the queue `q`
holding `n` messages. -/
def popAllActs (q : Queue) : Nat → List Act
  | 0 => [Act.access q]
  | n + 1 => [Act.access q, Act.access q] ++ popAllActs q n

/-- The locks and queue members of `restart_callback` (lines 220-240). -/
def restart_callbackActs (s : State) (data : Bool) : List Act :=
  if data = true then
    [Act.lock Mutex.m_buf] ++ popAllActs Queue.feature_buf s.feature_buf.length ++
      popAllActs Queue.imu_buf s.imu_buf.length ++
      [Act.unlock Mutex.m_buf, Act.lock Mutex.m_estimator, Act.unlock Mutex.m_estimator]
  else []

/-- The locks and queue members of `relocalization_callback` (lines 243-249). -/
def relocalization_callbackActs : List Act :=
  [Act.lock Mutex.m_buf, Act.access Queue.relo_buf, Act.unlock Mutex.m_buf]

/-- The queue members called by lines 347-351 on a `relo_buf` holding `n`
messages: `empty()`, `front()` and `pop()` per message, and the last `empty()`. -/
def drainReloActs : Nat → List Act
  | 0 => [Act.access Queue.relo_buf]
  | n + 1 =>
    [Act.access Queue.relo_buf, Act.access Queue.relo_buf, Act.access Queue.relo_buf] ++
      drainReloActs n

/-- The queue members called by the body of `for (auto &measurement :
measurements)` (lines 290-411): those of the relocalization step, reached when
no assertion of the IMU loop fails. -/
def processMeasurementActs (env : Env) (s : State) (measurement : Batch) : List Act :=
  match imuLoop env measurement.2 measurement.1 s ⟨0, 0, 0⟩ ⟨0, 0, 0⟩ with
  | Except.error _ => []
  | Except.ok s => drainReloActs s.relo_buf.length

/-- The queue members called by `for (auto &measurement : measurements)`. -/
def processLoopActs (env : Env) : List Batch → State → List Act
  | [], _ => []
  | measurement :: rest, s =>
    processMeasurementActs env s measurement ++
      match processMeasurement env s measurement with
      | Except.error _ => []
      | Except.ok s1 => processLoopActs env rest s1

/-- The locks and queue members of one iteration of the dispatcher loop, in the
steps of `processIteration`: `m_buf` is taken (line 264, or by `con.wait` on
waking up), the wait predicate runs `getMeasurements`; when it holds, line 286
unlocks `m_buf`, lines 288-412 run under `m_estimator`, and lines 414-420 run
`update` under `m_buf` and `m_state`; when it does not hold, `con.wait`
releases `m_buf`. -/
def processIterationActs (env : Env) (s : State) : List Act :=
  [Act.lock Mutex.m_buf] ++ getMeasurementsActs s.estimator.td s.feature_buf s.imu_buf ++
    match getMeasurements s with
    | none => []
    | some (measurements, s) =>
      if ¬ (measurements.length ≠ 0) then [Act.unlock Mutex.m_buf]
      else
        [Act.unlock Mutex.m_buf, Act.lock Mutex.m_estimator] ++
          processLoopActs env measurements s ++
          match processLoop env measurements s with
          | Except.error _ => []
          | Except.ok s =>
            [Act.unlock Mutex.m_estimator, Act.lock Mutex.m_buf, Act.lock Mutex.m_state] ++
              (if s.estimator.solver_flag = SolverFlag.NON_LINEAR then updateActs else []) ++
              [Act.unlock Mutex.m_state, Act.unlock Mutex.m_buf]

/-- The queues a thread accesses while it does not hold `m_buf`, in program
order; `held` is the list of mutexes the thread holds at the start. -/
def unguarded : List Mutex → List Act → List Queue
  | _, [] => []
  | held, Act.lock m :: rest => unguarded (m :: held) rest
  | held, Act.unlock m :: rest => unguarded (held.erase m) rest
  | held, Act.access q :: rest =>
    if Mutex.m_buf ∈ held then unguarded held rest else q :: unguarded held rest

/-- The state with one pending batch: IMU samples at 0.01 and 0.03 and a
feature bundle at 0.02 in the queues, `relo_buf` empty, `td = 0`. -/
def stateOneBatch : State := stateWith [imuAt (1 / 100), imuAt (3 / 100)] [featureAt (2 / 100)]

/-- The state with one pending batch and two relocalization messages queued. -/
def stateReloBatch : State := { stateOneBatch with relo_buf := [reloAt 1 7, reloAt 2 9] }

/-! ## Double-precision arithmetic -/

/-- Rounding to the nearest integer, a tie going to the even neighbour. -/
def roundHalfEven (v : ℚ) : Int :=
  if v - ⌊v⌋ < 1 / 2 then ⌊v⌋
  else if 1 / 2 < v - ⌊v⌋ then ⌊v⌋ + 1
  else if ⌊v⌋ % 2 = 0 then ⌊v⌋ else ⌊v⌋ + 1

/-- Scales `a > 0` by powers of two into the range `[2^52, 2^53)` of a 53-bit
significand; the result is the scaled value and the binary exponent taken out,
so that `a = result.1 * 2 ^ result.2` up to the `fuel` given. -/
def normalizeSignificand : Nat → ℚ → Int → ℚ × Int
  | 0, a, e => (a, e)
  | fuel + 1, a, e =>
    if a < 2 ^ 52 then normalizeSignificand fuel (a * 2) (e - 1)
    else if 2 ^ 53 ≤ a then normalizeSignificand fuel (a / 2) (e + 1)
    else (a, e)

/-- The value of type `double` (IEEE-754 binary64, round to nearest, ties to
even) that a `double` operation with exact result `v` returns. The exponent
range is not bounded: no overflow and no subnormal numbers, which the time
stamps of the node stay far away from. -/
def roundDouble (v : ℚ) : ℚ :=
  if v = 0 then 0
  else
    (if v < 0 then -1 else 1) *
      ((roundHalfEven (normalizeSignificand 2200 |v| 0).1 : Int) : ℚ) *
      2 ^ (normalizeSignificand 2200 |v| 0).2

/-- Lines 298-341 with the arithmetic of the type `double`: the body of
`processImuMsg` in which the result of every `double` operation goes through
the rounding `fl`, each product and each sum on its own. With `fl` the identity
this is `processImuMsg`; the machine runs it with `fl = roundDouble`. -/
def processImuMsgRounded (fl : ℚ → ℚ) (env : Env) (img_msg : PointCloud) (s : State)
    (d r : Vec3) (imu_msg : ImuMsg) : Except Fault (State × Vec3 × Vec3) :=
  let t := imu_msg.stamp
  let img_t := fl (img_msg.stamp + s.estimator.td)
  if t ≤ img_t then
    let s := if s.current_time < 0 then s.setClock t else s
    let dt := fl (t - s.current_time)
    if ¬ (dt ≥ 0) then Except.error Fault.assert_dt
    else
      let s := s.setClock t
      let d := imu_msg.linear_acceleration
      let r := imu_msg.angular_velocity
      Except.ok ({ s with estimator := s.estimator.doProcessIMU env dt d r }, d, r)
  else
    let dt_1 := fl (img_t - s.current_time)
    let dt_2 := fl (t - img_t)
    let s := s.setClock img_t
    if ¬ (dt_1 ≥ 0) then Except.error Fault.assert_dt_1
    else if ¬ (dt_2 ≥ 0) then Except.error Fault.assert_dt_2
    else if ¬ (fl (dt_1 + dt_2) > 0) then Except.error Fault.assert_dt_sum
    else
      let w1 := fl (dt_2 / fl (dt_1 + dt_2))
      let w2 := fl (dt_1 / fl (dt_1 + dt_2))
      let d : Vec3 :=
        ⟨fl (fl (w1 * d.x) + fl (w2 * imu_msg.linear_acceleration.x)),
         fl (fl (w1 * d.y) + fl (w2 * imu_msg.linear_acceleration.y)),
         fl (fl (w1 * d.z) + fl (w2 * imu_msg.linear_acceleration.z))⟩
      let r : Vec3 :=
        ⟨fl (fl (w1 * r.x) + fl (w2 * imu_msg.angular_velocity.x)),
         fl (fl (w1 * r.y) + fl (w2 * imu_msg.angular_velocity.y)),
         fl (fl (w1 * r.z) + fl (w2 * imu_msg.angular_velocity.z))⟩
      Except.ok ({ s with estimator := s.estimator.doProcessIMU env dt_1 d r }, d, r)

/-- Lines 296-342 with the arithmetic of the type `double`. -/
def imuLoopRounded (fl : ℚ → ℚ) (env : Env) (img_msg : PointCloud) :
    List ImuMsg → State → Vec3 → Vec3 → Except Fault State
  | [], s, _, _ => Except.ok s
  | imu_msg :: rest, s, d, r =>
    match processImuMsgRounded fl env img_msg s d r imu_msg with
    | Except.error f => Except.error f
    | Except.ok (s1, d1, r1) => imuLoopRounded fl env img_msg rest s1 d1 r1

/-- The batches that `getMeasurements` returns in the state an execution ends
with. -/
def batchesOf : Except Fault State → Option (List Batch)
  | Except.ok s =>
    match getMeasurements s with
    | some (measurements, _) => some measurements
    | none => none
  | Except.error _ => none

/-- The final clock and the `dt` arguments of the IMU loop, run with the
rounding `fl` on the first batch that `getMeasurements` returns in the state an
execution ends with. -/
def firstBatchClockAndDts (fl : ℚ → ℚ) (env : Env) : Except Fault State → Option (ℚ × List ℚ)
  | Except.ok s =>
    match getMeasurements s with
    | some (measurement :: _, s1) =>
      clockAndDts (imuLoopRounded fl env measurement.2 measurement.1 s1 ⟨0, 0, 0⟩ ⟨0, 0, 0⟩)
    | _ => none
  | Except.error _ => none

/-- The messages of a run with a gap in the IMU stream: a first feature bundle
(skipped by `feature_callback`), IMU samples stamped with the `double` values
of 0.05, 0.1 and 0.5, and a feature bundle stamped with the `double` value of
0.45. -/
def eventsGap : List Event :=
  [Event.feature (featureAt 0), Event.imu (imuAt (roundDouble (1 / 20))),
    Event.imu (imuAt (roundDouble (1 / 10))), Event.imu (imuAt (roundDouble (1 / 2))),
    Event.feature (featureAt (roundDouble (9 / 20)))]

/-- What every run keeps true of the IMU queue and the dispatcher clock, restarts
included: the buffered IMU time stamps are in order, non-negative and at most
`last_imu_t`, and the clock is the sentinel or a non-negative time not after
any buffered sample. -/
def QueueClockInv (s : State) : Prop :=
  s.imu_buf.Pairwise (fun a b => a.stamp ≤ b.stamp) ∧
    (∀ m ∈ s.imu_buf, 0 ≤ m.stamp ∧ m.stamp ≤ s.last_imu_t) ∧
    0 ≤ s.last_imu_t ∧
    (s.current_time = -1 ∨
      (0 ≤ s.current_time ∧ s.current_time ≤ s.last_imu_t ∧
        ∀ m ∈ s.imu_buf, s.current_time ≤ m.stamp))

/-- The dispatcher iteration started in state `s` hands the batch `b` to the
IMU loop in state `si`: `b` is one of the batches `getMeasurements` returns in
`s`, and `si` is the state left by the processing of the batches before it. -/
def Receives (env : Env) (s : State) (b : Batch) (si : State) : Prop :=
  ∃ bs s1 before after, getMeasurements s = some (bs, s1) ∧ bs = before ++ b :: after ∧
    processLoop env before s1 = Except.ok si

/-- The state that `getMeasurements` leaves. -/
def afterGetMeasurements (s : State) : State :=
  match getMeasurements s with
  | some (_, s1) => s1
  | none => s

/-- The messages of scenario S1 as the callbacks receive them: a first feature
bundle (skipped by `feature_callback`), IMU samples at 0.00, 0.01, 0.02, 0.03,
0.04, and the feature bundle at 0.025. -/
def eventsS1 : List Event :=
  [Event.feature (featureAt 0), Event.imu (imuAt 0), Event.imu (imuAt (1 / 100)),
    Event.imu (imuAt (2 / 100)), Event.imu (imuAt (3 / 100)), Event.imu (imuAt (4 / 100)),
    Event.feature (featureAt (25 / 1000))]

/-- The state after the messages of `eventsS1`, from the initial state with
`td = 0`. -/
def stateS1 : State :=
  feature_callback
    ([imuAt 0, imuAt (1 / 100), imuAt (2 / 100), imuAt (3 / 100), imuAt (4 / 100)].foldl
      imu_callback
      (feature_callback (State.initial (estimatorWith 0 SolverFlag.INITIAL)) (featureAt 0)))
    (featureAt (25 / 1000))

/-! # Properties -/

/-! ## getMeasurements -/

theorem collectIMUs_spec (tf : ℚ) :
    ∀ (buf IMUs : List ImuMsg), (∃ m ∈ buf, ¬ m.stamp < tf) →
      ∃ pre last post, buf = pre ++ last :: post ∧ (∀ m ∈ pre, m.stamp < tf) ∧
        ¬ last.stamp < tf ∧ collectIMUs tf buf IMUs = some (IMUs ++ pre ++ [last], last :: post) := by
  intro buf
  induction buf with
  | nil => intro IMUs h; simp at h
  | cons m rest ih =>
    intro IMUs h
    by_cases hm : m.stamp < tf
    · have h1 : ∃ m ∈ rest, ¬ m.stamp < tf := by
        obtain ⟨x, hx, hx2⟩ := h
        rcases List.mem_cons.mp hx with rfl | hx
        · exact absurd hm hx2
        · exact ⟨x, hx, hx2⟩
      obtain ⟨pre, last, post, h2, h3, h4, h5⟩ := ih (IMUs ++ [m]) h1
      refine ⟨m :: pre, last, post, by simp [h2], ?_, h4, ?_⟩
      · intro x hx
        rcases List.mem_cons.mp hx with rfl | hx
        · exact hm
        · exact h3 x hx
      · simp [collectIMUs, hm, h5]
    · exact ⟨[], m, rest, rfl, by simp, hm, by simp [collectIMUs, hm]⟩

/-- The accumulator `measurements` only grows at its end. -/
theorem getMeasurementsLoop_acc (td : ℚ) :
    ∀ (feature_buf : List PointCloud) (imu_buf : List ImuMsg) (sw : Int) (w : List Warn)
      (ms : List Batch),
      getMeasurementsLoop td feature_buf imu_buf sw w ms =
        (getMeasurementsLoop td feature_buf imu_buf sw w []).map (fun r => (ms ++ r.1, r.2)) := by
  intro feature_buf
  induction feature_buf with
  | nil => intro imu_buf sw w ms; simp [getMeasurementsLoop]
  | cons img fb ih =>
    intro imu_buf sw w ms
    cases imu_buf with
    | nil => simp [getMeasurementsLoop]
    | cons front rest =>
      rw [getMeasurementsLoop, getMeasurementsLoop]
      by_cases h1 : ((front :: rest).getLast (List.cons_ne_nil front rest)).stamp > img.stamp + td
      · by_cases h2 : front.stamp < img.stamp + td
        · simp only [h1, h2, not_true_eq_false, if_false]
          generalize collectIMUs (img.stamp + td) (front :: rest) [] = c
          cases c with
          | none => rfl
          | some p =>
            obtain ⟨IMUs, buf1⟩ := p
            show getMeasurementsLoop td fb buf1 sw _ (ms ++ [(IMUs, img)]) =
              Option.map (fun r => (ms ++ r.1, r.2))
                (getMeasurementsLoop td fb buf1 sw _ ([] ++ [(IMUs, img)]))
            rw [ih _ _ _ (ms ++ [(IMUs, img)]), ih _ _ _ ([] ++ [(IMUs, img)])]
            simp [Option.map_map, Function.comp_def]
        · simp only [h1, h2, not_true_eq_false, not_false_eq_true, if_false, if_true]
          exact ih _ _ _ _
      · simp [h1]

/-- The three ways one turn of the loop of `getMeasurements` goes when both
queues are non-empty: wait, drop the front feature, or form a batch. -/
theorem getMeasurementsLoop_step (td : ℚ) (img : PointCloud) (fb : List PointCloud)
    (front : ImuMsg) (rest : List ImuMsg) (sw : Int) (w : List Warn) :
    (¬ (((front :: rest).getLast (List.cons_ne_nil front rest)).stamp > img.stamp + td) ∧
      getMeasurementsLoop td (img :: fb) (front :: rest) sw w [] =
        some ([], ⟨front :: rest, img :: fb, sw + 1, w⟩)) ∨
    (((front :: rest).getLast (List.cons_ne_nil front rest)).stamp > img.stamp + td ∧
      ¬ (front.stamp < img.stamp + td) ∧
      getMeasurementsLoop td (img :: fb) (front :: rest) sw w [] =
        getMeasurementsLoop td fb (front :: rest) sw (w ++ [Warn.throw_img]) []) ∨
    (((front :: rest).getLast (List.cons_ne_nil front rest)).stamp > img.stamp + td ∧
      front.stamp < img.stamp + td ∧
      ∃ pre last post, rest = pre ++ last :: post ∧
        (∀ m ∈ front :: pre, m.stamp < img.stamp + td) ∧ img.stamp + td ≤ last.stamp ∧
        getMeasurementsLoop td (img :: fb) (front :: rest) sw w [] =
          (getMeasurementsLoop td fb (last :: post) sw w []).map
            (fun r => ((front :: pre ++ [last], img) :: r.1, r.2))) := by
  by_cases h1 : ((front :: rest).getLast (List.cons_ne_nil front rest)).stamp > img.stamp + td
  · by_cases h2 : front.stamp < img.stamp + td
    · right; right
      refine ⟨h1, h2, ?_⟩
      obtain ⟨pre, last, post, h3, h4, h5, h6⟩ :=
        collectIMUs_spec (img.stamp + td) (front :: rest) []
          ⟨_, List.getLast_mem _, not_lt.mpr (le_of_lt h1)⟩
      cases pre with
      | nil =>
        simp at h3
        exact absurd (h3.1 ▸ h2) h5
      | cons p pre =>
        simp at h3
        obtain ⟨hp, hrest⟩ := h3
        subst hp
        refine ⟨pre, last, post, hrest, h4, not_lt.mp h5, ?_⟩
        rw [getMeasurementsLoop]
        simp only [h1, h2, not_true_eq_false, if_false, h6]
        rw [getMeasurementsLoop_acc]
        simp
    · right; left
      refine ⟨h1, h2, ?_⟩
      rw [getMeasurementsLoop]
      simp only [h1, h2, not_true_eq_false, not_false_eq_true, if_false, if_true]
  · left
    refine ⟨h1, ?_⟩
    rw [getMeasurementsLoop]
    simp only [h1, not_false_eq_true, if_true]

theorem getMeasurementsLoop_batchInv (td : ℚ) :
    ∀ (feature_buf : List PointCloud) (imu_buf : List ImuMsg) (sw : Int) (w : List Warn),
      ∃ r, getMeasurementsLoop td feature_buf imu_buf sw w [] = some r ∧
        ∀ b ∈ r.1, BatchInv td b := by
  intro feature_buf
  induction feature_buf with
  | nil => intro imu_buf sw w; exact ⟨_, rfl, by simp⟩
  | cons img fb ih =>
    intro imu_buf sw w
    cases imu_buf with
    | nil => exact ⟨_, rfl, by simp⟩
    | cons front rest =>
      rcases getMeasurementsLoop_step td img fb front rest sw w with
        ⟨_, h⟩ | ⟨_, _, h⟩ | ⟨_, h2, pre, last, post, _, h4, h5, h⟩
      · exact ⟨_, h, by simp⟩
      · rw [h]; exact ih _ _ _
      · obtain ⟨r, hr, hr2⟩ := ih (last :: post) sw w
        refine ⟨_, by rw [h, hr]; rfl, ?_⟩
        intro b hb
        rcases List.mem_cons.mp hb with rfl | hb
        · refine ⟨?_, ⟨last, ?_, h5⟩, ⟨front, rfl, h2⟩⟩
          · intro m hm
            have : (front :: pre ++ [last]).dropLast = front :: pre := List.dropLast_concat
            simp only at hm
            rw [this] at hm
            exact h4 m hm
          · exact List.getLast?_concat _
        · exact hr2 b hb
theorem getMeasurements_eq (s : State) :
    getMeasurements s =
      (getMeasurementsLoop s.estimator.td s.feature_buf s.imu_buf s.sum_of_wait s.warns []).map
        (fun r => (r.1, { s with
          imu_buf := r.2.imu_buf
          feature_buf := r.2.feature_buf
          sum_of_wait := r.2.sum_of_wait
          warns := r.2.warns })) := by
  unfold getMeasurements getMeasurementsBufs
  cases getMeasurementsLoop s.estimator.td s.feature_buf s.imu_buf s.sum_of_wait s.warns [] with
  | none => rfl
  | some r => rfl

/-- C1: for every content of the queues and every `td`, `getMeasurements` returns,
and each batch `(IMUs, img)` it returns satisfies the batch invariant: with
`tf = img.t + td`, every sample but the last has `t < tf`, the last has `t ≥ tf`,
and the first has `t < tf`. -/
theorem C1_getMeasurements_batch_invariant (s : State) :
    ∃ measurements s1, getMeasurements s = some (measurements, s1) ∧
      ∀ b ∈ measurements,
        (∀ m ∈ b.1.dropLast, m.stamp < b.2.stamp + s.estimator.td) ∧
        (∃ last, b.1.getLast? = some last ∧ b.2.stamp + s.estimator.td ≤ last.stamp) ∧
        (∃ first, b.1.head? = some first ∧ first.stamp < b.2.stamp + s.estimator.td) := by
  obtain ⟨r, hr, hr2⟩ :=
    getMeasurementsLoop_batchInv s.estimator.td s.feature_buf s.imu_buf s.sum_of_wait s.warns
  refine ⟨r.1, _, by rw [getMeasurements_eq, hr]; rfl, hr2⟩

/-- C5: when both queues are non-empty and `imu_buf.back().t ≤ feature_buf.front().t + td`,
`getMeasurements` returns the empty list, leaves the two queues (and everything
else) as they are, and adds exactly one to `sum_of_wait`. -/
theorem C5_getMeasurements_wait (s : State) (img : PointCloud) (fb : List PointCloud)
    (back : ImuMsg) (hf : s.feature_buf = img :: fb) (hb : s.imu_buf.getLast? = some back)
    (h : back.stamp ≤ img.stamp + s.estimator.td) :
    getMeasurements s = some ([], { s with sum_of_wait := s.sum_of_wait + 1 }) := by
  rw [getMeasurements_eq, hf]
  cases hi : s.imu_buf with
  | nil => rw [hi] at hb; simp at hb
  | cons front rest =>
    have hback : (front :: rest).getLast (List.cons_ne_nil front rest) = back := by
      rw [hi, List.getLast?_eq_getLast _ (List.cons_ne_nil front rest)] at hb
      exact Option.some.inj hb
    rcases getMeasurementsLoop_step s.estimator.td img fb front rest s.sum_of_wait s.warns with
      ⟨_, h2⟩ | ⟨h1, _⟩ | ⟨h1, _⟩
    · rw [h2]
      rfl
    · rw [hback] at h1; exact absurd h (not_le.mpr h1)
    · rw [hback] at h1; exact absurd h (not_le.mpr h1)

/-- Witness of C5, scenario S3: IMU at 0.00 and 0.01, feature at 0.02, `td = 0`. -/
theorem C5_getMeasurements_wait_witness :
    (stateWith [imuAt 0, imuAt (1 / 100)] [featureAt (2 / 100)]).feature_buf
        = featureAt (2 / 100) :: [] ∧
      (stateWith [imuAt 0, imuAt (1 / 100)] [featureAt (2 / 100)]).imu_buf.getLast?
        = some (imuAt (1 / 100)) ∧
      (imuAt (1 / 100)).stamp ≤ (featureAt (2 / 100)).stamp
        + (stateWith [imuAt 0, imuAt (1 / 100)] [featureAt (2 / 100)]).estimator.td ∧
      getMeasurements (stateWith [imuAt 0, imuAt (1 / 100)] [featureAt (2 / 100)]) =
        some ([], { stateWith [imuAt 0, imuAt (1 / 100)] [featureAt (2 / 100)] with
          sum_of_wait := 0 + 1 }) :=
  ⟨rfl, rfl, by norm_num [imuAt, featureAt, stateWith, State.initial, estimatorWith],
    C5_getMeasurements_wait _ (featureAt (2 / 100)) [] (imuAt (1 / 100)) rfl rfl
      (by norm_num [imuAt, featureAt, stateWith, State.initial, estimatorWith])⟩

/-- C6: whenever the loop of `getMeasurements` meets a front feature `img` with
`imu_buf.front().t ≥ tf` while `imu_buf.back().t > tf` (`tf = img.t + td`), it
pops `img` from `feature_buf`, adds no batch, leaves `imu_buf` as it is, and goes
on with the next feature: the rest of the call is the call on the remaining
features, with the same IMU queue and the same batches so far. -/
theorem C6_getMeasurements_drop (td : ℚ) (img : PointCloud) (fb : List PointCloud)
    (front : ImuMsg) (rest : List ImuMsg) (sw : Int) (w : List Warn) (ms : List Batch)
    (h1 : front.stamp ≥ img.stamp + td)
    (h2 : ((front :: rest).getLast (List.cons_ne_nil front rest)).stamp > img.stamp + td) :
    getMeasurementsLoop td (img :: fb) (front :: rest) sw w ms =
      getMeasurementsLoop td fb (front :: rest) sw (w ++ [Warn.throw_img]) ms := by
  rw [getMeasurementsLoop]
  simp only [h2, not_lt.mpr h1, not_true_eq_false, not_false_eq_true, if_false, if_true]

/-- Witness of C6, scenario S2: IMU at 1.00 and 1.01, features at 0.50 and 1.005,
`td = 0`: the first feature is dropped, and the call yields exactly one batch,
for the feature at 1.005, with the IMU list 1.00, 1.01. -/
theorem C6_getMeasurements_drop_witness :
    (imuAt 1).stamp ≥ (featureAt (1 / 2)).stamp + 0 ∧
      (([imuAt 1, imuAt (101 / 100)]).getLast (List.cons_ne_nil _ _)).stamp
        > (featureAt (1 / 2)).stamp + 0 ∧
      getMeasurementsLoop 0 [featureAt (1 / 2), featureAt (201 / 200)]
          [imuAt 1, imuAt (101 / 100)] 0 [] [] =
        some ([([imuAt 1, imuAt (101 / 100)], featureAt (201 / 200))],
          ⟨[imuAt (101 / 100)], [], 0, [Warn.throw_img]⟩) := by
  have h1 : (imuAt 1).stamp ≥ (featureAt (1 / 2)).stamp + 0 := by
    norm_num [imuAt, featureAt]
  have h2 : (([imuAt 1, imuAt (101 / 100)]).getLast (List.cons_ne_nil _ _)).stamp
      > (featureAt (1 / 2)).stamp + 0 := by
    norm_num [imuAt, featureAt]
  refine ⟨h1, h2, ?_⟩
  rw [C6_getMeasurements_drop 0 (featureAt (1 / 2)) [featureAt (201 / 200)] (imuAt 1)
    [imuAt (101 / 100)] 0 [] [] h1 h2]
  norm_num [getMeasurementsLoop, collectIMUs, imuAt, featureAt]
theorem chain_get {α : Type} (R : α → α → Prop) :
    ∀ (l : List α), List.Chain' R l → ∀ (k : Nat) (a b : α),
      l.get? k = some a → l.get? (k + 1) = some b → R a b := by
  intro l
  induction l with
  | nil => intro _ k a b h; simp at h
  | cons x l ih =>
    intro hc k a b ha hb
    cases l with
    | nil => simp at hb
    | cons y l =>
      rw [List.chain'_cons] at hc
      cases k with
      | zero =>
        simp at ha hb
        subst ha; subst hb
        exact hc.1
      | succ k =>
        exact ih hc.2 k a b (by simpa using ha) (by simpa using hb)

/-- The batches of one call are linked by their straddle samples; the first batch
starts at the front of the IMU queue, and the straddle sample of the last batch
is the front of the IMU queue that is left. -/
theorem getMeasurementsLoop_linked (td : ℚ) :
    ∀ (fb : List PointCloud) (imu_buf : List ImuMsg) (sw : Int) (w : List Warn)
      (r : List Batch × Bufs), getMeasurementsLoop td fb imu_buf sw w [] = some r →
      (∀ b, r.1.head? = some b → b.1.head? = imu_buf.head?) ∧
      List.Chain' SharesStraddle r.1 ∧
      (∀ a, r.1.getLast? = some a →
        ∃ m, a.1.getLast? = some m ∧ r.2.imu_buf.head? = some m) ∧
      (r.1 = [] → r.2.imu_buf = imu_buf) := by
  intro fb
  induction fb with
  | nil =>
    intro imu_buf sw w r h
    simp [getMeasurementsLoop] at h
    subst h
    simp
  | cons img fb ih =>
    intro imu_buf sw w r h
    cases imu_buf with
    | nil =>
      simp [getMeasurementsLoop] at h
      subst h
      simp
    | cons front rest =>
      rcases getMeasurementsLoop_step td img fb front rest sw w with
        ⟨_, h2⟩ | ⟨_, _, h2⟩ | ⟨_, _, pre, last, post, _, _, _, h2⟩
      · rw [h2] at h
        simp at h
        subst h
        simp
      · rw [h2] at h
        exact ih _ _ _ _ h
      · rw [h2] at h
        cases hr : getMeasurementsLoop td fb (last :: post) sw w [] with
        | none => rw [hr] at h; simp at h
        | some r1 =>
          rw [hr] at h
          simp only [Option.map_some', Option.some.injEq] at h
          subst h
          obtain ⟨i1, i2, i3, i4⟩ := ih _ _ _ _ hr
          have hlast : (front :: pre ++ [last]).getLast? = some last :=
            List.getLast?_concat _
          refine ⟨?_, ?_, ?_, by simp⟩
          · intro b hb
            simp at hb
            subst hb
            rfl
          · rw [List.chain'_cons']
            refine ⟨?_, i2⟩
            intro y hy
            exact ⟨last, hlast, by rw [i1 y hy]; rfl⟩
          · intro a ha
            cases hr1 : r1.1 with
            | nil =>
              simp [hr1] at ha
              subst ha
              refine ⟨last, hlast, ?_⟩
              show r1.2.imu_buf.head? = some last
              rw [i4 hr1]
              rfl
            | cons b1 bs1 =>
              apply i3
              simp only [hr1] at ha ⊢
              rw [List.getLast?_cons_cons] at ha
              exact ha
theorem predict_frame (s : State) (m : ImuMsg) :
    (predict s m).estimator = s.estimator ∧ (predict s m).imu_buf = s.imu_buf ∧
      (predict s m).feature_buf = s.feature_buf ∧ (predict s m).relo_buf = s.relo_buf ∧
      (predict s m).current_time = s.current_time ∧ (predict s m).last_imu_t = s.last_imu_t ∧
      (predict s m).clock_log = s.clock_log ∧ (predict s m).pubs = s.pubs ∧
      (predict s m).init_feature = s.init_feature := by
  unfold predict
  split <;> simp

theorem imu_callback_reject (s : State) (m : ImuMsg) (h : m.stamp ≤ s.last_imu_t) :
    imu_callback s m = { s with warns := s.warns ++ [Warn.imu_disorder] } := by
  unfold imu_callback
  rw [if_pos h]

theorem imu_callback_accept (s : State) (m : ImuMsg) (h : ¬ m.stamp ≤ s.last_imu_t) :
    imu_callback s m =
      if s.estimator.solver_flag = SolverFlag.NON_LINEAR then
        { predict { s with last_imu_t := m.stamp, imu_buf := s.imu_buf ++ [m] } m with
          pubs := s.pubs ++ [Pub.latestOdometry
            (predict { s with last_imu_t := m.stamp, imu_buf := s.imu_buf ++ [m] } m).tmp_P
            (predict { s with last_imu_t := m.stamp, imu_buf := s.imu_buf ++ [m] } m).tmp_Q
            (predict { s with last_imu_t := m.stamp, imu_buf := s.imu_buf ++ [m] } m).tmp_V
            m.stamp] }
      else predict { s with last_imu_t := m.stamp, imu_buf := s.imu_buf ++ [m] } m := by
  unfold imu_callback
  rw [if_neg h]
  simp only [(predict_frame _ m).1, (predict_frame _ m).2.2.2.2.2.2.2.1]

theorem imu_callback_frame (s : State) (m : ImuMsg) :
    (imu_callback s m).estimator = s.estimator ∧
      (∃ extra, (imu_callback s m).imu_buf = s.imu_buf ++ extra) ∧
      (imu_callback s m).current_time = s.current_time ∧
      (imu_callback s m).clock_log = s.clock_log := by
  by_cases h : m.stamp ≤ s.last_imu_t
  · rw [imu_callback_reject s m h]
    exact ⟨rfl, ⟨[], (List.append_nil _).symm⟩, rfl, rfl⟩
  · rw [imu_callback_accept s m h]
    split
    · simp only [(predict_frame _ m).1, (predict_frame _ m).2.1, (predict_frame _ m).2.2.2.2.1,
        (predict_frame _ m).2.2.2.2.2.2.1]
      exact ⟨trivial, ⟨[m], rfl⟩, trivial, trivial⟩
    · simp only [(predict_frame _ m).1, (predict_frame _ m).2.1, (predict_frame _ m).2.2.2.2.1,
        (predict_frame _ m).2.2.2.2.2.2.1]
      exact ⟨trivial, ⟨[m], rfl⟩, trivial, trivial⟩

theorem feature_callback_frame (s : State) (f : PointCloud) :
    (feature_callback s f).estimator = s.estimator ∧
      (feature_callback s f).imu_buf = s.imu_buf ∧
      (feature_callback s f).current_time = s.current_time ∧
      (feature_callback s f).clock_log = s.clock_log := by
  unfold feature_callback
  split <;> simp

theorem run_enqueue (env : Env) :
    ∀ (enq : List Event) (s : State), (∀ ev ∈ enq, ev.isEnqueue = true) →
      ∃ s2, run env enq s = Except.ok s2 ∧ s2.estimator = s.estimator ∧
        ∃ extra, s2.imu_buf = s.imu_buf ++ extra := by
  intro enq
  induction enq with
  | nil => intro s _; exact ⟨s, rfl, rfl, [], by simp⟩
  | cons ev enq ih =>
    intro s h
    have hev : ev.isEnqueue = true := h ev (List.mem_cons_self _ _)
    have hrest : ∀ e ∈ enq, e.isEnqueue = true := fun e he => h e (List.mem_cons_of_mem _ he)
    cases ev with
    | imu m =>
      obtain ⟨s2, h1, h2, extra, h3⟩ := ih (imu_callback s m) hrest
      obtain ⟨f1, ⟨x, f2⟩, _, _⟩ := imu_callback_frame s m
      exact ⟨s2, by simp [run, step, h1], by rw [h2, f1], x ++ extra, by rw [h3, f2]; simp⟩
    | feature f =>
      obtain ⟨s2, h1, h2, extra, h3⟩ := ih (feature_callback s f) hrest
      obtain ⟨f1, f2, _, _⟩ := feature_callback_frame s f
      exact ⟨s2, by simp [run, step, h1], by rw [h2, f1], extra, by rw [h3, f2]⟩
    | relocalization r => simp [Event.isEnqueue] at hev
    | restart d => simp [Event.isEnqueue] at hev
    | dispatch => simp [Event.isEnqueue] at hev

theorem getMeasurements_some (s : State) (bs : List Batch) (s1 : State)
    (h : getMeasurements s = some (bs, s1)) :
    ∃ r, getMeasurementsLoop s.estimator.td s.feature_buf s.imu_buf s.sum_of_wait s.warns []
        = some r ∧ bs = r.1 ∧ s1.imu_buf = r.2.imu_buf ∧ s1.feature_buf = r.2.feature_buf ∧
        s1.estimator = s.estimator ∧ s1.current_time = s.current_time ∧
        s1.clock_log = s.clock_log ∧ s1.last_imu_t = s.last_imu_t ∧
        s1.relo_buf = s.relo_buf := by
  rw [getMeasurements_eq] at h
  cases hr : getMeasurementsLoop s.estimator.td s.feature_buf s.imu_buf s.sum_of_wait s.warns []
    with
  | none => rw [hr] at h; simp at h
  | some r =>
    rw [hr] at h
    simp only [Option.map_some', Option.some.injEq, Prod.mk.injEq] at h
    obtain ⟨h1, h2⟩ := h
    subst h2
    exact ⟨r, rfl, h1.symm, rfl, rfl, rfl, rfl, rfl, rfl, rfl⟩

theorem getMeasurements_total (s : State) : ∃ bs s1, getMeasurements s = some (bs, s1) := by
  obtain ⟨r, hr, _⟩ :=
    getMeasurementsLoop_batchInv s.estimator.td s.feature_buf s.imu_buf s.sum_of_wait s.warns
  exact ⟨r.1, _, by rw [getMeasurements_eq, hr]; rfl⟩

/-- C2: for fixed `td`, consecutive batches share their straddle sample. Within
the list returned by one call of `getMeasurements`, the last IMU sample of each
batch is the first IMU sample of the next; right after the call the straddle
sample of the last batch is the front of `imu_buf`; and after any sequence of
`imu_callback` / `feature_callback` enqueues, the first batch of the next call
starts with that same sample. -/
theorem C2_straddle_reuse (env : Env) (s : State) (enq : List Event)
    (henq : ∀ ev ∈ enq, ev.isEnqueue = true) :
    ∃ bs s1, getMeasurements s = some (bs, s1) ∧
      (∀ k a b, bs.get? k = some a → bs.get? (k + 1) = some b → SharesStraddle a b) ∧
      (∀ a, bs.getLast? = some a →
        ∃ m, a.1.getLast? = some m ∧ s1.imu_buf.head? = some m ∧
          ∃ s2 bs2 s3, run env enq s1 = Except.ok s2 ∧ getMeasurements s2 = some (bs2, s3) ∧
            ∀ b, bs2.head? = some b → SharesStraddle a b) := by
  obtain ⟨bs, s1, h⟩ := getMeasurements_total s
  obtain ⟨r, hr, hbs, himu, _, hest, _⟩ := getMeasurements_some s bs s1 h
  obtain ⟨_, l2, l3, _⟩ := getMeasurementsLoop_linked _ _ _ _ _ r hr
  refine ⟨bs, s1, h, ?_, ?_⟩
  · rw [hbs]
    exact chain_get SharesStraddle r.1 l2
  · intro a ha
    rw [hbs] at ha
    obtain ⟨m, hm1, hm2⟩ := l3 a ha
    refine ⟨m, hm1, by rw [himu]; exact hm2, ?_⟩
    obtain ⟨s2, hs2, _, extra, hx⟩ := run_enqueue env enq s1 henq
    obtain ⟨bs2, s3, h2⟩ := getMeasurements_total s2
    refine ⟨s2, bs2, s3, hs2, h2, ?_⟩
    intro b hb
    obtain ⟨r2, hr2, hbs2, _⟩ := getMeasurements_some s2 bs2 s3 h2
    obtain ⟨k1, _, _, _⟩ := getMeasurementsLoop_linked _ _ _ _ _ r2 hr2
    rw [hbs2] at hb
    refine ⟨m, hm1, ?_⟩
    rw [k1 b hb, hx, himu]
    cases hq : r.2.imu_buf with
    | nil => rw [hq] at hm2; simp at hm2
    | cons x xs => rw [hq] at hm2; simpa using hm2

/-- Witness of C2: IMU at 0.00 ... 0.04 and a feature at 0.025, then the
enqueues of an IMU sample at 0.05 and of two features (the first one is the
one `feature_callback` skips). -/
theorem C2_straddle_reuse_witness :
    (∀ ev ∈ [Event.imu (imuAt (5 / 100)), Event.feature (featureAt (45 / 1000)),
        Event.feature (featureAt (45 / 1000))], ev.isEnqueue = true) ∧
    ∃ bs s1,
      getMeasurements (stateWith
        [imuAt 0, imuAt (1 / 100), imuAt (2 / 100), imuAt (3 / 100), imuAt (4 / 100)]
        [featureAt (25 / 1000)]) = some (bs, s1) ∧
      (∀ k a b, bs.get? k = some a → bs.get? (k + 1) = some b → SharesStraddle a b) ∧
      (∀ a, bs.getLast? = some a →
        ∃ m, a.1.getLast? = some m ∧ s1.imu_buf.head? = some m ∧
          ∃ s2 bs2 s3,
            run idleEnv
              [Event.imu (imuAt (5 / 100)), Event.feature (featureAt (45 / 1000)),
                Event.feature (featureAt (45 / 1000))] s1 = Except.ok s2 ∧
            getMeasurements s2 = some (bs2, s3) ∧
            ∀ b, bs2.head? = some b → SharesStraddle a b) :=
  ⟨by simp [Event.isEnqueue],
   C2_straddle_reuse _ _ _ (by simp [Event.isEnqueue])⟩
/-- C7: `imu_callback` accepts a sample iff its time stamp is strictly greater
than `last_imu_t`. A sample with `t ≤ last_imu_t` changes nothing but the log of
warnings: the three queues, `last_imu_t`, the fast-path state and the list of
publications stay as they are. A sample with `t > last_imu_t` is appended at the
back of `imu_buf`, and `last_imu_t` becomes `t`. -/
theorem C7_imu_callback_guard (s : State) (imu_msg : ImuMsg) :
    (imu_msg.stamp ≤ s.last_imu_t →
      imu_callback s imu_msg = { s with warns := s.warns ++ [Warn.imu_disorder] }) ∧
    (imu_msg.stamp > s.last_imu_t →
      (imu_callback s imu_msg).imu_buf = s.imu_buf ++ [imu_msg] ∧
      (imu_callback s imu_msg).last_imu_t = imu_msg.stamp) := by
  constructor
  · intro h
    exact imu_callback_reject s imu_msg h
  · intro h
    rw [imu_callback_accept s imu_msg (not_le.mpr h)]
    split
    · simp only [(predict_frame _ imu_msg).2.1, (predict_frame _ imu_msg).2.2.2.2.2.1]
      exact ⟨trivial, trivial⟩
    · simp only [(predict_frame _ imu_msg).2.1, (predict_frame _ imu_msg).2.2.2.2.2.1]
      exact ⟨trivial, trivial⟩

/-- Witness of C7, scenario S4: from the initial state, the sample at 1.0 is
accepted and the sample at 0.9 that follows is rejected; the queue holds the
single sample at 1.0. -/
theorem C7_imu_callback_guard_witness :
    (imuAt 1).stamp > (State.initial (estimatorWith 0 SolverFlag.INITIAL)).last_imu_t ∧
    (imuAt (9 / 10)).stamp ≤
      (imu_callback (State.initial (estimatorWith 0 SolverFlag.INITIAL)) (imuAt 1)).last_imu_t ∧
    (imu_callback (imu_callback (State.initial (estimatorWith 0 SolverFlag.INITIAL)) (imuAt 1))
      (imuAt (9 / 10))).imu_buf = [imuAt 1] := by
  have h1 : (imuAt 1).stamp > (State.initial (estimatorWith 0 SolverFlag.INITIAL)).last_imu_t := by
    norm_num [imuAt, State.initial]
  have a1 := (C7_imu_callback_guard (State.initial (estimatorWith 0 SolverFlag.INITIAL))
    (imuAt 1)).2 h1
  have h2 : (imuAt (9 / 10)).stamp ≤
      (imu_callback (State.initial (estimatorWith 0 SolverFlag.INITIAL)) (imuAt 1)).last_imu_t := by
    rw [a1.2]
    norm_num [imuAt]
  have a2 := (C7_imu_callback_guard
    (imu_callback (State.initial (estimatorWith 0 SolverFlag.INITIAL)) (imuAt 1))
    (imuAt (9 / 10))).1 h2
  refine ⟨h1, h2, ?_⟩
  rw [a2]
  show (imu_callback (State.initial (estimatorWith 0 SolverFlag.INITIAL)) (imuAt 1)).imu_buf
    = [imuAt 1]
  rw [a1.1]
  rfl

theorem popAll_eq_nil {α : Type} : ∀ (q : List α), popAll q = [] := by
  intro q
  induction q with
  | nil => rfl
  | cons _ q ih => exact ih

/-- C8: `restart_callback` with `data = true` ends with `imu_buf` and
`feature_buf` empty, `relo_buf` unchanged, `current_time = -1`, `last_imu_t = 0`,
and has made exactly the two calls `clearState()` then `setParameter()` on the
estimator; with `data = false` it changes nothing. Two restarts in succession
leave the same queues and clocks as one, and have called `setParameter` exactly
twice. -/
theorem C8_restart_callback (env : Env) (s : State) :
    ((restart_callback env s true).imu_buf = [] ∧
      (restart_callback env s true).feature_buf = [] ∧
      (restart_callback env s true).relo_buf = s.relo_buf ∧
      (restart_callback env s true).current_time = -1 ∧
      (restart_callback env s true).last_imu_t = 0 ∧
      (restart_callback env s true).estimator =
        (s.estimator.doClearState env).doSetParameter env ∧
      (restart_callback env s true).estimator.calls =
        s.estimator.calls ++ [EstCall.clearState, EstCall.setParameter]) ∧
    restart_callback env s false = s ∧
    ((restart_callback env (restart_callback env s true) true).imu_buf =
        (restart_callback env s true).imu_buf ∧
      (restart_callback env (restart_callback env s true) true).feature_buf =
        (restart_callback env s true).feature_buf ∧
      (restart_callback env (restart_callback env s true) true).relo_buf =
        (restart_callback env s true).relo_buf ∧
      (restart_callback env (restart_callback env s true) true).current_time =
        (restart_callback env s true).current_time ∧
      (restart_callback env (restart_callback env s true) true).last_imu_t =
        (restart_callback env s true).last_imu_t ∧
      (restart_callback env (restart_callback env s true) true).estimator.calls =
        s.estimator.calls ++ [EstCall.clearState, EstCall.setParameter,
          EstCall.clearState, EstCall.setParameter] ∧
      ((restart_callback env (restart_callback env s true) true).estimator.calls.drop
        s.estimator.calls.length).count EstCall.setParameter = 2) := by
  simp [restart_callback, popAll_eq_nil, State.setClock, Estimator.doClearState,
    Estimator.doSetParameter]
theorem toInt_intCast_add_half (k : Int) (hk : 0 ≤ k) : toInt ((k : ℚ) + 1 / 2) = k := by
  have h0 : (0 : ℚ) ≤ (k : ℚ) + 1 / 2 := by
    have : (0 : ℚ) ≤ (k : ℚ) := by exact_mod_cast hk
    linarith
  unfold toInt
  rw [if_pos h0, Int.floor_eq_iff]
  constructor <;> linarith

/-- C9: for every `NUM_OF_CAM ≥ 1` and all non-negative integers `feature_id` and
`camera_id < NUM_OF_CAM`, the decoding of `v = feature_id * NUM_OF_CAM + camera_id`
done in `process` (`w = (int)(v + 0.5)`, then `w / NUM_OF_CAM` and
`w % NUM_OF_CAM`) gives `w = v` and returns `(feature_id, camera_id)`. -/
theorem C9_decodeId_roundtrip (NUM_OF_CAM feature_id camera_id : Int) (hn : 1 ≤ NUM_OF_CAM)
    (hf : 0 ≤ feature_id) (hc : 0 ≤ camera_id) (hcn : camera_id < NUM_OF_CAM) :
    toInt (((feature_id * NUM_OF_CAM + camera_id : Int) : ℚ) + 1 / 2) =
        feature_id * NUM_OF_CAM + camera_id ∧
      decodeId NUM_OF_CAM ((feature_id * NUM_OF_CAM + camera_id : Int) : ℚ) =
        (feature_id, camera_id) := by
  have hv : 0 ≤ feature_id * NUM_OF_CAM + camera_id := by positivity
  have hw := toInt_intCast_add_half _ hv
  refine ⟨hw, ?_⟩
  unfold decodeId
  simp only [hw]
  have hn0 : (0 : Int) ≤ NUM_OF_CAM := by omega
  rw [Int.tdiv_eq_ediv hv hn0, Int.tmod_eq_emod hv hn0]
  have h1 : (feature_id * NUM_OF_CAM + camera_id) / NUM_OF_CAM = feature_id := by
    rw [Int.add_comm, Int.add_mul_ediv_right _ _ (by omega), Int.ediv_eq_zero_of_lt hc hcn]
    simp
  have h2 : (feature_id * NUM_OF_CAM + camera_id) % NUM_OF_CAM = camera_id := by
    rw [Int.add_comm, Int.add_mul_emod_self, Int.emod_eq_of_lt hc hcn]
  rw [h1, h2]

/-- Witness of C9: two cameras, feature 3 seen by camera 1, channel value 7. -/
theorem C9_decodeId_roundtrip_witness :
    (1 : Int) ≤ 2 ∧ (0 : Int) ≤ 3 ∧ (0 : Int) ≤ 1 ∧ (1 : Int) < 2 ∧
      (toInt ((((3 : Int) * 2 + 1 : Int) : ℚ) + 1 / 2) = 3 * 2 + 1 ∧
        decodeId 2 (((3 : Int) * 2 + 1 : Int) : ℚ) = (3, 1)) :=
  ⟨by decide, by decide, by decide, by decide,
    C9_decodeId_roundtrip 2 3 1 (by decide) (by decide) (by decide) (by decide)⟩
theorem predict_fast (s : State) (m : ImuMsg) (h : s.init_imu = false) :
    (predict s m).fast = specStep s.estimator.g s.fast m ∧ (predict s m).init_imu = false := by
  unfold predict
  rw [h]
  simp only [Bool.false_eq_true, if_false, State.fast, specStep]
  refine ⟨?_, trivial⟩
  have hd : ∀ dt : ℚ, (1 / 2 : ℚ) * dt * dt = (1 / 2 : ℚ) * dt ^ 2 := fun dt => by ring
  rw [hd]

theorem updateLoop_fast :
    ∀ (buf : List ImuMsg) (s : State), s.init_imu = false →
      (updateLoop buf s).fast = buf.foldl (specStep s.estimator.g) s.fast ∧
      (updateLoop buf s).imu_buf = s.imu_buf ∧
      (updateLoop buf s).estimator = s.estimator := by
  intro buf
  induction buf with
  | nil => intro s _; exact ⟨rfl, rfl, rfl⟩
  | cons m buf ih =>
    intro s h
    obtain ⟨h1, h2⟩ := predict_fast s m h
    obtain ⟨i1, i2, i3⟩ := ih (predict s m) h2
    have he := (predict_frame s m).1
    have hb := (predict_frame s m).2.1
    refine ⟨?_, ?_, ?_⟩
    · show (updateLoop buf (predict s m)).fast = _
      rw [i1, h1, he]
      rfl
    · show (updateLoop buf (predict s m)).imu_buf = _
      rw [i2, hb]
    · show (updateLoop buf (predict s m)).estimator = _
      rw [i3, he]

theorem foldl_specStep_t_latest (g : Vec3) :
    ∀ (buf : List ImuMsg) (f : FastState),
      (buf.foldl (specStep g) f).t_latest =
        (match buf.getLast? with
         | some last => last.stamp
         | none => f.t_latest) := by
  intro buf
  induction buf with
  | nil => intro f; rfl
  | cons m buf ih =>
    intro f
    rw [List.foldl_cons, ih]
    cases buf with
    | nil => rfl
    | cons m2 buf =>
      rw [List.getLast?_cons_cons, List.getLast?_eq_getLast _ (List.cons_ne_nil m2 buf)]

/-- C10: with `init_imu` already false, `update()` leaves `imu_buf` unchanged and
leaves the fast-path state equal to the result of seeding it from the
sliding-window tail (and `t_latest` from `current_time`) and then applying the
midpoint-integration step of section 4.2 of the specification once per buffered
sample, front to back; `latest_time` ends at the stamp of the last buffered
sample, or at `current_time` when `imu_buf` is empty. -/
theorem C10_update_replays_buffer (env : Env) (s : State) (h : s.init_imu = false) :
    (update env s).imu_buf = s.imu_buf ∧
      (update env s).fast = s.imu_buf.foldl (specStep s.estimator.g) (specSeed env s) ∧
      (update env s).latest_time =
        (match s.imu_buf.getLast? with
         | some last => last.stamp
         | none => s.current_time) := by
  unfold update
  obtain ⟨h1, h2, _⟩ := updateLoop_fast s.imu_buf
    { s with
      latest_time := s.current_time
      tmp_P := s.estimator.Ps
      tmp_Q := env.quatOfRot s.estimator.Rs
      tmp_V := s.estimator.Vs
      tmp_Ba := s.estimator.Bas
      tmp_Bg := s.estimator.Bgs
      acc_0 := s.estimator.acc_0
      gyr_0 := s.estimator.gyr_0 } h
  refine ⟨h2, h1, ?_⟩
  have h3 := congrArg FastState.t_latest h1
  rw [foldl_specStep_t_latest] at h3
  exact h3

theorem vec3_add (a b : Vec3) : a + b = ⟨a.x + b.x, a.y + b.y, a.z + b.z⟩ := rfl
theorem vec3_sub (a b : Vec3) : a - b = ⟨a.x - b.x, a.y - b.y, a.z - b.z⟩ := rfl
theorem vec3_smul (k : ℚ) (a : Vec3) : k * a = (⟨k * a.x, k * a.y, k * a.z⟩ : Vec3) := rfl
theorem vec3_muls (a : Vec3) (k : ℚ) : a * k = (⟨a.x * k, a.y * k, a.z * k⟩ : Vec3) := rfl
theorem quat_mul (a b : Quat) : a * b =
  ⟨a.w * b.w - a.x * b.x - a.y * b.y - a.z * b.z,
   a.w * b.x + a.x * b.w + a.y * b.z - a.z * b.y,
   a.w * b.y + a.y * b.w + a.z * b.x - a.x * b.z,
   a.w * b.z + a.z * b.w + a.x * b.y - a.y * b.x⟩ := rfl

/-- Witness of C10, scenario S6: sliding-window tail `P = [1, 2, 3]`, `Q` the unit
quaternion, `V = Ba = Bg = 0`, two buffered IMU samples at 1.01 and 1.02 with
zero measurements: the position stays `[1, 2, 3]`, the clock ends at 1.02, and
the queue still holds both samples. -/
theorem C10_update_replays_buffer_witness :
    stateS6.init_imu = false ∧
      ((update idleEnv stateS6).imu_buf = stateS6.imu_buf ∧
        (update idleEnv stateS6).fast =
          stateS6.imu_buf.foldl (specStep stateS6.estimator.g) (specSeed idleEnv stateS6) ∧
        (update idleEnv stateS6).latest_time =
          (match stateS6.imu_buf.getLast? with
           | some last => last.stamp
           | none => stateS6.current_time)) ∧
      (update idleEnv stateS6).tmp_P = ⟨1, 2, 3⟩ ∧
      (update idleEnv stateS6).latest_time = 102 / 100 ∧
      (update idleEnv stateS6).imu_buf = [imuAt (101 / 100), imuAt (102 / 100)] :=
  ⟨rfl, C10_update_replays_buffer idleEnv stateS6 rfl,
    by norm_num [update, updateLoop, predict, stateS6, State.initial, estimatorWith, idleEnv,
      imuAt, deltaQ, Quat.rotate, Quat.vec, Vec3.cross, vec3_add, vec3_sub, vec3_smul,
      vec3_muls, quat_mul],
    by norm_num [update, updateLoop, predict, stateS6, State.initial, estimatorWith, idleEnv,
      imuAt],
    by rw [(C10_update_replays_buffer idleEnv stateS6 rfl).1]; rfl⟩
theorem processImuMsg_before (env : Env)
    (hk : ∀ e dt acc gyr, (env.processIMU e dt acc gyr).td = e.td)
    (img : PointCloud) (s : State) (d r : Vec3) (m : ImuMsg) (h1 : m.stamp ≤ img.stamp + s.estimator.td)
    (h2 : s.current_time < 0 ∨ s.current_time ≤ m.stamp) :
    ∃ s1, processImuMsg env img s d r m =
        Except.ok (s1, m.linear_acceleration, m.angular_velocity) ∧
      s1.current_time = m.stamp ∧ SameQueues s s1 ∧
      s1.estimator.calls = s.estimator.calls ++
        [EstCall.processIMU (m.stamp - (if s.current_time < 0 then m.stamp else s.current_time))
          m.linear_acceleration m.angular_velocity] ∧
      s1.clock_log = s.clock_log ++
        (if s.current_time < 0 then [m.stamp, m.stamp] else [m.stamp]) := by
  unfold processImuMsg
  simp only [h1, if_true]
  by_cases hc : s.current_time < 0
  · simp only [hc, if_true, State.setClock, sub_self, ge_iff_le, le_refl, not_true_eq_false,
      if_false]
    refine ⟨_, rfl, rfl, ⟨rfl, rfl, rfl, rfl, ?_, rfl⟩, ?_, ?_⟩
    · simp [Estimator.doProcessIMU, hk]
    · simp [Estimator.doProcessIMU]
    · simp
  · have h4 : s.current_time ≤ m.stamp := by
      rcases h2 with h2 | h2
      · exact absurd h2 hc
      · exact h2
    have h5 : m.stamp - s.current_time ≥ 0 := by linarith
    simp only [hc, if_false, h5, not_true_eq_false, State.setClock]
    refine ⟨_, rfl, rfl, ⟨rfl, rfl, rfl, rfl, ?_, rfl⟩, ?_, ?_⟩
    · simp [Estimator.doProcessIMU, hk]
    · simp [Estimator.doProcessIMU]
    · simp

theorem processImuMsg_straddle (env : Env)
    (hk : ∀ e dt acc gyr, (env.processIMU e dt acc gyr).td = e.td)
    (img : PointCloud) (s : State) (d r : Vec3) (m : ImuMsg) (h1 : img.stamp + s.estimator.td < m.stamp)
    (h2 : s.current_time ≤ img.stamp + s.estimator.td) :
    ∃ s1 d1 r1, processImuMsg env img s d r m = Except.ok (s1, d1, r1) ∧
      s1.current_time = img.stamp + s.estimator.td ∧ SameQueues s s1 ∧
      s1.estimator.calls = s.estimator.calls ++
        [EstCall.processIMU (img.stamp + s.estimator.td - s.current_time) d1 r1] ∧
      s1.clock_log = s.clock_log ++ [img.stamp + s.estimator.td] := by
  unfold processImuMsg
  have h3 : ¬ (m.stamp ≤ img.stamp + s.estimator.td) := not_le.mpr h1
  have h4 : img.stamp + s.estimator.td - s.current_time ≥ 0 := by linarith
  have h5 : m.stamp - (img.stamp + s.estimator.td) ≥ 0 := by linarith
  have h6 : img.stamp + s.estimator.td - s.current_time
      + (m.stamp - (img.stamp + s.estimator.td)) > 0 := by linarith
  simp only [h3, if_false, h4, h5, h6, not_true_eq_false, State.setClock]
  refine ⟨_, _, _, rfl, rfl, ⟨rfl, rfl, rfl, rfl, ?_, rfl⟩, ?_, ?_⟩
  · simp [Estimator.doProcessIMU, hk]
  · simp [Estimator.doProcessIMU]
  · simp

theorem sameQueues_trans {s s1 s2 : State} (h1 : SameQueues s s1) (h2 : SameQueues s1 s2) :
    SameQueues s s2 :=
  ⟨h2.1.trans h1.1, h2.2.1.trans h1.2.1, h2.2.2.1.trans h1.2.2.1,
    h2.2.2.2.1.trans h1.2.2.2.1, h2.2.2.2.2.1.trans h1.2.2.2.2.1,
    h2.2.2.2.2.2.trans h1.2.2.2.2.2⟩

theorem clockLogOK_append (log : List ℚ) (c t : ℚ)
    (h : List.Chain' (fun a b : ℚ => a ≤ b) log ∧ log.getLast? = some c) (hct : c ≤ t) :
    List.Chain' (fun a b : ℚ => a ≤ b) (log ++ [t]) ∧ (log ++ [t]).getLast? = some t := by
  refine ⟨?_, List.getLast?_concat _⟩
  rw [List.chain'_append]
  refine ⟨h.1, List.chain'_singleton t, ?_⟩
  intro x hx y hy
  rw [h.2] at hx
  simp at hx hy
  subst hx; subst hy
  exact hct

/-- The IMU loop from a clock that is already set: it runs through, every `dt`
is non-negative and the `dt` sum to the advance of the clock. -/
theorem imuLoop_from_clock (env : Env)
    (hk : ∀ e dt acc gyr, (env.processIMU e dt acc gyr).td = e.td) (img : PointCloud) :
    ∀ (IMUs : List ImuMsg) (s : State) (d r : Vec3),
      0 ≤ s.current_time →
      s.current_time ≤ img.stamp + s.estimator.td →
      IMUs.Pairwise (fun a b => a.stamp ≤ b.stamp) →
      (∀ m ∈ IMUs, s.current_time ≤ m.stamp) →
      ∃ s1, imuLoop env img IMUs s d r = Except.ok s1 ∧ SameQueues s s1 ∧
        s.current_time ≤ s1.current_time ∧ s1.current_time ≤ img.stamp + s.estimator.td ∧
        ((∃ m ∈ IMUs, img.stamp + s.estimator.td ≤ m.stamp) →
          s1.current_time = img.stamp + s.estimator.td) ∧
        (ClockLogOK s → ClockLogOK s1) ∧
        ∃ args, s1.estimator.calls = s.estimator.calls ++ imuCalls args ∧
          args.length = IMUs.length ∧ (∀ a ∈ args, 0 ≤ a.1) ∧
          (args.map Prod.fst).sum = s1.current_time - s.current_time := by
  intro IMUs
  induction IMUs with
  | nil =>
    intro s d r _ h1 _ _
    refine ⟨s, rfl, ⟨rfl, rfl, rfl, rfl, rfl, rfl⟩, le_refl _, h1, ?_, id, [], ?_, rfl, ?_, ?_⟩
    · rintro ⟨m, hm, _⟩; simp at hm
    · simp [imuCalls]
    · simp
    · simp
  | cons m IMUs ih =>
    intro s d r h0 h1 h2 h3
    have hm : s.current_time ≤ m.stamp := h3 m (List.mem_cons_self _ _)
    have hnn : ¬ s.current_time < 0 := not_lt.mpr h0
    rw [List.pairwise_cons] at h2
    by_cases hb : m.stamp ≤ img.stamp + s.estimator.td
    · obtain ⟨s1, e1, c1, q1, k1, l1⟩ :=
        processImuMsg_before env hk img s d r m hb (Or.inr hm)
      rw [if_neg hnn] at k1 l1
      have htd : s1.estimator.td = s.estimator.td := q1.2.2.2.2.1
      obtain ⟨s2, e2, q2, c2, c3, c4, c5, args, k2, n2, p2, sum2⟩ :=
        ih s1 m.linear_acceleration m.angular_velocity (by rw [c1]; exact le_trans h0 hm)
          (by rw [c1, htd]; exact hb) h2.2 (by intro x hx; rw [c1]; exact h2.1 x hx)
      rw [htd] at c3
      rw [c1] at c2
      refine ⟨s2, ?_, sameQueues_trans q1 q2, le_trans hm c2, c3, ?_, ?_, ?_⟩
      · rw [imuLoop, e1]; exact e2
      · rintro ⟨x, hx, hx2⟩
        rcases List.mem_cons.mp hx with rfl | hx
        · exact le_antisymm c3 (le_trans hx2 c2)
        · rw [htd] at c4; exact c4 ⟨x, hx, hx2⟩
      · intro hl
        apply c5
        unfold ClockLogOK
        rw [l1, c1]
        exact clockLogOK_append _ _ _ hl hm
      · refine ⟨(m.stamp - s.current_time, m.linear_acceleration, m.angular_velocity) :: args,
          ?_, ?_, ?_, ?_⟩
        · rw [k2, k1]; simp [imuCalls]
        · simp [n2]
        · intro a ha
          rcases List.mem_cons.mp ha with rfl | ha
          · show 0 ≤ m.stamp - s.current_time
            linarith
          · exact p2 a ha
        · simp only [List.map_cons, List.sum_cons, sum2, c1]
          ring
    · have hb2 : img.stamp + s.estimator.td < m.stamp := not_le.mp hb
      obtain ⟨s1, d1, r1, e1, c1, q1, k1, l1⟩ :=
        processImuMsg_straddle env hk img s d r m hb2 h1
      have htd : s1.estimator.td = s.estimator.td := q1.2.2.2.2.1
      obtain ⟨s2, e2, q2, c2, c3, c4, c5, args, k2, n2, p2, sum2⟩ :=
        ih s1 d1 r1 (by rw [c1]; exact le_trans h0 h1) (by rw [c1, htd]) h2.2
          (by intro x hx; rw [c1]; exact le_of_lt (lt_of_lt_of_le hb2 (h2.1 x hx)))
      rw [htd] at c3
      rw [c1] at c2
      refine ⟨s2, ?_, sameQueues_trans q1 q2, le_trans h1 c2, c3, ?_, ?_, ?_⟩
      · rw [imuLoop, e1]; exact e2
      · intro _
        exact le_antisymm c3 c2
      · intro hl
        apply c5
        unfold ClockLogOK
        rw [l1, c1]
        exact clockLogOK_append _ _ _ hl h1
      · refine ⟨(img.stamp + s.estimator.td - s.current_time, d1, r1) :: args, ?_, ?_, ?_, ?_⟩
        · rw [k2, k1]; simp [imuCalls]
        · simp [n2]
        · intro a ha
          rcases List.mem_cons.mp ha with rfl | ha
          · show 0 ≤ img.stamp + s.estimator.td - s.current_time
            linarith
          · exact p2 a ha
        · simp only [List.map_cons, List.sum_cons, sum2, c1]
          ring

/-- The IMU loop of one measurement from the sentinel clock or from a clock that
is not after the first sample. -/
theorem imuLoop_batch (env : Env)
    (hk : ∀ e dt acc gyr, (env.processIMU e dt acc gyr).td = e.td)
    (img : PointCloud) (first : ImuMsg)
    (rest : List ImuMsg) (s : State) (d r : Vec3)
    (hfirst : first.stamp ≤ img.stamp + s.estimator.td) (h0 : 0 ≤ first.stamp)
    (hs : (first :: rest).Pairwise (fun a b => a.stamp ≤ b.stamp))
    (hc : s.current_time < 0 ∨ s.current_time ≤ first.stamp) :
    ∃ s1, imuLoop env img (first :: rest) s d r = Except.ok s1 ∧ SameQueues s s1 ∧
      first.stamp ≤ s1.current_time ∧ s1.current_time ≤ img.stamp + s.estimator.td ∧
      ((∃ m ∈ first :: rest, img.stamp + s.estimator.td ≤ m.stamp) →
        s1.current_time = img.stamp + s.estimator.td) ∧
      (ClockLogOK s → ClockLogOK s1) ∧
      ∃ args, s1.estimator.calls = s.estimator.calls ++ imuCalls args ∧
        args.length = (first :: rest).length ∧ (∀ a ∈ args, 0 ≤ a.1) ∧
        (args.map Prod.fst).sum =
          s1.current_time - (if s.current_time < 0 then first.stamp else s.current_time) := by
  obtain ⟨s1, e1, c1, q1, k1, l1⟩ := processImuMsg_before env hk img s d r first hfirst hc
  have htd : s1.estimator.td = s.estimator.td := q1.2.2.2.2.1
  rw [List.pairwise_cons] at hs
  obtain ⟨s2, e2, q2, c2, c3, c4, c5, args, k2, n2, p2, sum2⟩ :=
    imuLoop_from_clock env hk img rest s1 first.linear_acceleration first.angular_velocity
      (by rw [c1]; exact h0) (by rw [c1, htd]; exact hfirst) hs.2
      (by intro x hx; rw [c1]; exact hs.1 x hx)
  rw [htd] at c3
  rw [c1] at c2
  refine ⟨s2, ?_, sameQueues_trans q1 q2, c2, c3, ?_, ?_, ?_⟩
  · rw [imuLoop, e1]; exact e2
  · rintro ⟨x, hx, hx2⟩
    rcases List.mem_cons.mp hx with rfl | hx
    · exact le_antisymm c3 (le_trans hx2 c2)
    · rw [htd] at c4; exact c4 ⟨x, hx, hx2⟩
  · intro hl
    apply c5
    unfold ClockLogOK
    rw [l1, c1]
    by_cases hneg : s.current_time < 0
    · rw [if_pos hneg]
      have a1 := clockLogOK_append _ _ first.stamp hl (le_trans (le_of_lt hneg) h0)
      have a2 := clockLogOK_append _ _ first.stamp a1 (le_refl _)
      simpa using a2
    · rw [if_neg hneg]
      rcases hc with hc | hc
      · exact absurd hc hneg
      · exact clockLogOK_append _ _ _ hl hc
  · refine ⟨(first.stamp - (if s.current_time < 0 then first.stamp else s.current_time),
      first.linear_acceleration, first.angular_velocity) :: args, ?_, ?_, ?_, ?_⟩
    · rw [k2, k1]; simp [imuCalls]
    · simp [n2]
    · intro a ha
      rcases List.mem_cons.mp ha with rfl | ha
      · show 0 ≤ first.stamp - (if s.current_time < 0 then first.stamp else s.current_time)
        split
        · simp
        · rcases hc with hc | hc
          · rename_i hneg; exact absurd hc hneg
          · linarith
      · exact p2 a ha
    · simp only [List.map_cons, List.sum_cons, sum2, c1]
      ring
theorem getMeasurementsLoop_batchesOK (td : ℚ) :
    ∀ (fb : List PointCloud) (imu_buf : List ImuMsg) (sw : Int) (w : List Warn)
      (r : List Batch × Bufs), getMeasurementsLoop td fb imu_buf sw w [] = some r →
      BatchesOK td imu_buf r.1 r.2.imu_buf ∧ (∀ b ∈ r.1, b.2 ∈ fb) ∧
        (∀ f ∈ r.2.feature_buf, f ∈ fb) := by
  intro fb
  induction fb with
  | nil =>
    intro imu_buf sw w r h
    simp [getMeasurementsLoop] at h
    subst h
    simp [BatchesOK]
  | cons img fb ih =>
    intro imu_buf sw w r h
    cases imu_buf with
    | nil =>
      simp [getMeasurementsLoop] at h
      subst h
      simp [BatchesOK]
    | cons front rest =>
      rcases getMeasurementsLoop_step td img fb front rest sw w with
        ⟨_, h2⟩ | ⟨_, _, h2⟩ | ⟨_, _, pre, last, post, hrest, hpre, hlast, h2⟩
      · rw [h2] at h
        simp at h
        subst h
        simp [BatchesOK]
      · rw [h2] at h
        obtain ⟨i1, i2, i3⟩ := ih _ _ _ _ h
        exact ⟨i1, fun b hb => List.mem_cons_of_mem _ (i2 b hb),
          fun f hf => List.mem_cons_of_mem _ (i3 f hf)⟩
      · rw [h2] at h
        cases hr : getMeasurementsLoop td fb (last :: post) sw w [] with
        | none => rw [hr] at h; simp at h
        | some r1 =>
          rw [hr] at h
          simp only [Option.map_some', Option.some.injEq] at h
          subst h
          obtain ⟨i1, i2, i3⟩ := ih _ _ _ _ hr
          refine ⟨?_, ?_, fun f hf => List.mem_cons_of_mem _ (i3 f hf)⟩
          · exact ⟨front, pre, last, post, by rw [hrest]; rfl, rfl, hpre, hlast, i1⟩
          · intro b hb
            rcases List.mem_cons.mp hb with rfl | hb
            · exact List.mem_cons_self _ _
            · exact List.mem_cons_of_mem _ (i2 b hb)

theorem drainRelo_eq :
    ∀ (buf : List PointCloud) (acc : Option PointCloud),
      drainRelo buf acc =
        ((match buf.getLast? with
          | some m => some m
          | none => acc), []) := by
  intro buf
  induction buf with
  | nil => intro acc; rfl
  | cons m buf ih =>
    intro acc
    rw [drainRelo, ih]
    cases buf with
    | nil => rfl
    | cons m2 buf =>
      rw [List.getLast?_cons_cons, List.getLast?_eq_getLast _ (List.cons_ne_nil m2 buf)]

theorem dtsOf_append (a b : List EstCall) : dtsOf (a ++ b) = dtsOf a ++ dtsOf b := by
  simp [dtsOf]

theorem dtsOf_imuCalls (args : List (ℚ × Vec3 × Vec3)) :
    dtsOf (imuCalls args) = args.map Prod.fst := by
  induction args with
  | nil => rfl
  | cons a args ih =>
    simp only [imuCalls, dtsOf, List.map_cons, List.filterMap_cons, EstCall.dt?] at ih ⊢
    rw [ih]

/-- The relocalization step either faults on an unreadable message or empties
`relo_buf` and leaves the clock, the IMU queue and the `dt` record alone. -/
theorem setRelo_outcome (env : Env) (hk : env.KeepsTd) (s : State) :
    (∃ s1 relo_msg, setRelo env s = Except.ok (s1, relo_msg) ∧
      s1.current_time = s.current_time ∧ s1.clock_log = s.clock_log ∧
      s1.imu_buf = s.imu_buf ∧ s1.feature_buf = s.feature_buf ∧ s1.relo_buf = [] ∧
      s1.last_imu_t = s.last_imu_t ∧ s1.estimator.td = s.estimator.td ∧
      dtsOf s1.estimator.calls = dtsOf s.estimator.calls) ∨
    (setRelo env s = Except.error Fault.out_of_range ∧ ¬ (∀ m ∈ s.relo_buf, ReloOK m)) := by
  unfold setRelo
  rw [drainRelo_eq]
  cases hl : s.relo_buf.getLast? with
  | none =>
    left
    exact ⟨_, _, rfl, rfl, rfl, rfl, rfl, rfl, rfl, rfl, rfl⟩
  | some m =>
    have hm : m ∈ s.relo_buf := List.mem_of_mem_getLast? hl
    simp only
    split
    · left
      refine ⟨_, _, rfl, rfl, rfl, rfl, rfl, rfl, rfl, ?_, ?_⟩
      · simp [Estimator.doSetReloFrame, hk.2.2]
      · simp [Estimator.doSetReloFrame, dtsOf, EstCall.dt?, List.filterMap_append]
    · right
      refine ⟨rfl, ?_⟩
      intro hall
      obtain ⟨values, rest, hc, hlen⟩ := hall m hm
      rename_i hne
      match values, hlen with
      | v0 :: v1 :: v2 :: v3 :: v4 :: v5 :: v6 :: v7 :: tl, _ =>
        exact hne v0 v1 v2 v3 v4 v5 v6 v7 tl rest hc
theorem chan_some_of_featureOK (img : PointCloud) (h : FeatureOK img) (c i : Nat) (hc : c < 5)
    (hi : i < img.points.length) : ∃ v, img.chan c i = some v :=
  h.2 c i hc hi

/-- The loop that fills the feature map either runs through or faults on an
unreadable feature message. -/
theorem buildImage_outcome (env : Env) (img : PointCloud) :
    ∀ (points : List Vec3) (i : Nat) (image : Image),
      (∃ done, img.points = done ++ points ∧ done.length = i) →
      (∃ im, buildImage env img points i image = Except.ok im) ∨
      ((buildImage env img points i image = Except.error Fault.assert_z ∨
          buildImage env img points i image = Except.error Fault.out_of_range) ∧
        ¬ FeatureOK img) := by
  intro points
  induction points with
  | nil => intro i image _; exact Or.inl ⟨image, rfl⟩
  | cons p points ih =>
    intro i image hpos
    obtain ⟨done, hd, hlen⟩ := hpos
    have hi : i < img.points.length := by rw [hd]; simp; omega
    have hp : p ∈ img.points := by rw [hd]; simp
    have hnext : ∃ done1, img.points = done1 ++ points ∧ done1.length = i + 1 :=
      ⟨done ++ [p], by rw [hd]; simp, by simp [hlen]⟩
    rw [buildImage]
    split
    · split
      · rename_i hz
        right
        exact ⟨Or.inl rfl, fun hok => hz (hok.1 p hp)⟩
      · exact ih (i + 1) _ hnext
    · rename_i hnone
      right
      refine ⟨Or.inr rfl, ?_⟩
      intro hok
      obtain ⟨c0, h0⟩ := chan_some_of_featureOK img hok 0 i (by omega) hi
      obtain ⟨c1, h1⟩ := chan_some_of_featureOK img hok 1 i (by omega) hi
      obtain ⟨c2, h2⟩ := chan_some_of_featureOK img hok 2 i (by omega) hi
      obtain ⟨c3, h3⟩ := chan_some_of_featureOK img hok 3 i (by omega) hi
      obtain ⟨c4, h4⟩ := chan_some_of_featureOK img hok 4 i (by omega) hi
      exact hnone c0 c1 c2 c3 c4 h0 h1 h2 h3 h4

/-- The part of `processMeasurement` after the IMU loop leaves the clock, the IMU
queue and the `dt` record alone. -/
theorem processMeasurement_outcome (env : Env) (hk : env.KeepsTd) (s : State)
    (first : ImuMsg) (rest : List ImuMsg) (img : PointCloud)
    (hfirst : first.stamp < img.stamp + s.estimator.td) (h0 : 0 ≤ first.stamp)
    (hlast : ∃ m ∈ first :: rest, img.stamp + s.estimator.td ≤ m.stamp)
    (hs : (first :: rest).Pairwise (fun a b => a.stamp ≤ b.stamp))
    (hc : s.current_time < 0 ∨ s.current_time ≤ first.stamp) :
    (∃ s1, processMeasurement env s (first :: rest, img) = Except.ok s1 ∧
      s1.current_time = img.stamp + s.estimator.td ∧
      (ClockLogOK s → ClockLogOK s1) ∧
      ((∀ dt ∈ dtsOf s.estimator.calls, 0 ≤ dt) → ∀ dt ∈ dtsOf s1.estimator.calls, 0 ≤ dt) ∧
      s1.imu_buf = s.imu_buf ∧ s1.feature_buf = s.feature_buf ∧ s1.relo_buf = [] ∧
      s1.last_imu_t = s.last_imu_t ∧ s1.estimator.td = s.estimator.td) ∨
    ((processMeasurement env s (first :: rest, img) = Except.error Fault.assert_z ∨
        processMeasurement env s (first :: rest, img) = Except.error Fault.out_of_range) ∧
      ¬ (FeatureOK img ∧ ∀ m ∈ s.relo_buf, ReloOK m)) := by
  obtain ⟨s1, e1, q1, _, _, c4, l1, args, k1, _, p1, _⟩ :=
    imuLoop_batch env hk.1 img first rest s ⟨0, 0, 0⟩ ⟨0, 0, 0⟩ (le_of_lt hfirst) h0 hs hc
  have hct := c4 hlast
  obtain ⟨qi, qf, qr, ql, qt, _⟩ := q1
  unfold processMeasurement
  simp only [e1]
  rcases setRelo_outcome env hk s1 with
    ⟨s2, relo_msg, e2, r1, r2, r3, r4, r5, r6, r7, r8⟩ | ⟨e2, hbad⟩
  · simp only [e2]
    rcases buildImage_outcome env img img.points 0 [] ⟨[], rfl, rfl⟩ with ⟨im, e3⟩ | ⟨e3, hbad⟩
    · left
      simp only [e3]
      have hdts : ∀ x : State, x.estimator.calls = s2.estimator.calls →
          ((∀ dt ∈ dtsOf s.estimator.calls, 0 ≤ dt) → ∀ dt ∈ dtsOf
            (x.estimator.doProcessImage env im img.stamp).calls, 0 ≤ dt) := by
        intro x hx hall dt hdt
        have : dtsOf (x.estimator.doProcessImage env im img.stamp).calls
            = dtsOf s.estimator.calls ++ args.map Prod.fst := by
          simp only [Estimator.doProcessImage, hx, dtsOf_append]
          rw [r8, k1, dtsOf_append, dtsOf_imuCalls]
          simp [dtsOf, EstCall.dt?]
        rw [this] at hdt
        rcases List.mem_append.mp hdt with h | h
        · exact hall dt h
        · obtain ⟨a, ha, rfl⟩ := List.mem_map.mp h
          exact p1 a ha
      have hlog : ClockLogOK s → ClockLogOK s2 := by
        intro h
        have := l1 h
        unfold ClockLogOK at this ⊢
        rw [r1, r2]
        exact this
      split
      · refine ⟨_, rfl, ?_, ?_, hdts s2 rfl, ?_, ?_, r5, ?_, ?_⟩
        · show s2.current_time = _
          rw [r1, hct]
        · intro h; exact hlog h
        · show s2.imu_buf = _
          rw [r3, qi]
        · show s2.feature_buf = _
          rw [r4, qf]
        · show s2.last_imu_t = _
          rw [r6, ql]
        · show (s2.estimator.doProcessImage env im img.stamp).td = _
          simp only [Estimator.doProcessImage, hk.2.1]
          rw [r7, qt]
      · refine ⟨_, rfl, ?_, ?_, hdts s2 rfl, ?_, ?_, r5, ?_, ?_⟩
        · show s2.current_time = _
          rw [r1, hct]
        · intro h; exact hlog h
        · show s2.imu_buf = _
          rw [r3, qi]
        · show s2.feature_buf = _
          rw [r4, qf]
        · show s2.last_imu_t = _
          rw [r6, ql]
        · show (s2.estimator.doProcessImage env im img.stamp).td = _
          simp only [Estimator.doProcessImage, hk.2.1]
          rw [r7, qt]
    · right
      refine ⟨?_, fun h => hbad h.1⟩
      rcases e3 with e3 | e3
      · left; simp only [e3]
      · right; simp only [e3]
  · right
    refine ⟨Or.inr (by simp only [e2]), ?_⟩
    intro h
    apply hbad
    rw [qr]
    exact h.2
theorem batchesOK_left_nonempty (td : ℚ) :
    ∀ (bs : List Batch) (imu imu1 : List ImuMsg), BatchesOK td imu bs imu1 → bs ≠ [] →
      imu1 ≠ [] := by
  intro bs
  induction bs with
  | nil => intro _ _ _ h; exact absurd rfl h
  | cons b bs ih =>
    intro imu imu1 hb _
    obtain ⟨IMUs, img⟩ := b
    obtain ⟨first, pre, last, post, _, _, _, _, hrest⟩ := hb
    cases bs with
    | nil =>
      have : imu1 = last :: post := hrest
      rw [this]
      exact List.cons_ne_nil _ _
    | cons b2 bs => exact ih _ _ hrest (List.cons_ne_nil _ _)

theorem batchesOK_suffix (td : ℚ) :
    ∀ (bs : List Batch) (imu imu1 : List ImuMsg), BatchesOK td imu bs imu1 →
      ∃ done, imu = done ++ imu1 := by
  intro bs
  induction bs with
  | nil => intro imu imu1 h; exact ⟨[], by rw [h]; rfl⟩
  | cons b bs ih =>
    intro imu imu1 hb
    obtain ⟨IMUs, img⟩ := b
    obtain ⟨first, pre, last, post, himu, _, _, _, hrest⟩ := hb
    obtain ⟨done, hd⟩ := ih _ _ hrest
    exact ⟨first :: pre ++ done, by rw [himu, hd]; simp⟩

/-- The loop over the measurements of one call of `getMeasurements`, for a
sorted IMU queue: it runs through with the clock never going backwards and every
`dt` non-negative, or it faults on an unreadable message. -/
theorem processLoop_outcome (env : Env) (hk : env.KeepsTd) :
    ∀ (bs : List Batch) (imu imu1 : List ImuMsg) (s : State),
      BatchesOK s.estimator.td imu bs imu1 →
      imu.Pairwise (fun a b => a.stamp ≤ b.stamp) →
      (∀ m ∈ imu, 0 ≤ m.stamp) →
      (s.current_time < 0 ∨ ∀ m ∈ imu, s.current_time ≤ m.stamp) →
      (∃ s1, processLoop env bs s = Except.ok s1 ∧
        (s1.current_time < 0 ∨ ∀ m ∈ imu1, s1.current_time ≤ m.stamp) ∧
        (bs ≠ [] ∨ 0 ≤ s.current_time → 0 ≤ s1.current_time) ∧
        (ClockLogOK s → ClockLogOK s1) ∧
        ((∀ dt ∈ dtsOf s.estimator.calls, 0 ≤ dt) → ∀ dt ∈ dtsOf s1.estimator.calls, 0 ≤ dt) ∧
        s1.imu_buf = s.imu_buf ∧ s1.feature_buf = s.feature_buf ∧
        (∀ m ∈ s1.relo_buf, m ∈ s.relo_buf) ∧
        s1.last_imu_t = s.last_imu_t ∧ s1.estimator.td = s.estimator.td) ∨
      ((processLoop env bs s = Except.error Fault.assert_z ∨
          processLoop env bs s = Except.error Fault.out_of_range) ∧
        ¬ ((∀ b ∈ bs, FeatureOK b.2) ∧ ∀ m ∈ s.relo_buf, ReloOK m)) := by
  intro bs
  induction bs with
  | nil =>
    intro imu imu1 s hb _ _ hc
    left
    have : imu1 = imu := hb
    subst this
    refine ⟨s, rfl, hc, ?_, id, id, rfl, rfl, fun _ h => h, rfl, rfl⟩
    rintro (h | h)
    · exact absurd rfl h
    · exact h
  | cons b bs ih =>
    intro imu imu1 s hb hs hnn hc
    obtain ⟨IMUs, img⟩ := b
    obtain ⟨first, pre, last, post, himu, hIMUs, hpre, hlast, hrest⟩ := hb
    subst hIMUs
    have hfirst_mem : first ∈ imu := by rw [himu]; simp
    have hshape : (first :: pre ++ [last] : List ImuMsg) = first :: (pre ++ [last]) := rfl
    have hsub : (first :: (pre ++ [last])).Sublist imu := by
      rw [himu]
      exact List.Sublist.append (List.Sublist.refl (first :: pre))
        (List.singleton_sublist.mpr (List.mem_cons_self last post))
    have hsub2 : (last :: post).Sublist imu := by
      rw [himu]
      exact List.sublist_append_right (first :: pre) (last :: post)
    have hs2 : (last :: post).Pairwise (fun a b => a.stamp ≤ b.stamp) := hs.sublist hsub2
    have hfirst : first.stamp < img.stamp + s.estimator.td := hpre first (List.mem_cons_self _ _)
    have h0 : 0 ≤ first.stamp := hnn first hfirst_mem
    rcases processMeasurement_outcome env hk s first (pre ++ [last]) img hfirst h0
        ⟨last, by simp, hlast⟩ (hs.sublist hsub)
        (by
          rcases hc with hc | hc
          · exact Or.inl hc
          · exact Or.inr (hc first hfirst_mem)) with
      ⟨s1, e1, c1, l1, d1, q1, q2, q3, q4, q5⟩ | ⟨e1, hbad⟩
    · have htf : 0 ≤ img.stamp + s.estimator.td := le_of_lt (lt_of_le_of_lt h0 hfirst)
      rcases ih (last :: post) imu1 s1 (by rw [q5]; exact hrest) hs2
          (fun m hm => hnn m (hsub2.subset hm))
          (by
            right
            intro m hm
            rw [c1]
            rcases List.mem_cons.mp hm with rfl | hm
            · exact hlast
            · exact le_trans hlast ((List.pairwise_cons.mp hs2).1 m hm)) with
        ⟨s2, e2, a1, a2, a3, a4, a5, a6, a7, a8, a9⟩ | ⟨e2, hbad⟩
      · left
        refine ⟨s2, ?_, a1, ?_, fun h => a3 (l1 h), fun h => a4 (d1 h), a5.trans q1,
          a6.trans q2, ?_, a8.trans q4, a9.trans q5⟩
        · rw [processLoop, hshape, e1]; exact e2
        · intro _
          exact a2 (Or.inr (by rw [c1]; exact htf))
        · intro m hm
          have := a7 m hm
          rw [q3] at this
          simp at this
      · right
        refine ⟨?_, ?_⟩
        · rcases e2 with e2 | e2
          · left; rw [processLoop, hshape, e1]; exact e2
          · right; rw [processLoop, hshape, e1]; exact e2
        · intro h
          apply hbad
          refine ⟨fun b hb => h.1 b (List.mem_cons_of_mem _ hb), ?_⟩
          rw [q3]
          simp
    · right
      refine ⟨?_, ?_⟩
      · rcases e1 with e1 | e1
        · left; rw [processLoop, hshape, e1]
        · right; rw [processLoop, hshape, e1]
      · intro h
        exact hbad ⟨h.1 (first :: (pre ++ [last]), img) (List.mem_cons_self _ _), h.2⟩

theorem updateLoop_frame :
    ∀ (buf : List ImuMsg) (s : State),
      (updateLoop buf s).estimator = s.estimator ∧ (updateLoop buf s).imu_buf = s.imu_buf ∧
      (updateLoop buf s).feature_buf = s.feature_buf ∧
      (updateLoop buf s).relo_buf = s.relo_buf ∧
      (updateLoop buf s).current_time = s.current_time ∧
      (updateLoop buf s).last_imu_t = s.last_imu_t ∧
      (updateLoop buf s).clock_log = s.clock_log := by
  intro buf
  induction buf with
  | nil => intro s; exact ⟨rfl, rfl, rfl, rfl, rfl, rfl, rfl⟩
  | cons m buf ih =>
    intro s
    obtain ⟨p1, p2, p3, p4, p5, p6, p7, _⟩ := predict_frame s m
    obtain ⟨i1, i2, i3, i4, i5, i6, i7⟩ := ih (predict s m)
    exact ⟨i1.trans p1, i2.trans p2, i3.trans p3, i4.trans p4, i5.trans p5, i6.trans p6,
      i7.trans p7⟩

theorem update_frame (env : Env) (s : State) :
    (update env s).estimator = s.estimator ∧ (update env s).imu_buf = s.imu_buf ∧
      (update env s).feature_buf = s.feature_buf ∧ (update env s).relo_buf = s.relo_buf ∧
      (update env s).current_time = s.current_time ∧
      (update env s).last_imu_t = s.last_imu_t ∧ (update env s).clock_log = s.clock_log := by
  unfold update
  exact updateLoop_frame _ _
theorem imu_callback_accept_fields (s : State) (m : ImuMsg) (h : ¬ m.stamp ≤ s.last_imu_t) :
    (imu_callback s m).imu_buf = s.imu_buf ++ [m] ∧ (imu_callback s m).last_imu_t = m.stamp ∧
      (imu_callback s m).estimator = s.estimator ∧
      (imu_callback s m).current_time = s.current_time ∧
      (imu_callback s m).clock_log = s.clock_log ∧
      (imu_callback s m).feature_buf = s.feature_buf ∧
      (imu_callback s m).relo_buf = s.relo_buf := by
  rw [imu_callback_accept s m h]
  obtain ⟨p1, p2, p3, p4, p5, p6, p7, _⟩ :=
    predict_frame { s with last_imu_t := m.stamp, imu_buf := s.imu_buf ++ [m] } m
  split
  · exact ⟨p2, p6, p1, p5, p7, p3, p4⟩
  · exact ⟨p2, p6, p1, p5, p7, p3, p4⟩

theorem inv_imu_callback (s : State) (m : ImuMsg) (hI : Inv s) : Inv (imu_callback s m) := by
  by_cases h : m.stamp ≤ s.last_imu_t
  · rw [imu_callback_reject s m h]
    exact hI
  · obtain ⟨f1, f2, f3, f4, f5, _, _⟩ := imu_callback_accept_fields s m h
    obtain ⟨i1, i2, i3, i4, i5, i6⟩ := hI
    have hlt : s.last_imu_t < m.stamp := not_le.mp h
    unfold Inv ClockLogOK
    rw [f1, f2, f3, f4, f5]
    refine ⟨?_, ?_, le_of_lt (lt_of_le_of_lt i3 hlt), ?_, i5, i6⟩
    · rw [List.pairwise_append]
      refine ⟨i1, List.pairwise_singleton _ _, ?_⟩
      intro a ha b hb
      simp at hb
      subst hb
      exact le_of_lt (lt_of_le_of_lt (i2 a ha).2 hlt)
    · intro x hx
      rcases List.mem_append.mp hx with hx | hx
      · exact ⟨(i2 x hx).1, le_of_lt (lt_of_le_of_lt (i2 x hx).2 hlt)⟩
      · simp at hx
        subst hx
        exact ⟨le_of_lt (lt_of_le_of_lt i3 hlt), le_refl _⟩
    · rcases i4 with i4 | i4
      · exact Or.inl i4
      · right
        refine ⟨le_of_lt (lt_of_le_of_lt i4.1 hlt), ?_⟩
        intro x hx
        rcases List.mem_append.mp hx with hx | hx
        · exact i4.2 x hx
        · simp at hx
          subst hx
          exact le_of_lt (lt_of_le_of_lt i4.1 hlt)

theorem wf_imu_callback (s : State) (m : ImuMsg) (h : WFState s) : WFState (imu_callback s m) := by
  by_cases hm : m.stamp ≤ s.last_imu_t
  · rw [imu_callback_reject s m hm]
    exact h
  · obtain ⟨_, _, _, _, _, f6, f7⟩ := imu_callback_accept_fields s m hm
    unfold WFState
    rw [f6, f7]
    exact h

theorem inv_processIteration (env : Env) (hk : env.KeepsTd) (s : State) (hI : Inv s) :
    (∃ s1, processIteration env s = Except.ok s1 ∧ Inv s1 ∧ (WFState s → WFState s1)) ∨
    ((processIteration env s = Except.error Fault.assert_z ∨
        processIteration env s = Except.error Fault.out_of_range) ∧ ¬ WFState s) := by
  obtain ⟨bs, s0, hg⟩ := getMeasurements_total s
  obtain ⟨r, hr, hbs, g1, g2, g3, g4, g5, g6, g7⟩ := getMeasurements_some s bs s0 hg
  obtain ⟨b1, b2, b3⟩ := getMeasurementsLoop_batchesOK _ _ _ _ _ r hr
  obtain ⟨i1, i2, i3, i4, i5, i6⟩ := hI
  obtain ⟨done, hdone⟩ := batchesOK_suffix _ _ _ _ b1
  have hsuf : r.2.imu_buf.Sublist s.imu_buf := by
    rw [hdone]; exact List.sublist_append_right _ _
  unfold processIteration
  rw [hg]
  simp only
  by_cases hlen : bs.length ≠ 0
  · rw [if_neg (not_not.mpr hlen)]
    have hne : r.1 ≠ [] := by
      rw [← hbs]; intro h; rw [h] at hlen; simp at hlen
    rcases processLoop_outcome env hk bs s.imu_buf r.2.imu_buf s0
        (by rw [g3, hbs]; exact b1) i1 (fun m hm => (i2 m hm).1)
        (by
          rw [g4]
          rcases i4 with i4 | i4
          · exact Or.inl i4
          · exact Or.inr i4.2) with
      ⟨s1, e1, a1, a2, a3, a4, a5, a6, a7, a8, a9⟩ | ⟨e1, hbad⟩
    · left
      have hnonneg : 0 ≤ s1.current_time := a2 (Or.inl (by rw [hbs]; exact hne))
      have hbuf : s1.imu_buf = r.2.imu_buf := a5.trans g1
      have hInv1 : Inv s1 := by
        unfold Inv
        rw [hbuf, a8, g6]
        refine ⟨i1.sublist hsuf, fun m hm => i2 m (hsuf.subset hm), i3, ?_, ?_, ?_⟩
        · right
          have hall : ∀ m ∈ r.2.imu_buf, s1.current_time ≤ m.stamp := by
            rcases a1 with a1 | a1
            · exact absurd a1 (not_lt.mpr hnonneg)
            · exact a1
          refine ⟨?_, hall⟩
          have hne1 := batchesOK_left_nonempty _ _ _ _ b1 hne
          obtain ⟨m, hm⟩ := List.exists_mem_of_ne_nil _ hne1
          exact le_trans (hall m hm) (i2 m (hsuf.subset hm)).2
        · apply a3
          unfold ClockLogOK
          rw [g5, g4]
          exact i5
        · apply a4
          rw [g3]
          exact i6
      have hWF1 : WFState s → WFState s1 := by
        intro h
        refine ⟨?_, ?_⟩
        · intro f hf
          rw [a6, g2] at hf
          exact h.1 f (b3 f hf)
        · intro m hm
          have := a7 m hm
          rw [g7] at this
          exact h.2 m this
      rw [e1]
      simp only
      split
      · obtain ⟨u1, u2, u3, u4, u5, u6, u7⟩ := update_frame env s1
        refine ⟨_, rfl, ?_, ?_⟩
        · unfold Inv ClockLogOK
          rw [u1, u2, u5, u6, u7]
          exact hInv1
        · intro h
          unfold WFState
          rw [u3, u4]
          exact hWF1 h
      · exact ⟨_, rfl, hInv1, hWF1⟩
    · right
      refine ⟨?_, ?_⟩
      · rcases e1 with e1 | e1
        · left; rw [e1]
        · right; rw [e1]
      · intro h
        apply hbad
        refine ⟨?_, ?_⟩
        · intro b hb
          rw [hbs] at hb
          exact h.1 b.2 (b2 b hb)
        · rw [g7]
          exact h.2
  · left
    rw [if_pos hlen]
    have hnil : r.1 = [] := by
      rw [← hbs]
      exact List.length_eq_zero.mp (not_not.mp hlen)
    have hbuf : s0.imu_buf = s.imu_buf := by
      rw [g1]
      have := b1
      rw [hnil] at this
      exact this
    refine ⟨s0, rfl, ?_, ?_⟩
    · unfold Inv ClockLogOK
      rw [hbuf, g3, g4, g5, g6]
      exact ⟨i1, i2, i3, i4, i5, i6⟩
    · intro h
      refine ⟨?_, ?_⟩
      · intro f hf
        rw [g2] at hf
        exact h.1 f (b3 f hf)
      · rw [g7]
        exact h.2
theorem inv_initial (e : Estimator) : Inv (State.initial e) ∧ WFState (State.initial e) := by
  refine ⟨⟨List.Pairwise.nil, ?_, le_refl _, Or.inl (by norm_num [State.initial]),
    ⟨List.chain'_singleton _, rfl⟩, ?_⟩, ?_, ?_⟩
  · intro m hm; simp [State.initial] at hm
  · intro dt hdt; simp [State.initial, dtsOf] at hdt
  · intro f hf; simp [State.initial] at hf
  · intro m hm; simp [State.initial] at hm

theorem step_outcome (env : Env) (hk : env.KeepsTd) (s : State) (ev : Event) (hI : Inv s)
    (hnr : ev ≠ Event.restart true) :
    (∃ s1, step env s ev = Except.ok s1 ∧ Inv s1 ∧ (WFState s → ev.WellFormed → WFState s1)) ∨
    ((step env s ev = Except.error Fault.assert_z ∨
        step env s ev = Except.error Fault.out_of_range) ∧ ¬ WFState s) := by
  cases ev with
  | imu m =>
    left
    exact ⟨_, rfl, inv_imu_callback s m hI, fun h _ => wf_imu_callback s m h⟩
  | feature f =>
    left
    refine ⟨_, rfl, ?_, ?_⟩
    · unfold feature_callback
      split
      · exact hI
      · exact hI
    · intro h hf
      unfold feature_callback
      split
      · exact h
      · refine ⟨?_, h.2⟩
        intro x hx
        rcases List.mem_append.mp hx with hx | hx
        · exact h.1 x hx
        · simp at hx
          subst hx
          exact hf
  | relocalization m =>
    left
    refine ⟨_, rfl, hI, ?_⟩
    intro h hm
    refine ⟨h.1, ?_⟩
    intro x hx
    rcases List.mem_append.mp hx with hx | hx
    · exact h.2 x hx
    · simp at hx
      subst hx
      exact hm
  | restart data =>
    left
    cases data with
    | true => exact absurd rfl hnr
    | false => exact ⟨s, rfl, hI, fun h _ => h⟩
  | dispatch =>
    rcases inv_processIteration env hk s hI with ⟨s1, e1, h1, h2⟩ | h
    · exact Or.inl ⟨s1, e1, h1, fun h _ => h2 h⟩
    · exact Or.inr h

theorem run_outcome (env : Env) (hk : env.KeepsTd) :
    ∀ (evs : List Event) (s : State), Inv s → (∀ ev ∈ evs, ev ≠ Event.restart true) →
      (∃ s1, run env evs s = Except.ok s1 ∧ Inv s1) ∨
      ((run env evs s = Except.error Fault.assert_z ∨
          run env evs s = Except.error Fault.out_of_range) ∧
        ¬ (WFState s ∧ ∀ ev ∈ evs, ev.WellFormed)) := by
  intro evs
  induction evs with
  | nil => intro s hI _; exact Or.inl ⟨s, rfl, hI⟩
  | cons ev evs ih =>
    intro s hI hnr
    rcases step_outcome env hk s ev hI (hnr ev (List.mem_cons_self _ _)) with
      ⟨s1, e1, h1, h2⟩ | ⟨e1, hbad⟩
    · rcases ih s1 h1 (fun x hx => hnr x (List.mem_cons_of_mem _ hx)) with
        ⟨s2, e2, h3⟩ | ⟨e2, hbad⟩
      · left
        exact ⟨s2, by rw [run, e1]; exact e2, h3⟩
      · right
        refine ⟨?_, ?_⟩
        · rcases e2 with e2 | e2
          · left; rw [run, e1]; exact e2
          · right; rw [run, e1]; exact e2
        · intro h
          apply hbad
          exact ⟨h2 h.1 (h.2 ev (List.mem_cons_self _ _)),
            fun x hx => h.2 x (List.mem_cons_of_mem _ hx)⟩
    · right
      refine ⟨?_, fun h => hbad h.1⟩
      rcases e1 with e1 | e1
      · left; rw [run, e1]
      · right; rw [run, e1]

/-- C3: for fixed `td`, in every run from the initial state (`current_time = -1`)
made of `imu_callback`, `feature_callback`, `relocalization_callback` and
dispatcher iterations, without restart: none of the assertions `dt >= 0`,
`dt_1 >= 0`, `dt_2 >= 0`, `dt_1 + dt_2 > 0` fails (the run can only stop on an
unreadable feature or relocalization message, and does not stop when all messages
are readable); every `dt` handed to `processIMU` is non-negative; and the clock
`current_time` never moves backwards. -/
theorem C3_dispatch_dt_nonneg (env : Env) (hk : env.KeepsTd) (e : Estimator)
    (evs : List Event) (hnr : ∀ ev ∈ evs, ev ≠ Event.restart true) :
    (∀ f, run env evs (State.initial e) = Except.error f →
      f = Fault.assert_z ∨ f = Fault.out_of_range) ∧
    ((∀ ev ∈ evs, ev.WellFormed) → ∃ s, run env evs (State.initial e) = Except.ok s) ∧
    (∀ s, run env evs (State.initial e) = Except.ok s →
      (∀ dt ∈ dtsOf s.estimator.calls, 0 ≤ dt) ∧
      List.Chain' (fun a b : ℚ => a ≤ b) s.clock_log ∧
      s.clock_log.getLast? = some s.current_time) := by
  obtain ⟨hI, hW⟩ := inv_initial e
  rcases run_outcome env hk evs (State.initial e) hI hnr with ⟨s1, e1, h1⟩ | ⟨e1, hbad⟩
  · refine ⟨?_, fun _ => ⟨s1, e1⟩, ?_⟩
    · intro f hf
      rw [e1] at hf
      cases hf
    · intro s hs
      rw [e1] at hs
      cases hs
      exact ⟨h1.2.2.2.2.2, h1.2.2.2.2.1.1, h1.2.2.2.2.1.2⟩
  · refine ⟨?_, ?_, ?_⟩
    · intro f hf
      rcases e1 with e1 | e1
      · rw [e1] at hf; cases hf; exact Or.inl rfl
      · rw [e1] at hf; cases hf; exact Or.inr rfl
    · intro hwf
      exact absurd ⟨hW, hwf⟩ hbad
    · intro s hs
      rcases e1 with e1 | e1
      · rw [e1] at hs; cases hs
      · rw [e1] at hs; cases hs

/-- Witness of C3: the first feature (skipped), five IMU samples at 0.01 ... 0.05,
a feature at 0.035 and one dispatcher iteration, `td = 0`: the run ends with
`current_time = 0.035` and the `dt` sequence 0, 0.01, 0.01, 0.005. -/
theorem C3_dispatch_dt_nonneg_witness :
    idleEnv.KeepsTd ∧
    (∀ ev ∈ [Event.feature (featureAt 0), Event.imu (imuAt (1 / 100)),
        Event.imu (imuAt (2 / 100)), Event.imu (imuAt (3 / 100)), Event.imu (imuAt (4 / 100)),
        Event.imu (imuAt (5 / 100)), Event.feature (featureAt (35 / 1000)), Event.dispatch],
      ev ≠ Event.restart true) ∧
    ((∀ f, run idleEnv [Event.feature (featureAt 0), Event.imu (imuAt (1 / 100)),
        Event.imu (imuAt (2 / 100)), Event.imu (imuAt (3 / 100)), Event.imu (imuAt (4 / 100)),
        Event.imu (imuAt (5 / 100)), Event.feature (featureAt (35 / 1000)), Event.dispatch]
        (State.initial (estimatorWith 0 SolverFlag.INITIAL)) = Except.error f →
      f = Fault.assert_z ∨ f = Fault.out_of_range) ∧
    ((∀ ev ∈ [Event.feature (featureAt 0), Event.imu (imuAt (1 / 100)),
        Event.imu (imuAt (2 / 100)), Event.imu (imuAt (3 / 100)), Event.imu (imuAt (4 / 100)),
        Event.imu (imuAt (5 / 100)), Event.feature (featureAt (35 / 1000)), Event.dispatch],
        ev.WellFormed) →
      ∃ s, run idleEnv [Event.feature (featureAt 0), Event.imu (imuAt (1 / 100)),
        Event.imu (imuAt (2 / 100)), Event.imu (imuAt (3 / 100)), Event.imu (imuAt (4 / 100)),
        Event.imu (imuAt (5 / 100)), Event.feature (featureAt (35 / 1000)), Event.dispatch]
        (State.initial (estimatorWith 0 SolverFlag.INITIAL)) = Except.ok s) ∧
    (∀ s, run idleEnv [Event.feature (featureAt 0), Event.imu (imuAt (1 / 100)),
        Event.imu (imuAt (2 / 100)), Event.imu (imuAt (3 / 100)), Event.imu (imuAt (4 / 100)),
        Event.imu (imuAt (5 / 100)), Event.feature (featureAt (35 / 1000)), Event.dispatch]
        (State.initial (estimatorWith 0 SolverFlag.INITIAL)) = Except.ok s →
      (∀ dt ∈ dtsOf s.estimator.calls, 0 ≤ dt) ∧
      List.Chain' (fun a b : ℚ => a ≤ b) s.clock_log ∧
      s.clock_log.getLast? = some s.current_time)) ∧
    clockAndDts (run idleEnv [Event.feature (featureAt 0), Event.imu (imuAt (1 / 100)),
        Event.imu (imuAt (2 / 100)), Event.imu (imuAt (3 / 100)), Event.imu (imuAt (4 / 100)),
        Event.imu (imuAt (5 / 100)), Event.feature (featureAt (35 / 1000)), Event.dispatch]
        (State.initial (estimatorWith 0 SolverFlag.INITIAL))) =
      some (35 / 1000, [0, 1 / 100, 1 / 100, 5 / 1000]) := by
  have hk : idleEnv.KeepsTd := ⟨fun _ _ _ _ => rfl, fun _ _ _ => rfl, fun _ _ _ _ _ _ => rfl⟩
  refine ⟨hk, by simp, C3_dispatch_dt_nonneg idleEnv hk _ _ (by simp), ?_⟩
  have hflag : (SolverFlag.INITIAL = SolverFlag.NON_LINEAR) = False := eq_false (by decide)
  norm_num [hflag, clockAndDts, run, step, processIteration, getMeasurements,
    getMeasurementsBufs, getMeasurementsLoop, collectIMUs, processLoop, processMeasurement,
    imuLoop, processImuMsg, setRelo, drainRelo, buildImage, imu_callback, feature_callback,
    predict, State.setClock, Estimator.doProcessIMU, Estimator.doProcessImage,
    idleEnv, dtsOf, List.filterMap_cons, EstCall.dt?, imuAt, featureAt, State.initial,
    estimatorWith]
theorem feature_callback_append (s : State) (f : PointCloud) (h : s.init_feature = true) :
    feature_callback s f = { s with feature_buf := s.feature_buf ++ [f] } := by
  unfold feature_callback
  simp [h]

theorem foldl_feature_callback :
    ∀ (later : List PointCloud) (s : State), s.init_feature = true →
      later.foldl feature_callback s = { s with feature_buf := s.feature_buf ++ later } := by
  intro later
  induction later with
  | nil => intro s _; simp
  | cons f later ih =>
    intro s h
    rw [List.foldl_cons, feature_callback_append s f h,
      ih { s with feature_buf := s.feature_buf ++ [f] } h]
    simp

/-- C13: from the initial state, the first bundle given to `feature_callback` is
not enqueued (only `init_feature` becomes true), and every later bundle is
appended at the back of `feature_buf`: after the calls for `first :: later` the
queue holds exactly `later`, in arrival order, and nothing else has changed. -/
theorem C13_feature_callback_sequence (e : Estimator) (first : PointCloud)
    (later : List PointCloud) :
    feature_callback (State.initial e) first = { State.initial e with init_feature := true } ∧
      (first :: later).foldl feature_callback (State.initial e) =
        { State.initial e with init_feature := true, feature_buf := later } := by
  have h1 : feature_callback (State.initial e) first =
      { State.initial e with init_feature := true } := by
    simp [feature_callback, State.initial]
  refine ⟨h1, ?_⟩
  rw [List.foldl_cons, h1,
    foldl_feature_callback later { State.initial e with init_feature := true } rfl]
  simp [State.initial]

/-- C15, amended: a restart resets `current_time` to the sentinel and `last_imu_t`
to 0, and leaves `init_feature` and `init_imu` as they are. So after a restart
that follows a received feature bundle the next bundle is enqueued, and after a
restart that follows an accepted IMU sample the next IMU sample steps the
fast-path state by the midpoint integration instead of only seeding it. -/
theorem C15_restart_keeps_init_flags (env : Env) (s : State) :
    (restart_callback env s true).current_time = -1 ∧
      (restart_callback env s true).last_imu_t = 0 ∧
      (restart_callback env s true).init_feature = s.init_feature ∧
      (restart_callback env s true).init_imu = s.init_imu ∧
      (s.init_feature = true → ∀ f,
        (feature_callback (restart_callback env s true) f).feature_buf = [f]) ∧
      (s.init_imu = false → ∀ m : ImuMsg, 0 < m.stamp →
        (imu_callback (restart_callback env s true) m).fast =
          specStep (restart_callback env s true).estimator.g
            (restart_callback env s true).fast m) := by
  have hflag1 : (restart_callback env s true).init_feature = s.init_feature := by
    simp [restart_callback, State.setClock]
  have hflag2 : (restart_callback env s true).init_imu = s.init_imu := by
    simp [restart_callback, State.setClock]
  have hlast : (restart_callback env s true).last_imu_t = 0 := by
    simp [restart_callback, State.setClock]
  refine ⟨by simp [restart_callback, State.setClock], hlast, hflag1, hflag2, ?_, ?_⟩
  · intro h f
    rw [feature_callback_append _ f (hflag1.trans h)]
    simp [restart_callback, State.setClock, popAll_eq_nil]
  · intro h m hm
    have hacc : ¬ m.stamp ≤ (restart_callback env s true).last_imu_t := by
      rw [hlast]; exact not_le.mpr hm
    rw [imu_callback_accept _ m hacc]
    have hp := (predict_fast
      { restart_callback env s true with
        last_imu_t := m.stamp
        imu_buf := (restart_callback env s true).imu_buf ++ [m] } m (hflag2.trans h)).1
    split
    · exact hp
    · exact hp

/-- Witness of C15: the state reached from the initial state by one feature
bundle and one IMU sample at 1 has `init_feature` true and `init_imu` false. -/
theorem C15_restart_keeps_init_flags_witness :
    (imu_callback (feature_callback (State.initial (estimatorWith 0 SolverFlag.INITIAL))
        (featureAt 0)) (imuAt 1)).init_feature = true ∧
    (imu_callback (feature_callback (State.initial (estimatorWith 0 SolverFlag.INITIAL))
        (featureAt 0)) (imuAt 1)).init_imu = false ∧
    (0 : ℚ) < (imuAt 3).stamp ∧
    (feature_callback (restart_callback idleEnv
        (imu_callback (feature_callback (State.initial (estimatorWith 0 SolverFlag.INITIAL))
          (featureAt 0)) (imuAt 1)) true) (featureAt 2)).feature_buf = [featureAt 2] ∧
    (imu_callback (restart_callback idleEnv
        (imu_callback (feature_callback (State.initial (estimatorWith 0 SolverFlag.INITIAL))
          (featureAt 0)) (imuAt 1)) true) (imuAt 3)).fast =
      specStep (restart_callback idleEnv
        (imu_callback (feature_callback (State.initial (estimatorWith 0 SolverFlag.INITIAL))
          (featureAt 0)) (imuAt 1)) true).estimator.g
        (restart_callback idleEnv
          (imu_callback (feature_callback (State.initial (estimatorWith 0 SolverFlag.INITIAL))
            (featureAt 0)) (imuAt 1)) true).fast (imuAt 3) := by
  have hflag : (SolverFlag.INITIAL = SolverFlag.NON_LINEAR) = False := eq_false (by decide)
  have h1 : (imu_callback (feature_callback (State.initial (estimatorWith 0 SolverFlag.INITIAL))
      (featureAt 0)) (imuAt 1)).init_feature = true := by
    norm_num [hflag, imu_callback, feature_callback, predict, State.initial, estimatorWith,
      imuAt, featureAt]
  have h2 : (imu_callback (feature_callback (State.initial (estimatorWith 0 SolverFlag.INITIAL))
      (featureAt 0)) (imuAt 1)).init_imu = false := by
    norm_num [hflag, imu_callback, feature_callback, predict, State.initial, estimatorWith,
      imuAt, featureAt]
  have h3 : (0 : ℚ) < (imuAt 3).stamp := by norm_num [imuAt]
  exact ⟨h1, h2, h3,
    (C15_restart_keeps_init_flags idleEnv _).2.2.2.2.1 h1 (featureAt 2),
    (C15_restart_keeps_init_flags idleEnv _).2.2.2.2.2 h2 (imuAt 3) h3⟩

/-- Counterexample to C15 as stated: after one feature bundle and one IMU sample,
a restart leaves `init_feature = true` and `init_imu = false`, which are not the
initial values `false` and `true`; the feature bundle that follows the restart
is enqueued, not dropped. -/
theorem C15_counterexample :
    (State.initial (estimatorWith 0 SolverFlag.INITIAL)).init_feature = false ∧
    (State.initial (estimatorWith 0 SolverFlag.INITIAL)).init_imu = true ∧
    (restart_callback idleEnv
      (imu_callback (feature_callback (State.initial (estimatorWith 0 SolverFlag.INITIAL))
        (featureAt 0)) (imuAt 1)) true).init_feature = true ∧
    (restart_callback idleEnv
      (imu_callback (feature_callback (State.initial (estimatorWith 0 SolverFlag.INITIAL))
        (featureAt 0)) (imuAt 1)) true).init_imu = false ∧
    (feature_callback (restart_callback idleEnv
      (imu_callback (feature_callback (State.initial (estimatorWith 0 SolverFlag.INITIAL))
        (featureAt 0)) (imuAt 1)) true) (featureAt 2)).feature_buf = [featureAt 2] := by
  have hflag : (SolverFlag.INITIAL = SolverFlag.NON_LINEAR) = False := eq_false (by decide)
  refine ⟨rfl, rfl, ?_, ?_, ?_⟩
  · norm_num [hflag, restart_callback, State.setClock, imu_callback, feature_callback, predict,
      State.initial, estimatorWith, imuAt, featureAt]
  · norm_num [hflag, restart_callback, State.setClock, imu_callback, feature_callback, predict,
      State.initial, estimatorWith, imuAt, featureAt]
  · norm_num [hflag, restart_callback, State.setClock, imu_callback, feature_callback, predict,
      State.initial, estimatorWith, imuAt, featureAt, popAll, idleEnv,
      Estimator.doClearState, Estimator.doSetParameter]
/-- Every batch of one call holds a sample before `tf` and the straddle sample,
and the only warnings a call adds are `throw_img`. -/
theorem getMeasurementsLoop_two_samples (td : ℚ) :
    ∀ (fb : List PointCloud) (imu_buf : List ImuMsg) (sw : Int) (w : List Warn)
      (r : List Batch × Bufs), getMeasurementsLoop td fb imu_buf sw w [] = some r →
      (∀ b ∈ r.1, 2 ≤ b.1.length) ∧ ∃ k, r.2.warns = w ++ List.replicate k Warn.throw_img := by
  intro fb
  induction fb with
  | nil =>
    intro imu_buf sw w r h
    simp [getMeasurementsLoop] at h
    subst h
    exact ⟨by simp, 0, by simp⟩
  | cons img fb ih =>
    intro imu_buf sw w r h
    cases imu_buf with
    | nil =>
      simp [getMeasurementsLoop] at h
      subst h
      exact ⟨by simp, 0, by simp⟩
    | cons front rest =>
      rcases getMeasurementsLoop_step td img fb front rest sw w with
        ⟨_, h2⟩ | ⟨_, _, h2⟩ | ⟨_, _, pre, last, post, _, _, _, h2⟩
      · rw [h2] at h
        simp at h
        subst h
        exact ⟨by simp, 0, by simp⟩
      · rw [h2] at h
        obtain ⟨i1, k, i2⟩ := ih _ _ _ _ h
        exact ⟨i1, k + 1, by rw [i2, List.replicate_succ]; simp⟩
      · rw [h2] at h
        cases hr : getMeasurementsLoop td fb (last :: post) sw w [] with
        | none => rw [hr] at h; simp at h
        | some r1 =>
          rw [hr] at h
          simp only [Option.map_some', Option.some.injEq] at h
          subst h
          obtain ⟨i1, k, i2⟩ := ih _ _ _ _ hr
          refine ⟨?_, k, i2⟩
          intro b hb
          rcases List.mem_cons.mp hb with rfl | hb
          · simp
          · exact i1 b hb

/-- C16, amended: for every content of the queues `getMeasurements` returns;
every batch it emits holds at least two IMU samples, the first of them before
the frame's adjusted time stamp; and the call raises no `no_imu_between`
warning. -/
theorem C16_batches_have_two_samples (s : State) :
    ∃ bs s1, getMeasurements s = some (bs, s1) ∧
      (∀ b ∈ bs, 2 ≤ b.1.length ∧
        ∃ first, b.1.head? = some first ∧ first.stamp < b.2.stamp + s.estimator.td) ∧
      s1.warns.count Warn.no_imu_between = s.warns.count Warn.no_imu_between := by
  obtain ⟨bs, s1, h⟩ := getMeasurements_total s
  obtain ⟨r, hr, hbs, _⟩ := getMeasurements_some s bs s1 h
  obtain ⟨r2, hr2, hinv⟩ :=
    getMeasurementsLoop_batchInv s.estimator.td s.feature_buf s.imu_buf s.sum_of_wait s.warns
  rw [hr] at hr2
  cases hr2
  obtain ⟨t1, k, t2⟩ := getMeasurementsLoop_two_samples _ _ _ _ _ r hr
  refine ⟨bs, s1, h, ?_, ?_⟩
  · intro b hb
    rw [hbs] at hb
    exact ⟨t1 b hb, (hinv b hb).2.2⟩
  · have h2 := h
    rw [getMeasurements_eq, hr] at h2
    simp only [Option.map_some', Option.some.injEq, Prod.mk.injEq] at h2
    obtain ⟨_, h3⟩ := h2
    subst h3
    show r.2.warns.count Warn.no_imu_between = _
    rw [t2, List.count_append]
    simp [List.count_replicate]

/-- Counterexample to C16 as stated: no content of the queues, no `td` and no
earlier warnings make `getMeasurements` emit a batch with a single IMU sample or
add the warning `no_imu_between`. -/
theorem C16_counterexample :
    ¬ ∃ (s : State) (bs : List Batch) (s1 : State), getMeasurements s = some (bs, s1) ∧
      ((∃ b ∈ bs, b.1.length = 1) ∨
        s1.warns.count Warn.no_imu_between ≠ s.warns.count Warn.no_imu_between) := by
  rintro ⟨s, bs, s1, h, hbad⟩
  rw [getMeasurements_eq] at h
  cases hr : getMeasurementsLoop s.estimator.td s.feature_buf s.imu_buf s.sum_of_wait s.warns []
    with
  | none => rw [hr] at h; simp at h
  | some r =>
    rw [hr] at h
    simp only [Option.map_some', Option.some.injEq, Prod.mk.injEq] at h
    obtain ⟨h1, h2⟩ := h
    obtain ⟨t1, k, t2⟩ := getMeasurementsLoop_two_samples _ _ _ _ _ r hr
    rcases hbad with ⟨b, hb, hlen⟩ | hw
    · rw [← h1] at hb
      have := t1 b hb
      omega
    · apply hw
      subst h2
      show r.2.warns.count Warn.no_imu_between = _
      rw [t2, List.count_append]
      simp [List.count_replicate]
/-- What one call of `getMeasurements` does to the two queues: the features it
takes off the front, each marked as kept (emitted in a batch) or dropped, and
the IMU samples it takes off the front. -/
theorem getMeasurementsLoop_partition (td : ℚ) :
    ∀ (fb : List PointCloud) (imu_buf : List ImuMsg) (sw : Int) (w : List Warn)
      (r : List Batch × Bufs), getMeasurementsLoop td fb imu_buf sw w [] = some r →
      (∃ marks : List (PointCloud × Bool),
        fb = marks.map Prod.fst ++ r.2.feature_buf ∧
        (marks.filter (fun x => x.2)).map Prod.fst = r.1.map Prod.snd ∧
        r.2.warns = w ++ List.replicate (marks.filter (fun x => !x.2)).length Warn.throw_img) ∧
      (r.1.map (fun b => b.1.dropLast)).flatten ++ r.2.imu_buf = imu_buf := by
  intro fb
  induction fb with
  | nil =>
    intro imu_buf sw w r h
    simp [getMeasurementsLoop] at h
    subst h
    exact ⟨⟨[], by simp⟩, by simp⟩
  | cons img fb ih =>
    intro imu_buf sw w r h
    cases imu_buf with
    | nil =>
      simp [getMeasurementsLoop] at h
      subst h
      exact ⟨⟨[], by simp⟩, by simp⟩
    | cons front rest =>
      rcases getMeasurementsLoop_step td img fb front rest sw w with
        ⟨_, h2⟩ | ⟨_, _, h2⟩ | ⟨_, _, pre, last, post, hrest, _, _, h2⟩
      · rw [h2] at h
        simp at h
        subst h
        exact ⟨⟨[], by simp⟩, by simp⟩
      · rw [h2] at h
        obtain ⟨⟨marks, m1, m2, m3⟩, i2⟩ := ih _ _ _ _ h
        refine ⟨⟨(img, false) :: marks, ?_, ?_, ?_⟩, i2⟩
        · simp [← m1]
        · simpa using m2
        · rw [m3]
          simp [List.replicate_succ]
      · rw [h2] at h
        cases hr : getMeasurementsLoop td fb (last :: post) sw w [] with
        | none => rw [hr] at h; simp at h
        | some r1 =>
          rw [hr] at h
          simp only [Option.map_some', Option.some.injEq] at h
          subst h
          obtain ⟨⟨marks, m1, m2, m3⟩, i2⟩ := ih _ _ _ _ hr
          refine ⟨⟨(img, true) :: marks, ?_, ?_, ?_⟩, ?_⟩
          · simp [← m1]
          · simpa using m2
          · rw [m3]
            simp
          · have hd : (front :: pre ++ [last]).dropLast = front :: pre := List.dropLast_concat
            simp only [List.map_cons, List.flatten_cons, hd]
            rw [List.append_assoc, i2, hrest]
            rfl

/-- C19: `getMeasurements` only takes elements off the fronts of the two queues
and neither loses nor reorders anything. The original `feature_buf` is the list
of the features taken, in order, followed by the remaining `feature_buf`; each
feature taken is either kept or dropped, the kept ones, in order, are the
features of the returned batches, and each dropped one adds one `throw_img`
warning. The original `imu_buf` is the concatenation, over the returned batches
in order, of each batch's IMU list without its last (straddle) sample, followed
by the remaining `imu_buf`. -/
theorem C19_getMeasurements_frame (s : State) :
    ∃ bs s1, getMeasurements s = some (bs, s1) ∧
      (∃ marks : List (PointCloud × Bool),
        s.feature_buf = marks.map Prod.fst ++ s1.feature_buf ∧
        (marks.filter (fun x => x.2)).map Prod.fst = bs.map Prod.snd ∧
        s1.warns =
          s.warns ++ List.replicate (marks.filter (fun x => !x.2)).length Warn.throw_img) ∧
      (bs.map (fun b => b.1.dropLast)).flatten ++ s1.imu_buf = s.imu_buf := by
  obtain ⟨bs, s1, h⟩ := getMeasurements_total s
  refine ⟨bs, s1, h, ?_⟩
  rw [getMeasurements_eq] at h
  cases hr : getMeasurementsLoop s.estimator.td s.feature_buf s.imu_buf s.sum_of_wait s.warns []
    with
  | none => rw [hr] at h; simp at h
  | some r =>
    rw [hr] at h
    simp only [Option.map_some', Option.some.injEq, Prod.mk.injEq] at h
    obtain ⟨h1, h2⟩ := h
    subst h1
    subst h2
    exact getMeasurementsLoop_partition _ _ _ _ _ r hr

/-- C20: for every content of the two queues, in any time-stamp order, and every
`td`: the inner collection loop of `getMeasurements`, started on a queue whose
back is after `tf`, stops at a sample with `t ≥ tf` that stays at the front of
the queue; and the whole call returns (no `front()` or `back()` of an empty
queue), with `imu_buf` non-empty whenever a batch was emitted. -/
theorem C20_getMeasurements_total (s : State) (tf : ℚ) (front : ImuMsg) (rest : List ImuMsg) :
    ((((front :: rest).getLast (List.cons_ne_nil front rest)).stamp > tf) →
      ∃ taken last post, collectIMUs tf (front :: rest) [] = some (taken ++ [last], last :: post) ∧
        front :: rest = taken ++ last :: post ∧ tf ≤ last.stamp) ∧
    ∃ bs s1, getMeasurements s = some (bs, s1) ∧ (bs ≠ [] → s1.imu_buf ≠ []) := by
  constructor
  · intro h
    obtain ⟨pre, last, post, h1, _, h3, h4⟩ :=
      collectIMUs_spec tf (front :: rest) [] ⟨_, List.getLast_mem _, not_lt.mpr (le_of_lt h)⟩
    exact ⟨pre, last, post, by simpa using h4, h1, not_lt.mp h3⟩
  · obtain ⟨bs, s1, h⟩ := getMeasurements_total s
    obtain ⟨r, hr, hbs, himu, _⟩ := getMeasurements_some s bs s1 h
    obtain ⟨b1, _, _⟩ := getMeasurementsLoop_batchesOK _ _ _ _ _ r hr
    refine ⟨bs, s1, h, ?_⟩
    intro hne
    rw [himu]
    exact batchesOK_left_nonempty _ _ _ _ b1 (by rw [← hbs]; exact hne)

/-- Witness of C20: a queue in no time-stamp order, 3, 1, 7, 2, 9, collected up
to `tf = 5`. -/
theorem C20_getMeasurements_total_witness :
    ((([imuAt 3, imuAt 1, imuAt 7, imuAt 2, imuAt 9]).getLast
        (List.cons_ne_nil (imuAt 3) [imuAt 1, imuAt 7, imuAt 2, imuAt 9])).stamp > 5) ∧
    (∃ taken last post,
      collectIMUs 5 [imuAt 3, imuAt 1, imuAt 7, imuAt 2, imuAt 9] [] =
        some (taken ++ [last], last :: post) ∧
      [imuAt 3, imuAt 1, imuAt 7, imuAt 2, imuAt 9] = taken ++ last :: post ∧
      5 ≤ last.stamp) ∧
    collectIMUs 5 [imuAt 3, imuAt 1, imuAt 7, imuAt 2, imuAt 9] [] =
      some ([imuAt 3, imuAt 1, imuAt 7], [imuAt 7, imuAt 2, imuAt 9]) := by
  have h : (([imuAt 3, imuAt 1, imuAt 7, imuAt 2, imuAt 9]).getLast
      (List.cons_ne_nil (imuAt 3) [imuAt 1, imuAt 7, imuAt 2, imuAt 9])).stamp > 5 := by
    norm_num [imuAt]
  refine ⟨h, (C20_getMeasurements_total (stateWith [] []) 5 (imuAt 3)
    [imuAt 1, imuAt 7, imuAt 2, imuAt 9]).1 h, ?_⟩
  norm_num [collectIMUs, imuAt]
/-- What a step of the IMU loop that returns leaves: `td` and everything outside
the estimator and the clock as before, and the `processIMU` call appended. -/
theorem processImuMsg_ok (env : Env) (img : PointCloud) (s : State) (d r : Vec3) (m : ImuMsg)
    (s1 : State) (d1 r1 : Vec3) (h : processImuMsg env img s d r m = Except.ok (s1, d1, r1)) :
    (∃ dt, s1.estimator = s.estimator.doProcessIMU env dt d1 r1) ∧
      (m.stamp ≤ img.stamp + s.estimator.td →
        s1.current_time = m.stamp ∧ d1 = m.linear_acceleration ∧ r1 = m.angular_velocity) ∧
      s1.imu_buf = s.imu_buf ∧ s1.feature_buf = s.feature_buf ∧ s1.relo_buf = s.relo_buf ∧
      s1.latest_time = s.latest_time ∧ s1.last_imu_t = s.last_imu_t ∧
      s1.init_imu = s.init_imu ∧ s1.pubs = s.pubs := by
  by_cases hb : m.stamp ≤ img.stamp + s.estimator.td
  · by_cases hc : s.current_time < 0
    · simp only [processImuMsg, hb, hc, if_true, State.setClock, sub_self, ge_iff_le, le_refl,
        not_true_eq_false, if_false, Except.ok.injEq, Prod.mk.injEq] at h
      obtain ⟨a1, a2, a3⟩ := h
      subst a1; subst a2; subst a3
      exact ⟨⟨_, rfl⟩, fun _ => ⟨rfl, rfl, rfl⟩, rfl, rfl, rfl, rfl, rfl, rfl, rfl⟩
    · by_cases hd : m.stamp - s.current_time ≥ 0
      · simp only [processImuMsg, hb, hc, hd, if_true, State.setClock, not_true_eq_false,
          if_false, Except.ok.injEq, Prod.mk.injEq] at h
        obtain ⟨a1, a2, a3⟩ := h
        subst a1; subst a2; subst a3
        exact ⟨⟨_, rfl⟩, fun _ => ⟨rfl, rfl, rfl⟩, rfl, rfl, rfl, rfl, rfl, rfl, rfl⟩
      · simp only [processImuMsg, hb, hc, hd, if_true, not_false_eq_true, if_false] at h
        cases h
  · by_cases h1 : img.stamp + s.estimator.td - s.current_time ≥ 0
    · by_cases h2 : m.stamp - (img.stamp + s.estimator.td) ≥ 0
      · by_cases h3 : img.stamp + s.estimator.td - s.current_time +
            (m.stamp - (img.stamp + s.estimator.td)) > 0
        · simp only [processImuMsg, hb, h1, h2, h3, if_false, State.setClock,
            not_true_eq_false, Except.ok.injEq, Prod.mk.injEq] at h
          obtain ⟨a1, a2, a3⟩ := h
          subst a1; subst a2; subst a3
          exact ⟨⟨_, rfl⟩, fun hx => absurd hx hb, rfl, rfl, rfl, rfl, rfl, rfl, rfl⟩
        · simp only [processImuMsg, hb, h1, h2, h3, if_false, not_true_eq_false,
            not_false_eq_true, if_true] at h
          cases h
      · simp only [processImuMsg, hb, h1, h2, if_false, not_true_eq_false,
          not_false_eq_true, if_true] at h
        cases h
    · simp only [processImuMsg, hb, h1, if_false, not_false_eq_true, if_true] at h
      cases h

theorem processImuMsg_straddle_value (env : Env) (img : PointCloud) (s : State) (d r : Vec3)
    (m : ImuMsg) (h1 : img.stamp + s.estimator.td < m.stamp)
    (h2 : s.current_time ≤ img.stamp + s.estimator.td) :
    ∃ s1, processImuMsg env img s d r m =
        Except.ok (s1,
          ((m.stamp - (img.stamp + s.estimator.td)) /
              (img.stamp + s.estimator.td - s.current_time +
                (m.stamp - (img.stamp + s.estimator.td)))) * d +
            ((img.stamp + s.estimator.td - s.current_time) /
              (img.stamp + s.estimator.td - s.current_time +
                (m.stamp - (img.stamp + s.estimator.td)))) * m.linear_acceleration,
          ((m.stamp - (img.stamp + s.estimator.td)) /
              (img.stamp + s.estimator.td - s.current_time +
                (m.stamp - (img.stamp + s.estimator.td)))) * r +
            ((img.stamp + s.estimator.td - s.current_time) /
              (img.stamp + s.estimator.td - s.current_time +
                (m.stamp - (img.stamp + s.estimator.td)))) * m.angular_velocity) ∧
      s1.estimator.calls = s.estimator.calls ++
        [EstCall.processIMU (img.stamp + s.estimator.td - s.current_time)
          (((m.stamp - (img.stamp + s.estimator.td)) /
              (img.stamp + s.estimator.td - s.current_time +
                (m.stamp - (img.stamp + s.estimator.td)))) * d +
            ((img.stamp + s.estimator.td - s.current_time) /
              (img.stamp + s.estimator.td - s.current_time +
                (m.stamp - (img.stamp + s.estimator.td)))) * m.linear_acceleration)
          (((m.stamp - (img.stamp + s.estimator.td)) /
              (img.stamp + s.estimator.td - s.current_time +
                (m.stamp - (img.stamp + s.estimator.td)))) * r +
            ((img.stamp + s.estimator.td - s.current_time) /
              (img.stamp + s.estimator.td - s.current_time +
                (m.stamp - (img.stamp + s.estimator.td)))) * m.angular_velocity)] := by
  unfold processImuMsg
  have h3 : ¬ (m.stamp ≤ img.stamp + s.estimator.td) := not_le.mpr h1
  have h4 : img.stamp + s.estimator.td - s.current_time ≥ 0 := by linarith
  have h5 : m.stamp - (img.stamp + s.estimator.td) ≥ 0 := by linarith
  have h6 : img.stamp + s.estimator.td - s.current_time
      + (m.stamp - (img.stamp + s.estimator.td)) > 0 := by linarith
  simp only [h3, if_false, h4, h5, h6, not_true_eq_false, State.setClock]
  refine ⟨_, rfl, ?_⟩
  simp [Estimator.doProcessIMU]
  exact ⟨rfl, rfl⟩

theorem doProcessIMU_td (env : Env)
    (hk : ∀ e dt acc gyr, (env.processIMU e dt acc gyr).td = e.td) (e : Estimator) (dt : ℚ)
    (acc gyr : Vec3) : (e.doProcessIMU env dt acc gyr).td = e.td := by
  simp [Estimator.doProcessIMU, hk]

/-- The last call of the IMU loop on a batch that ends with a sample `prev` before
`tf` and a sample `last` after `tf`. -/
theorem imuLoop_last_call (env : Env)
    (hk : ∀ e dt acc gyr, (env.processIMU e dt acc gyr).td = e.td)
    (img : PointCloud) (prev last : ImuMsg) (tf : ℚ) (hprev : prev.stamp < tf)
    (hlast : tf < last.stamp) :
    ∀ (pre : List ImuMsg) (s : State) (d r : Vec3) (s1 : State),
      img.stamp + s.estimator.td = tf →
      imuLoop env img (pre ++ [prev, last]) s d r = Except.ok s1 →
      s1.estimator.calls.getLast? = some (EstCall.processIMU (tf - prev.stamp)
        (((last.stamp - tf) / (tf - prev.stamp + (last.stamp - tf))) * prev.linear_acceleration +
          ((tf - prev.stamp) / (tf - prev.stamp + (last.stamp - tf))) * last.linear_acceleration)
        (((last.stamp - tf) / (tf - prev.stamp + (last.stamp - tf))) * prev.angular_velocity +
          ((tf - prev.stamp) / (tf - prev.stamp + (last.stamp - tf))) * last.angular_velocity)) := by
  intro pre
  induction pre with
  | nil =>
    intro s d r s1 htf h
    simp only [List.nil_append, imuLoop] at h
    cases hp : processImuMsg env img s d r prev with
    | error f => rw [hp] at h; cases h
    | ok res =>
      obtain ⟨sa, da, ra⟩ := res
      rw [hp] at h
      simp only at h
      obtain ⟨⟨dt, he⟩, hval, _⟩ := processImuMsg_ok env img s d r prev sa da ra hp
      obtain ⟨hct, hda, hra⟩ := hval (by rw [htf]; exact le_of_lt hprev)
      have htd : sa.estimator.td = s.estimator.td := by
        rw [he]; exact doProcessIMU_td env hk _ _ _ _
      have htf2 : img.stamp + sa.estimator.td = tf := by rw [htd]; exact htf
      obtain ⟨sb, hb, hcalls⟩ := processImuMsg_straddle_value env img sa da ra last
        (by rw [htf2]; exact hlast) (by rw [htf2, hct]; exact le_of_lt hprev)
      rw [hb] at h
      simp only [Except.ok.injEq] at h
      subst h
      rw [hcalls, List.getLast?_concat, htf2, hct, hda, hra]
  | cons x pre ih =>
    intro s d r s1 htf h
    simp only [List.cons_append, imuLoop] at h
    cases hp : processImuMsg env img s d r x with
    | error f => rw [hp] at h; cases h
    | ok res =>
      obtain ⟨sa, da, ra⟩ := res
      rw [hp] at h
      simp only at h
      obtain ⟨⟨dt, he⟩, _⟩ := processImuMsg_ok env img s d r x sa da ra hp
      have htd : sa.estimator.td = s.estimator.td := by
        rw [he]; exact doProcessIMU_td env hk _ _ _ _
      exact ih sa da ra s1 (by rw [htd]; exact htf) h

theorem vec3_ext (a b : Vec3) (hx : a.x = b.x) (hy : a.y = b.y) (hz : a.z = b.z) : a = b := by
  cases a; cases b; simp at hx hy hz; simp [hx, hy, hz]

theorem interpolation_eq (tp tf t : ℚ) (h1 : tp < tf) (h2 : tf < t) (a b : Vec3) :
    ((t - tf) / (tf - tp + (t - tf))) * a + ((tf - tp) / (tf - tp + (t - tf))) * b =
      a + ((tf - tp) / (t - tp)) * (b - a) := by
  have hne : tf - tp + (t - tf) ≠ 0 := by linarith
  have hne2 : t - tp ≠ 0 := by linarith
  apply vec3_ext
  · simp only [vec3_add, vec3_smul, vec3_sub]
    field_simp
    ring
  · simp only [vec3_add, vec3_smul, vec3_sub]
    field_simp
    ring
  · simp only [vec3_add, vec3_smul, vec3_sub]
    field_simp
    ring

/-- C18: for every batch that ends with a sample `prev` before `tf` and a
straddle sample `last` after `tf` (`tf = img.t + td`, `td` not changed by
`processIMU`): when the IMU loop of `process` runs through, the call of
`processIMU` for the straddle sample has `dt = dt_1 = tf - prev.t` and, for the
acceleration and the angular velocity, the measurement `w1 * m_prev + w2 * m`
with `w1 = dt_2 / (dt_1 + dt_2)`, `w2 = dt_1 / (dt_1 + dt_2)`, `dt_2 = last.t - tf`,
`w1, w2 ≥ 0`, `w1 + w2 = 1`; this is the linear interpolation
`m_prev + (tf - t_prev) / (t - t_prev) * (m - m_prev)` of the two samples at `tf`.
The loop does run through when the time stamps of the batch are non-negative
and non-decreasing and the clock is the sentinel or not after the first sample. -/
theorem C18_straddle_interpolation (env : Env)
    (hk : ∀ e dt acc gyr, (env.processIMU e dt acc gyr).td = e.td)
    (img : PointCloud) (pre : List ImuMsg) (prev last : ImuMsg) (s : State) (d r : Vec3)
    (hprev : prev.stamp < img.stamp + s.estimator.td)
    (hlast : img.stamp + s.estimator.td < last.stamp) :
    (∀ s1, imuLoop env img (pre ++ [prev, last]) s d r = Except.ok s1 →
      ∃ w1 w2 : ℚ,
        w1 = (last.stamp - (img.stamp + s.estimator.td)) /
          ((img.stamp + s.estimator.td - prev.stamp) +
            (last.stamp - (img.stamp + s.estimator.td))) ∧
        w2 = (img.stamp + s.estimator.td - prev.stamp) /
          ((img.stamp + s.estimator.td - prev.stamp) +
            (last.stamp - (img.stamp + s.estimator.td))) ∧
        0 ≤ w1 ∧ 0 ≤ w2 ∧ w1 + w2 = 1 ∧
        s1.estimator.calls.getLast? = some (EstCall.processIMU
          (img.stamp + s.estimator.td - prev.stamp)
          (w1 * prev.linear_acceleration + w2 * last.linear_acceleration)
          (w1 * prev.angular_velocity + w2 * last.angular_velocity)) ∧
        w1 * prev.linear_acceleration + w2 * last.linear_acceleration =
          prev.linear_acceleration +
            ((img.stamp + s.estimator.td - prev.stamp) / (last.stamp - prev.stamp)) *
              (last.linear_acceleration - prev.linear_acceleration) ∧
        w1 * prev.angular_velocity + w2 * last.angular_velocity =
          prev.angular_velocity +
            ((img.stamp + s.estimator.td - prev.stamp) / (last.stamp - prev.stamp)) *
              (last.angular_velocity - prev.angular_velocity)) ∧
    ((pre ++ [prev, last]).Pairwise (fun a b => a.stamp ≤ b.stamp) →
      (∀ m ∈ pre ++ [prev, last], 0 ≤ m.stamp) →
      (s.current_time < 0 ∨ ∀ m ∈ pre ++ [prev, last], s.current_time ≤ m.stamp) →
      ∃ s1, imuLoop env img (pre ++ [prev, last]) s d r = Except.ok s1) := by
  constructor
  · intro s1 h
    have hpos : (0 : ℚ) < (img.stamp + s.estimator.td - prev.stamp) +
        (last.stamp - (img.stamp + s.estimator.td)) := by linarith
    refine ⟨_, _, rfl, rfl, ?_, ?_, ?_,
      imuLoop_last_call env hk img prev last _ hprev hlast pre s d r s1 rfl h,
      interpolation_eq _ _ _ hprev hlast _ _, interpolation_eq _ _ _ hprev hlast _ _⟩
    · exact div_nonneg (by linarith) (le_of_lt hpos)
    · exact div_nonneg (by linarith) (le_of_lt hpos)
    · rw [← add_div]
      have : last.stamp - (img.stamp + s.estimator.td) + (img.stamp + s.estimator.td - prev.stamp)
          = (img.stamp + s.estimator.td - prev.stamp) +
            (last.stamp - (img.stamp + s.estimator.td)) := by ring
      rw [this]
      exact div_self (ne_of_gt hpos)
  · intro hs hnn hc
    cases hpre : pre ++ [prev, last] with
    | nil => simp at hpre
    | cons first rest =>
      rw [hpre] at hs hnn hc
      have hfp : first.stamp ≤ prev.stamp := by
        cases pre with
        | nil =>
          simp at hpre
          rw [hpre.1]
        | cons y pre =>
          simp at hpre
          obtain ⟨hy, hrest⟩ := hpre
          subst hy
          have hmem : prev ∈ rest := by rw [← hrest]; simp
          exact (List.pairwise_cons.mp hs).1 prev hmem
      obtain ⟨s1, e1, _⟩ := imuLoop_batch env hk img first rest s d r
        (le_of_lt (lt_of_le_of_lt hfp hprev)) (hnn first (List.mem_cons_self _ _)) hs
        (by
          rcases hc with hc | hc
          · exact Or.inl hc
          · exact Or.inr (hc first (List.mem_cons_self _ _)))
      exact ⟨s1, e1⟩
/-- Witness of C18: samples at 0.01, 0.02 (measurement 1) and 0.03 (measurement 3),
feature at 0.025, `td = 0`: the straddle call has `dt = 0.005` and the
interpolated measurement 2. -/
theorem C18_straddle_interpolation_witness :
    (∀ e dt acc gyr, (idleEnv.processIMU e dt acc gyr).td = e.td) ∧
    (imuWith (2 / 100) 1).stamp < (featureAt (25 / 1000)).stamp + (stateWith [] []).estimator.td ∧
    (featureAt (25 / 1000)).stamp + (stateWith [] []).estimator.td < (imuWith (3 / 100) 3).stamp ∧
    (∀ s1, imuLoop idleEnv (featureAt (25 / 1000))
        ([imuWith (1 / 100) 0] ++ [imuWith (2 / 100) 1, imuWith (3 / 100) 3]) (stateWith [] [])
        ⟨0, 0, 0⟩ ⟨0, 0, 0⟩ = Except.ok s1 →
      s1.estimator.calls.getLast? =
        some (EstCall.processIMU (1 / 200) ⟨2, 0, 0⟩ ⟨0, 0, 2⟩)) ∧
    callsOf (imuLoop idleEnv (featureAt (25 / 1000))
        ([imuWith (1 / 100) 0] ++ [imuWith (2 / 100) 1, imuWith (3 / 100) 3]) (stateWith [] [])
        ⟨0, 0, 0⟩ ⟨0, 0, 0⟩) =
      some [EstCall.processIMU 0 ⟨0, 0, 0⟩ ⟨0, 0, 0⟩,
        EstCall.processIMU (1 / 100) ⟨1, 0, 0⟩ ⟨0, 0, 1⟩,
        EstCall.processIMU (1 / 200) ⟨2, 0, 0⟩ ⟨0, 0, 2⟩] := by
  have hk : ∀ e dt acc gyr, (idleEnv.processIMU e dt acc gyr).td = e.td := fun _ _ _ _ => rfl
  have h1 : (imuWith (2 / 100) 1).stamp <
      (featureAt (25 / 1000)).stamp + (stateWith [] []).estimator.td := by
    norm_num [imuWith, featureAt, stateWith, State.initial, estimatorWith]
  have h2 : (featureAt (25 / 1000)).stamp + (stateWith [] []).estimator.td <
      (imuWith (3 / 100) 3).stamp := by
    norm_num [imuWith, featureAt, stateWith, State.initial, estimatorWith]
  refine ⟨hk, h1, h2, ?_, ?_⟩
  · intro s1 hs1
    obtain ⟨w1, w2, e1, e2, _, _, _, hcall, _, _⟩ :=
      (C18_straddle_interpolation idleEnv hk (featureAt (25 / 1000)) [imuWith (1 / 100) 0]
        (imuWith (2 / 100) 1) (imuWith (3 / 100) 3) (stateWith [] []) ⟨0, 0, 0⟩ ⟨0, 0, 0⟩
        h1 h2).1 s1 hs1
    rw [hcall, e1, e2]
    norm_num [imuWith, featureAt, stateWith, State.initial, estimatorWith, vec3_add, vec3_smul]
  · norm_num [callsOf, imuLoop, processImuMsg, State.setClock, Estimator.doProcessIMU,
      idleEnv, imuWith, featureAt, stateWith, State.initial, estimatorWith]
theorem vec3_eta (p : Vec3) : (⟨p.x, p.y, p.z⟩ : Vec3) = p := by
  cases p; rfl

/-- The relocalization step when the last message of `relo_buf` can be read. -/
theorem setRelo_some (env : Env) (s : State) (m : PointCloud) (v0 v1 v2 v3 v4 v5 v6 v7 : ℚ)
    (rest : List ℚ) (chans : List (List ℚ)) (hl : s.relo_buf.getLast? = some m)
    (hc : m.channels = (v0 :: v1 :: v2 :: v3 :: v4 :: v5 :: v6 :: v7 :: rest) :: chans) :
    setRelo env s = Except.ok
      ({ s with
         relo_buf := []
         estimator := s.estimator.doSetReloFrame env m.stamp (toInt v7) m.points ⟨v0, v1, v2⟩
           (Quat.toRotationMatrix ⟨v3, v4, v5, v6⟩) }, some m) := by
  unfold setRelo
  rw [drainRelo_eq, hl]
  simp only [hc]
  have : m.points.map (fun p => (⟨p.x, p.y, p.z⟩ : Vec3)) = m.points := by
    simp [vec3_eta]
  rw [this]

theorem setRelo_none (env : Env) (s : State) (h : s.relo_buf = []) :
    setRelo env s = Except.ok (s, none) := by
  unfold setRelo
  rw [drainRelo_eq, h]
  simp only [List.getLast?_nil]
  rw [← h]

/-- What the relocalization step leaves when it returns. -/
theorem setRelo_ok (env : Env) (s s1 : State) (relo_msg : Option PointCloud)
    (h : setRelo env s = Except.ok (s1, relo_msg)) :
    s1.relo_buf = [] ∧ s1.pubs = s.pubs ∧ s1.imu_buf = s.imu_buf ∧
      s1.feature_buf = s.feature_buf ∧ s1.latest_time = s.latest_time ∧
      s1.last_imu_t = s.last_imu_t ∧ s1.init_imu = s.init_imu ∧
      s1.current_time = s.current_time ∧
      (relo_msg.isSome = true ↔ s.relo_buf ≠ []) ∧
      ∃ cs, s1.estimator.calls = s.estimator.calls ++ cs ∧
        cs.countP EstCall.isSetReloFrame = (if s.relo_buf = [] then 0 else 1) ∧
        dtsOf cs = [] := by
  cases hl : s.relo_buf.getLast? with
  | none =>
    have hnil : s.relo_buf = [] := List.getLast?_eq_none_iff.mp hl
    rw [setRelo_none env s hnil] at h
    simp only [Except.ok.injEq, Prod.mk.injEq] at h
    obtain ⟨h1, h2⟩ := h
    subst h1; subst h2
    exact ⟨hnil, rfl, rfl, rfl, rfl, rfl, rfl, rfl, by simp [hnil], [], by simp, by simp [hnil],
      rfl⟩
  | some m =>
    have hne : s.relo_buf ≠ [] := by
      intro hx; rw [hx] at hl; simp at hl
    unfold setRelo at h
    rw [drainRelo_eq, hl] at h
    simp only at h
    split at h
    · simp only [Except.ok.injEq, Prod.mk.injEq] at h
      obtain ⟨h1, h2⟩ := h
      subst h1; subst h2
      refine ⟨rfl, rfl, rfl, rfl, rfl, rfl, rfl, rfl, by simp [hne], _, rfl, ?_, ?_⟩
      · simp [hne, EstCall.isSetReloFrame]
      · simp [dtsOf, EstCall.dt?]
    · cases h

/-- What the IMU loop leaves when it returns. -/
theorem imuLoop_ok (env : Env) (img : PointCloud) :
    ∀ (IMUs : List ImuMsg) (s : State) (d r : Vec3) (s1 : State),
      imuLoop env img IMUs s d r = Except.ok s1 →
      s1.imu_buf = s.imu_buf ∧ s1.feature_buf = s.feature_buf ∧ s1.relo_buf = s.relo_buf ∧
        s1.latest_time = s.latest_time ∧ s1.last_imu_t = s.last_imu_t ∧
        s1.init_imu = s.init_imu ∧ s1.pubs = s.pubs ∧
        ∃ args, s1.estimator.calls = s.estimator.calls ++ imuCalls args := by
  intro IMUs
  induction IMUs with
  | nil =>
    intro s d r s1 h
    simp only [imuLoop, Except.ok.injEq] at h
    subst h
    exact ⟨rfl, rfl, rfl, rfl, rfl, rfl, rfl, [], by simp [imuCalls]⟩
  | cons m IMUs ih =>
    intro s d r s1 h
    simp only [imuLoop] at h
    cases hp : processImuMsg env img s d r m with
    | error f => rw [hp] at h; cases h
    | ok res =>
      obtain ⟨sa, da, ra⟩ := res
      rw [hp] at h
      simp only at h
      obtain ⟨⟨dt, he⟩, _, p1, p2, p3, p4, p5, p6, p7⟩ :=
        processImuMsg_ok env img s d r m sa da ra hp
      obtain ⟨i1, i2, i3, i4, i5, i6, i7, args, i8⟩ := ih sa da ra s1 h
      refine ⟨i1.trans p1, i2.trans p2, i3.trans p3, i4.trans p4, i5.trans p5, i6.trans p6,
        i7.trans p7, (dt, da, ra) :: args, ?_⟩
      rw [i8, he]
      simp [Estimator.doProcessIMU, imuCalls]

/-- What the processing of one measurement leaves when it returns. -/
theorem processMeasurement_ok (env : Env) (s : State) (measurement : Batch) (s1 : State)
    (h : processMeasurement env s measurement = Except.ok s1) :
    s1.imu_buf = s.imu_buf ∧ s1.feature_buf = s.feature_buf ∧ s1.relo_buf = [] ∧
      s1.latest_time = s.latest_time ∧ s1.last_imu_t = s.last_imu_t ∧
      s1.init_imu = s.init_imu ∧
      s1.pubs = s.pubs ++
        [Pub.odometry measurement.2.stamp, Pub.keyPoses measurement.2.stamp,
          Pub.cameraPose measurement.2.stamp, Pub.pointCloud measurement.2.stamp,
          Pub.tf measurement.2.stamp, Pub.keyframe] ++
        (if s.relo_buf = [] then [] else [Pub.relocalization]) ∧
      ((s1.estimator.calls.drop s.estimator.calls.length).countP EstCall.isSetReloFrame =
        (if s.relo_buf = [] then 0 else 1)) := by
  unfold processMeasurement at h
  simp only at h
  cases hi : imuLoop env measurement.2 measurement.1 s ⟨0, 0, 0⟩ ⟨0, 0, 0⟩ with
  | error f => rw [hi] at h; cases h
  | ok sa =>
    rw [hi] at h
    simp only at h
    obtain ⟨a1, a2, a3, a4, a5, a6, a7, args, a8⟩ := imuLoop_ok env _ _ s _ _ sa hi
    cases hr : setRelo env sa with
    | error f => rw [hr] at h; cases h
    | ok res =>
      obtain ⟨sb, relo_msg⟩ := res
      rw [hr] at h
      simp only at h
      obtain ⟨b1, b2, b3, b4, b5, b6, b7, _, b9, cs, b10, b11, _⟩ := setRelo_ok env sa sb relo_msg hr
      rw [a3] at b9 b11
      cases hb : buildImage env measurement.2 measurement.2.points 0 [] with
      | error f => rw [hb] at h; cases h
      | ok image =>
        rw [hb] at h
        simp only [Except.ok.injEq] at h
        have hcalls : (sb.estimator.doProcessImage env image measurement.2.stamp).calls =
            s.estimator.calls ++
              (imuCalls args ++ cs ++ [EstCall.processImage image measurement.2.stamp]) := by
          simp [Estimator.doProcessImage, b10, a8]
        have hcount : (imuCalls args ++ cs ++
            [EstCall.processImage image measurement.2.stamp]).countP EstCall.isSetReloFrame =
            (if s.relo_buf = [] then 0 else 1) := by
          rw [List.countP_append, List.countP_append, b11]
          have : (imuCalls args).countP EstCall.isSetReloFrame = 0 := by
            rw [List.countP_eq_zero]
            intro c hc
            simp only [imuCalls, List.mem_map] at hc
            obtain ⟨a, _, rfl⟩ := hc
            simp [EstCall.isSetReloFrame]
          rw [this]
          simp [EstCall.isSetReloFrame]
        by_cases hne : s.relo_buf = []
        · have hnone : relo_msg.isSome = false := by
            cases hx : relo_msg.isSome with
            | false => rfl
            | true => exact absurd hne (b9.mp hx)
          rw [hnone] at h
          simp only [Bool.false_eq_true, if_false] at h
          subst h
          refine ⟨b3.trans a1, b4.trans a2, b1, b5.trans a4, b6.trans a5, b7.trans a6, ?_, ?_⟩
          · show sb.pubs ++ _ = _
            rw [b2, a7, if_pos hne]
            simp
          · show ((sb.estimator.doProcessImage env image measurement.2.stamp).calls.drop _).countP
              _ = _
            rw [hcalls, List.drop_left, hcount]
        · have hsome : relo_msg.isSome = true := b9.mpr hne
          rw [hsome] at h
          simp only [if_true] at h
          subst h
          refine ⟨b3.trans a1, b4.trans a2, b1, b5.trans a4, b6.trans a5, b7.trans a6, ?_, ?_⟩
          · show sb.pubs ++ _ ++ _ = _
            rw [b2, a7, if_neg hne]
          · show ((sb.estimator.doProcessImage env image measurement.2.stamp).calls.drop _).countP
              _ = _
            rw [hcalls, List.drop_left, hcount]
theorem processMeasurement_relo_call (env : Env) (s : State) (measurement : Batch) (s1 : State)
    (h : processMeasurement env s measurement = Except.ok s1)
    (m : PointCloud) (v0 v1 v2 v3 v4 v5 v6 v7 : ℚ) (rest : List ℚ) (chans : List (List ℚ))
    (hl : s.relo_buf.getLast? = some m)
    (hc : m.channels = (v0 :: v1 :: v2 :: v3 :: v4 :: v5 :: v6 :: v7 :: rest) :: chans) :
    EstCall.setReloFrame m.stamp (toInt v7) m.points ⟨v0, v1, v2⟩
        (Quat.toRotationMatrix ⟨v3, v4, v5, v6⟩) ∈
      s1.estimator.calls.drop s.estimator.calls.length := by
  unfold processMeasurement at h
  simp only at h
  cases hi : imuLoop env measurement.2 measurement.1 s ⟨0, 0, 0⟩ ⟨0, 0, 0⟩ with
  | error f => rw [hi] at h; cases h
  | ok sa =>
    rw [hi] at h
    simp only at h
    obtain ⟨_, _, a3, _, _, _, _, args, a8⟩ := imuLoop_ok env _ _ s _ _ sa hi
    rw [setRelo_some env sa m v0 v1 v2 v3 v4 v5 v6 v7 rest chans (by rw [a3]; exact hl) hc] at h
    simp only at h
    cases hb : buildImage env measurement.2 measurement.2.points 0 [] with
    | error f => rw [hb] at h; cases h
    | ok image =>
      rw [hb] at h
      simp only [Except.ok.injEq, Option.isSome_some, if_true] at h
      subst h
      simp [Estimator.doProcessImage, Estimator.doSetReloFrame, a8]

/-- C12: the relocalization step of a batch in `process`. With `relo_buf` empty,
`setReloFrame` is not called and no relocalization event is published for the
batch. With `relo_buf` non-empty (its last bundle having the eight channel
values), `relo_buf` is emptied and `setReloFrame` is called exactly once, with
the time stamp, the match points, the translation (values 0-2), the rotation of
the quaternion (values 3-6, in the order w, x, y, z) and the frame index
(value 7, truncated) of the bundle that was at the back of `relo_buf`; and the
relocalization event is published for the batch. -/
theorem C12_relocalization_step (env : Env) (s : State) :
    (s.relo_buf = [] → setRelo env s = Except.ok (s, none)) ∧
    (∀ (m : PointCloud) (v0 v1 v2 v3 v4 v5 v6 v7 : ℚ) (rest : List ℚ) (chans : List (List ℚ)),
      s.relo_buf.getLast? = some m →
      m.channels = (v0 :: v1 :: v2 :: v3 :: v4 :: v5 :: v6 :: v7 :: rest) :: chans →
      setRelo env s = Except.ok
        ({ s with
           relo_buf := []
           estimator := s.estimator.doSetReloFrame env m.stamp (toInt v7) m.points ⟨v0, v1, v2⟩
             (Quat.toRotationMatrix ⟨v3, v4, v5, v6⟩) }, some m) ∧
      (s.estimator.doSetReloFrame env m.stamp (toInt v7) m.points ⟨v0, v1, v2⟩
          (Quat.toRotationMatrix ⟨v3, v4, v5, v6⟩)).calls =
        s.estimator.calls ++ [EstCall.setReloFrame m.stamp (toInt v7) m.points ⟨v0, v1, v2⟩
          (Quat.toRotationMatrix ⟨v3, v4, v5, v6⟩)]) ∧
    (∀ (measurement : Batch) (s1 : State),
      processMeasurement env s measurement = Except.ok s1 →
      s1.relo_buf = [] ∧
      (s.relo_buf = [] →
        s1.pubs = s.pubs ++
          [Pub.odometry measurement.2.stamp, Pub.keyPoses measurement.2.stamp,
            Pub.cameraPose measurement.2.stamp, Pub.pointCloud measurement.2.stamp,
            Pub.tf measurement.2.stamp, Pub.keyframe] ∧
        (s1.estimator.calls.drop s.estimator.calls.length).countP EstCall.isSetReloFrame = 0) ∧
      (∀ (m : PointCloud) (v0 v1 v2 v3 v4 v5 v6 v7 : ℚ) (rest : List ℚ)
          (chans : List (List ℚ)),
        s.relo_buf.getLast? = some m →
        m.channels = (v0 :: v1 :: v2 :: v3 :: v4 :: v5 :: v6 :: v7 :: rest) :: chans →
        s1.pubs = s.pubs ++
          [Pub.odometry measurement.2.stamp, Pub.keyPoses measurement.2.stamp,
            Pub.cameraPose measurement.2.stamp, Pub.pointCloud measurement.2.stamp,
            Pub.tf measurement.2.stamp, Pub.keyframe] ++ [Pub.relocalization] ∧
        (s1.estimator.calls.drop s.estimator.calls.length).countP EstCall.isSetReloFrame = 1 ∧
        EstCall.setReloFrame m.stamp (toInt v7) m.points ⟨v0, v1, v2⟩
            (Quat.toRotationMatrix ⟨v3, v4, v5, v6⟩) ∈
          s1.estimator.calls.drop s.estimator.calls.length)) := by
  refine ⟨setRelo_none env s, ?_, ?_⟩
  · intro m v0 v1 v2 v3 v4 v5 v6 v7 rest chans hl hc
    exact ⟨setRelo_some env s m v0 v1 v2 v3 v4 v5 v6 v7 rest chans hl hc, rfl⟩
  · intro measurement s1 h
    obtain ⟨_, _, p3, _, _, _, p7, p8⟩ := processMeasurement_ok env s measurement s1 h
    refine ⟨p3, ?_, ?_⟩
    · intro hnil
      rw [if_pos hnil] at p7 p8
      exact ⟨by rw [p7]; simp, p8⟩
    · intro m v0 v1 v2 v3 v4 v5 v6 v7 rest chans hl hc
      have hne : ¬ s.relo_buf = [] := by
        intro hx; rw [hx] at hl; simp at hl
      rw [if_neg hne] at p7 p8
      exact ⟨p7, p8,
        processMeasurement_relo_call env s measurement s1 h m v0 v1 v2 v3 v4 v5 v6 v7 rest chans
          hl hc⟩

/-- Witness of C12: two buffered relocalization messages; the batch with IMU
samples at 0.01 and 0.03 and the feature at 0.02 is processed, `setReloFrame`
is called once, for the message at the back (time 2, frame index 9), and the
relocalization event is published last. -/
theorem C12_relocalization_step_witness :
    stateRelo.relo_buf.getLast? = some (reloAt 2 9) ∧
    (reloAt 2 9).channels = (1 :: 2 :: 3 :: 1 :: 0 :: 0 :: 0 :: 9 :: []) :: [] ∧
    setRelo idleEnv stateRelo = Except.ok
      ({ stateRelo with
         relo_buf := []
         estimator := stateRelo.estimator.doSetReloFrame idleEnv (reloAt 2 9).stamp (toInt 9)
           (reloAt 2 9).points ⟨1, 2, 3⟩ (Quat.toRotationMatrix ⟨1, 0, 0, 0⟩) }, some (reloAt 2 9)) ∧
    (∀ s1, processMeasurement idleEnv stateRelo
        ([imuAt (1 / 100), imuAt (3 / 100)], featureAt (2 / 100)) = Except.ok s1 →
      s1.pubs = stateRelo.pubs ++
        [Pub.odometry (2 / 100), Pub.keyPoses (2 / 100), Pub.cameraPose (2 / 100),
          Pub.pointCloud (2 / 100), Pub.tf (2 / 100), Pub.keyframe] ++ [Pub.relocalization] ∧
      (s1.estimator.calls.drop stateRelo.estimator.calls.length).countP
        EstCall.isSetReloFrame = 1) ∧
    callsOf (processMeasurement idleEnv stateRelo
        ([imuAt (1 / 100), imuAt (3 / 100)], featureAt (2 / 100))) =
      some [EstCall.processIMU 0 ⟨0, 0, 0⟩ ⟨0, 0, 0⟩,
        EstCall.processIMU (1 / 100) ⟨0, 0, 0⟩ ⟨0, 0, 0⟩,
        EstCall.setReloFrame 2 9 [⟨4, 5, 6⟩] ⟨1, 2, 3⟩ ⟨⟨1, 0, 0⟩, ⟨0, 1, 0⟩, ⟨0, 0, 1⟩⟩,
        EstCall.processImage [] (2 / 100)] := by
  have hl : stateRelo.relo_buf.getLast? = some (reloAt 2 9) := rfl
  have hc : (reloAt 2 9).channels = (1 :: 2 :: 3 :: 1 :: 0 :: 0 :: 0 :: 9 :: []) :: [] := rfl
  refine ⟨hl, hc, ((C12_relocalization_step idleEnv stateRelo).2.1 _ 1 2 3 1 0 0 0 9 [] [] hl hc).1,
    ?_, ?_⟩
  · intro s1 h
    obtain ⟨_, _, h3⟩ := (C12_relocalization_step idleEnv stateRelo).2.2 _ s1 h
    obtain ⟨q1, q2, _⟩ := h3 _ 1 2 3 1 0 0 0 9 [] [] hl hc
    exact ⟨q1, q2⟩
  · have hfloor : toInt 9 = 9 := by
      unfold toInt
      norm_num
    norm_num [callsOf, processMeasurement, imuLoop, processImuMsg, setRelo, drainRelo,
      buildImage, State.setClock, Estimator.doProcessIMU, Estimator.doSetReloFrame,
      Estimator.doProcessImage, idleEnv, stateRelo, reloAt, imuAt, featureAt, stateWith,
      State.initial, estimatorWith, Quat.toRotationMatrix, hfloor]
theorem predict_latest_time (s : State) (m : ImuMsg) : (predict s m).latest_time = m.stamp := by
  unfold predict
  split <;> rfl

theorem updateLoop_latest_time :
    ∀ (buf : List ImuMsg) (s : State),
      (updateLoop buf s).latest_time =
        (match buf.getLast? with
         | some last => last.stamp
         | none => s.latest_time) := by
  intro buf
  induction buf with
  | nil => intro s; rfl
  | cons m buf ih =>
    intro s
    rw [updateLoop, ih]
    cases buf with
    | nil => exact predict_latest_time s m
    | cons m2 buf =>
      rw [List.getLast?_cons_cons, List.getLast?_eq_getLast _ (List.cons_ne_nil m2 buf)]

theorem getMeasurements_fast (s : State) (bs : List Batch) (s1 : State)
    (h : getMeasurements s = some (bs, s1)) :
    s1.latest_time = s.latest_time ∧ s1.init_imu = s.init_imu ∧ s1.pubs = s.pubs := by
  rw [getMeasurements_eq] at h
  cases hr : getMeasurementsLoop s.estimator.td s.feature_buf s.imu_buf s.sum_of_wait s.warns []
    with
  | none => rw [hr] at h; simp at h
  | some r =>
    rw [hr] at h
    simp only [Option.map_some', Option.some.injEq, Prod.mk.injEq] at h
    obtain ⟨_, h2⟩ := h
    subst h2
    exact ⟨rfl, rfl, rfl⟩

theorem processLoop_ok (env : Env) :
    ∀ (bs : List Batch) (s s1 : State), processLoop env bs s = Except.ok s1 →
      s1.imu_buf = s.imu_buf ∧ s1.latest_time = s.latest_time ∧
        s1.last_imu_t = s.last_imu_t := by
  intro bs
  induction bs with
  | nil =>
    intro s s1 h
    simp only [processLoop, Except.ok.injEq] at h
    subst h
    exact ⟨rfl, rfl, rfl⟩
  | cons b bs ih =>
    intro s s1 h
    simp only [processLoop] at h
    cases hp : processMeasurement env s b with
    | error f => rw [hp] at h; cases h
    | ok sa =>
      rw [hp] at h
      simp only at h
      obtain ⟨p1, _, _, p4, p5, _⟩ := processMeasurement_ok env s b sa hp
      obtain ⟨i1, i2, i3⟩ := ih sa s1 h
      exact ⟨i1.trans p1, i2.trans p4, i3.trans p5⟩

theorem getLast?_append_of_ne_nil {α : Type} (l1 l2 : List α) (h : l2 ≠ []) :
    (l1 ++ l2).getLast? = l2.getLast? := by
  rw [List.getLast?_append, List.getLast?_eq_getLast l2 h]
  rfl

/-- One step of a restart-free run keeps the fast-path invariant and does not
move `latest_time` backwards. -/
theorem step_fast_clock (env : Env) (s : State) (ev : Event) (s1 : State)
    (hK : FastClockInv s) (hnr : ev ≠ Event.restart true) (h : step env s ev = Except.ok s1) :
    FastClockInv s1 ∧ s.latest_time ≤ s1.latest_time := by
  obtain ⟨k1, k2⟩ := hK
  cases ev with
  | imu m =>
    simp only [step, Except.ok.injEq] at h
    subst h
    by_cases hm : m.stamp ≤ s.last_imu_t
    · rw [imu_callback_reject s m hm]
      exact ⟨⟨k1, k2⟩, le_refl _⟩
    · obtain ⟨f1, f2, _⟩ := imu_callback_accept_fields s m hm
      have hl : (imu_callback s m).latest_time = m.stamp := by
        rw [imu_callback_accept s m hm]
        split
        · exact predict_latest_time _ m
        · exact predict_latest_time _ m
      refine ⟨⟨by rw [hl, f2], ?_⟩, ?_⟩
      · intro back hb
        rw [f1, List.getLast?_concat] at hb
        cases hb
        exact f2.symm
      · rw [hl]
        exact le_trans k1 (le_of_lt (not_le.mp hm))
  | feature f =>
    simp only [step, Except.ok.injEq] at h
    subst h
    unfold feature_callback
    split
    · exact ⟨⟨k1, k2⟩, le_refl _⟩
    · exact ⟨⟨k1, k2⟩, le_refl _⟩
  | relocalization m =>
    simp only [step, Except.ok.injEq] at h
    subst h
    exact ⟨⟨k1, k2⟩, le_refl _⟩
  | restart data =>
    cases data with
    | true => exact absurd rfl hnr
    | false =>
      simp only [step, Except.ok.injEq] at h
      subst h
      exact ⟨⟨k1, k2⟩, le_refl _⟩
  | dispatch =>
    simp only [step] at h
    obtain ⟨bs, s0, hg⟩ := getMeasurements_total s
    obtain ⟨r, hr, hbs, g1, _, _, _, _, g6, _⟩ := getMeasurements_some s bs s0 hg
    obtain ⟨q1, _, _⟩ := getMeasurements_fast s bs s0 hg
    obtain ⟨b1, _, _⟩ := getMeasurementsLoop_batchesOK _ _ _ _ _ r hr
    obtain ⟨done, hdone⟩ := batchesOK_suffix _ _ _ _ b1
    have hback : ∀ back, s0.imu_buf.getLast? = some back → back.stamp = s.last_imu_t := by
      intro back hb
      apply k2
      rw [g1] at hb
      have hne : r.2.imu_buf ≠ [] := by
        intro hx; rw [hx] at hb; simp at hb
      rw [hdone, getLast?_append_of_ne_nil _ _ hne]
      exact hb
    unfold processIteration at h
    rw [hg] at h
    simp only at h
    by_cases hlen : bs.length ≠ 0
    · rw [if_neg (not_not.mpr hlen)] at h
      cases hp : processLoop env bs s0 with
      | error f => rw [hp] at h; cases h
      | ok sa =>
        rw [hp] at h
        simp only [Except.ok.injEq] at h
        obtain ⟨p1, p2, p3⟩ := processLoop_ok env bs s0 sa hp
        have hne : sa.imu_buf ≠ [] := by
          rw [p1, g1]
          apply batchesOK_left_nonempty _ _ _ _ b1
          rw [← hbs]
          intro hx
          rw [hx] at hlen
          simp at hlen
        by_cases hflag : sa.estimator.solver_flag = SolverFlag.NON_LINEAR
        · rw [if_pos hflag] at h
          subst h
          obtain ⟨_, u2, _, _, _, u6, _⟩ := update_frame env sa
          have hlat : (update env sa).latest_time = s.last_imu_t := by
            unfold update
            rw [updateLoop_latest_time]
            simp only
            cases hl : sa.imu_buf.getLast? with
            | none => exact absurd (List.getLast?_eq_none_iff.mp hl) hne
            | some back =>
              simp only
              apply hback
              rw [← p1]
              exact hl
          refine ⟨⟨by rw [hlat, u6, p3, g6], ?_⟩, by rw [hlat]; exact k1⟩
          intro back hb
          rw [u2, p1] at hb
          rw [u6, p3, g6]
          exact hback back hb
        · rw [if_neg hflag] at h
          subst h
          refine ⟨⟨by rw [p2, p3, q1, g6]; exact k1, ?_⟩, by rw [p2, q1]⟩
          intro back hb
          rw [p1] at hb
          rw [p3, g6]
          exact hback back hb
    · rw [if_pos hlen] at h
      simp only [Except.ok.injEq] at h
      subst h
      refine ⟨⟨by rw [q1, g6]; exact k1, ?_⟩, by rw [q1]⟩
      intro back hb
      rw [g6]
      exact hback back hb

theorem run_snoc (env : Env) (ev : Event) :
    ∀ (evs : List Event) (s : State),
      run env (evs ++ [ev]) s =
        (match run env evs s with
         | Except.error f => Except.error f
         | Except.ok sa => step env sa ev) := by
  intro evs
  induction evs with
  | nil =>
    intro s
    simp only [List.nil_append, run]
    cases step env s ev with
    | error f => rfl
    | ok sa => rfl
  | cons x evs ih =>
    intro s
    simp only [List.cons_append, run]
    cases step env s x with
    | error f => rfl
    | ok sa => exact ih sa

theorem run_fast_clock (env : Env) :
    ∀ (evs : List Event) (s s1 : State), FastClockInv s →
      (∀ ev ∈ evs, ev ≠ Event.restart true) → run env evs s = Except.ok s1 →
      FastClockInv s1 := by
  intro evs
  induction evs with
  | nil =>
    intro s s1 hK _ h
    simp only [run, Except.ok.injEq] at h
    subst h
    exact hK
  | cons ev evs ih =>
    intro s s1 hK hnr h
    simp only [run] at h
    cases hs : step env s ev with
    | error f => rw [hs] at h; cases h
    | ok sa =>
      rw [hs] at h
      simp only at h
      exact ih sa s1
        (step_fast_clock env s ev sa hK (hnr ev (List.mem_cons_self _ _)) hs).1
        (fun x hx => hnr x (List.mem_cons_of_mem _ hx)) h

/-- C11: in every run from the initial state without restart and with fixed
`td`, made of callbacks and full dispatcher iterations (`getMeasurements`, the
processing of the batches, then `update()` when the back-end is `NON_LINEAR`)
as atomic steps, the fast-path clock `latest_time` after each step is at least
its value before the step; and every step returns when the messages are
readable. -/
theorem C11_latest_time_monotone (env : Env) (hk : env.KeepsTd) (e : Estimator)
    (evs : List Event) (ev : Event) (hnr : ∀ x ∈ evs ++ [ev], x ≠ Event.restart true) :
    (∀ s s1, run env evs (State.initial e) = Except.ok s → step env s ev = Except.ok s1 →
      s.latest_time ≤ s1.latest_time) ∧
    ((∀ x ∈ evs ++ [ev], x.WellFormed) →
      ∃ s s1, run env evs (State.initial e) = Except.ok s ∧ step env s ev = Except.ok s1) := by
  have hnr1 : ∀ x ∈ evs, x ≠ Event.restart true :=
    fun x hx => hnr x (List.mem_append_left _ hx)
  have hnr2 : ev ≠ Event.restart true := hnr ev (by simp)
  have hK0 : FastClockInv (State.initial e) := by
    refine ⟨le_refl _, ?_⟩
    intro back hb
    simp [State.initial] at hb
  constructor
  · intro s s1 hs h1
    exact (step_fast_clock env s ev s1 (run_fast_clock env evs _ s hK0 hnr1 hs) hnr2 h1).2
  · intro hwf
    obtain ⟨hI, hW⟩ := inv_initial e
    rcases run_outcome env hk (evs ++ [ev]) (State.initial e) hI hnr with
      ⟨s1, e1, _⟩ | ⟨_, hbad⟩
    · rw [run_snoc] at e1
      cases hr : run env evs (State.initial e) with
      | error f => rw [hr] at e1; cases e1
      | ok s =>
        rw [hr] at e1
        exact ⟨s, s1, rfl, e1⟩
    · exact absurd ⟨hW, hwf⟩ hbad
/-- Witness of C11: back-end in `NON_LINEAR`; the first feature (skipped), IMU
samples at 0.01 ... 0.05, a feature at 0.035, then one dispatcher iteration with
`update()`: `latest_time` is 0.05 before and after the iteration. -/
theorem C11_latest_time_monotone_witness :
    idleEnv.KeepsTd ∧
    (∀ x ∈ [Event.feature (featureAt 0), Event.imu (imuAt (1 / 100)),
        Event.imu (imuAt (2 / 100)), Event.imu (imuAt (3 / 100)), Event.imu (imuAt (4 / 100)),
        Event.imu (imuAt (5 / 100)), Event.feature (featureAt (35 / 1000))] ++ [Event.dispatch],
      x ≠ Event.restart true) ∧
    (∀ s s1, run idleEnv [Event.feature (featureAt 0), Event.imu (imuAt (1 / 100)),
        Event.imu (imuAt (2 / 100)), Event.imu (imuAt (3 / 100)), Event.imu (imuAt (4 / 100)),
        Event.imu (imuAt (5 / 100)), Event.feature (featureAt (35 / 1000))]
        (State.initial (estimatorWith 0 SolverFlag.NON_LINEAR)) = Except.ok s →
      step idleEnv s Event.dispatch = Except.ok s1 → s.latest_time ≤ s1.latest_time) ∧
    latestOf (run idleEnv [Event.feature (featureAt 0), Event.imu (imuAt (1 / 100)),
        Event.imu (imuAt (2 / 100)), Event.imu (imuAt (3 / 100)), Event.imu (imuAt (4 / 100)),
        Event.imu (imuAt (5 / 100)), Event.feature (featureAt (35 / 1000))]
        (State.initial (estimatorWith 0 SolverFlag.NON_LINEAR))) = some (5 / 100) ∧
    latestOf (run idleEnv [Event.feature (featureAt 0), Event.imu (imuAt (1 / 100)),
        Event.imu (imuAt (2 / 100)), Event.imu (imuAt (3 / 100)), Event.imu (imuAt (4 / 100)),
        Event.imu (imuAt (5 / 100)), Event.feature (featureAt (35 / 1000)), Event.dispatch]
        (State.initial (estimatorWith 0 SolverFlag.NON_LINEAR))) = some (5 / 100) := by
  have hk : idleEnv.KeepsTd := ⟨fun _ _ _ _ => rfl, fun _ _ _ => rfl, fun _ _ _ _ _ _ => rfl⟩
  refine ⟨hk, by simp,
    (C11_latest_time_monotone idleEnv hk (estimatorWith 0 SolverFlag.NON_LINEAR) _
      Event.dispatch (by simp)).1, ?_, ?_⟩
  · norm_num [latestOf, run, step, imu_callback, feature_callback, predict, State.initial,
      estimatorWith, imuAt, featureAt]
  · norm_num [latestOf, run, step, processIteration, getMeasurements, getMeasurementsBufs,
      getMeasurementsLoop, collectIMUs, processLoop, processMeasurement, imuLoop, processImuMsg,
      setRelo, drainRelo, buildImage, update, updateLoop, imu_callback, feature_callback,
      predict, State.setClock, Estimator.doProcessIMU, Estimator.doProcessImage,
      idleEnv, imuAt, featureAt, State.initial, estimatorWith]
/-- The queue invariant along a sequence of queue operations: `imu_buf` strictly
increasing and bounded by `last_imu_t`; `feature_buf` and `relo_buf` made of
delivered messages in their arrival order. -/
theorem applyOps_queues (env : Env) :
    ∀ (ops : List QueueOp) (s : State) (df dr : List PointCloud),
      s.imu_buf.Pairwise (fun a b => a.stamp < b.stamp) →
      (∀ m ∈ s.imu_buf, m.stamp ≤ s.last_imu_t) →
      s.feature_buf.Sublist df → s.relo_buf.Sublist dr →
      ∃ s1, applyOps env ops s = some s1 ∧
        s1.imu_buf.Pairwise (fun a b => a.stamp < b.stamp) ∧
        (∀ m ∈ s1.imu_buf, m.stamp ≤ s1.last_imu_t) ∧
        s1.feature_buf.Sublist (df ++ ops.filterMap QueueOp.feature?) ∧
        s1.relo_buf.Sublist (dr ++ ops.filterMap QueueOp.relocalization?) := by
  intro ops
  induction ops with
  | nil =>
    intro s df dr h1 h2 h3 h4
    exact ⟨s, rfl, h1, h2, by simpa using h3, by simpa using h4⟩
  | cons op ops ih =>
    intro s df dr h1 h2 h3 h4
    cases op with
    | imu m =>
      have key : (imu_callback s m).imu_buf.Pairwise (fun a b => a.stamp < b.stamp) ∧
          (∀ x ∈ (imu_callback s m).imu_buf, x.stamp ≤ (imu_callback s m).last_imu_t) ∧
          (imu_callback s m).feature_buf = s.feature_buf ∧
          (imu_callback s m).relo_buf = s.relo_buf := by
        by_cases hm : m.stamp ≤ s.last_imu_t
        · rw [imu_callback_reject s m hm]
          exact ⟨h1, h2, rfl, rfl⟩
        · obtain ⟨f1, f2, _, _, _, f6, f7⟩ := imu_callback_accept_fields s m hm
          have hlt : s.last_imu_t < m.stamp := not_le.mp hm
          rw [f1, f2]
          refine ⟨?_, ?_, f6, f7⟩
          · rw [List.pairwise_append]
            refine ⟨h1, List.pairwise_singleton _ _, ?_⟩
            intro a ha b hb
            simp at hb
            subst hb
            exact lt_of_le_of_lt (h2 a ha) hlt
          · intro x hx
            rcases List.mem_append.mp hx with hx | hx
            · exact le_of_lt (lt_of_le_of_lt (h2 x hx) hlt)
            · simp at hx
              subst hx
              exact le_refl _
      obtain ⟨k1, k2, k3, k4⟩ := key
      obtain ⟨s1, e1, r1, r2, r3, r4⟩ := ih (imu_callback s m) df dr k1 k2
        (by rw [k3]; exact h3) (by rw [k4]; exact h4)
      exact ⟨s1, by simp [applyOps, applyOp, e1], r1, r2, by simpa [QueueOp.feature?] using r3,
        by simpa [QueueOp.relocalization?] using r4⟩
    | feature f =>
      have key : (feature_callback s f).feature_buf.Sublist (df ++ [f]) ∧
          (feature_callback s f).imu_buf = s.imu_buf ∧
          (feature_callback s f).last_imu_t = s.last_imu_t ∧
          (feature_callback s f).relo_buf = s.relo_buf := by
        unfold feature_callback
        split
        · exact ⟨h3.trans (List.sublist_append_left _ _), rfl, rfl, rfl⟩
        · exact ⟨List.Sublist.append h3 (List.Sublist.refl _), rfl, rfl, rfl⟩
      obtain ⟨k1, k2, k3, k4⟩ := key
      obtain ⟨s1, e1, r1, r2, r3, r4⟩ := ih (feature_callback s f) (df ++ [f]) dr
        (by rw [k2]; exact h1) (by rw [k2, k3]; exact h2) k1 (by rw [k4]; exact h4)
      exact ⟨s1, by simp [applyOps, applyOp, e1], r1, r2,
        by simpa [QueueOp.feature?] using r3, by simpa [QueueOp.relocalization?] using r4⟩
    | relocalization m =>
      obtain ⟨s1, e1, r1, r2, r3, r4⟩ := ih (relocalization_callback s m) df (dr ++ [m])
        h1 h2 h3 (List.Sublist.append h4 (List.Sublist.refl _))
      exact ⟨s1, by simp [applyOps, applyOp, e1], r1, r2,
        by simpa [QueueOp.feature?] using r3, by simpa [QueueOp.relocalization?] using r4⟩
    | restart data =>
      have key : (restart_callback env s data).imu_buf.Pairwise
            (fun a b => a.stamp < b.stamp) ∧
          (∀ x ∈ (restart_callback env s data).imu_buf,
            x.stamp ≤ (restart_callback env s data).last_imu_t) ∧
          (restart_callback env s data).feature_buf.Sublist df ∧
          (restart_callback env s data).relo_buf = s.relo_buf := by
        cases data with
        | false => exact ⟨h1, h2, h3, rfl⟩
        | true =>
          simp [restart_callback, popAll_eq_nil, State.setClock]
      obtain ⟨k1, k2, k3, k4⟩ := key
      obtain ⟨s1, e1, r1, r2, r3, r4⟩ := ih (restart_callback env s data) df dr k1 k2 k3
        (by rw [k4]; exact h4)
      exact ⟨s1, by simp [applyOps, applyOp, e1], r1, r2,
        by simpa [QueueOp.feature?] using r3, by simpa [QueueOp.relocalization?] using r4⟩
    | getMeasurements =>
      obtain ⟨bs, s0, hg⟩ := getMeasurements_total s
      obtain ⟨r, hr, _, g1, g2, _, _, _, g6, g7⟩ := getMeasurements_some s bs s0 hg
      obtain ⟨⟨marks, m1, _, _⟩, p2⟩ := getMeasurementsLoop_partition _ _ _ _ _ r hr
      have hsubI : s0.imu_buf.Sublist s.imu_buf := by
        rw [g1, ← p2]; exact List.sublist_append_right _ _
      have hsubF : s0.feature_buf.Sublist s.feature_buf := by
        rw [g2, m1]; exact List.sublist_append_right _ _
      obtain ⟨s1, e1, r1, r2, r3, r4⟩ := ih s0 df dr (h1.sublist hsubI)
        (by intro x hx; rw [g6]; exact h2 x (hsubI.subset hx)) (hsubF.trans h3)
        (by rw [g7]; exact h4)
      exact ⟨s1, by simp [applyOps, applyOp, hg, e1], r1, r2,
        by simpa [QueueOp.feature?] using r3, by simpa [QueueOp.relocalization?] using r4⟩

/-- C14, amended: in every state reached from the initial state by
`imu_callback`, `feature_callback`, `relocalization_callback`,
`restart_callback` and `getMeasurements` with arbitrary message time stamps,
`imu_buf` is strictly increasing in time stamp from front to back; `feature_buf`
and `relo_buf` hold delivered messages in arrival order, so each of them is
non-decreasing in time stamp when the feature (relocalization) messages were
delivered with non-decreasing time stamps. -/
theorem C14_queue_order (env : Env) (e : Estimator) (ops : List QueueOp) :
    ∃ s, applyOps env ops (State.initial e) = some s ∧
      s.imu_buf.Pairwise (fun a b => a.stamp < b.stamp) ∧
      s.imu_buf.Pairwise (fun a b => a.stamp ≤ b.stamp) ∧
      s.feature_buf.Sublist (ops.filterMap QueueOp.feature?) ∧
      s.relo_buf.Sublist (ops.filterMap QueueOp.relocalization?) ∧
      ((ops.filterMap QueueOp.feature?).Pairwise (fun a b => a.stamp ≤ b.stamp) →
        s.feature_buf.Pairwise (fun a b => a.stamp ≤ b.stamp)) ∧
      ((ops.filterMap QueueOp.relocalization?).Pairwise (fun a b => a.stamp ≤ b.stamp) →
        s.relo_buf.Pairwise (fun a b => a.stamp ≤ b.stamp)) := by
  obtain ⟨s, h, r1, _, r3, r4⟩ := applyOps_queues env ops (State.initial e) [] []
    List.Pairwise.nil (by intro m hm; simp [State.initial] at hm)
    (by simp [State.initial]) (by simp [State.initial])
  simp only [List.nil_append] at r3 r4
  exact ⟨s, h, r1, r1.imp (fun hab => le_of_lt hab), r3, r4, fun hs => hs.sublist r3,
    fun hs => hs.sublist r4⟩

/-- Witness of C14: the skipped first feature, features at 1 and 2,
relocalization messages at 1 and 3, IMU samples at 1, 2 (and a rejected one at
1.5): all three queues end in time-stamp order. -/
theorem C14_queue_order_witness :
    ([QueueOp.feature (featureAt 0), QueueOp.feature (featureAt 1), QueueOp.imu (imuAt 1),
        QueueOp.relocalization (reloAt 1 0), QueueOp.imu (imuAt 2), QueueOp.imu (imuAt (3 / 2)),
        QueueOp.feature (featureAt 2), QueueOp.relocalization (reloAt 3 0)].filterMap
        QueueOp.feature?).Pairwise (fun a b => a.stamp ≤ b.stamp) ∧
    ([QueueOp.feature (featureAt 0), QueueOp.feature (featureAt 1), QueueOp.imu (imuAt 1),
        QueueOp.relocalization (reloAt 1 0), QueueOp.imu (imuAt 2), QueueOp.imu (imuAt (3 / 2)),
        QueueOp.feature (featureAt 2), QueueOp.relocalization (reloAt 3 0)].filterMap
        QueueOp.relocalization?).Pairwise (fun a b => a.stamp ≤ b.stamp) ∧
    (∃ s, applyOps idleEnv
        [QueueOp.feature (featureAt 0), QueueOp.feature (featureAt 1), QueueOp.imu (imuAt 1),
          QueueOp.relocalization (reloAt 1 0), QueueOp.imu (imuAt 2),
          QueueOp.imu (imuAt (3 / 2)), QueueOp.feature (featureAt 2),
          QueueOp.relocalization (reloAt 3 0)]
        (State.initial (estimatorWith 0 SolverFlag.INITIAL)) = some s ∧
      s.imu_buf.Pairwise (fun a b => a.stamp ≤ b.stamp) ∧
      s.feature_buf.Pairwise (fun a b => a.stamp ≤ b.stamp) ∧
      s.relo_buf.Pairwise (fun a b => a.stamp ≤ b.stamp)) ∧
    queueStamps (applyOps idleEnv
        [QueueOp.feature (featureAt 0), QueueOp.feature (featureAt 1), QueueOp.imu (imuAt 1),
          QueueOp.relocalization (reloAt 1 0), QueueOp.imu (imuAt 2),
          QueueOp.imu (imuAt (3 / 2)), QueueOp.feature (featureAt 2),
          QueueOp.relocalization (reloAt 3 0)]
        (State.initial (estimatorWith 0 SolverFlag.INITIAL))) =
      some ([1, 2], [1, 2], [1, 3]) := by
  have hflag : (SolverFlag.INITIAL = SolverFlag.NON_LINEAR) = False := eq_false (by decide)
  have hf : ([QueueOp.feature (featureAt 0), QueueOp.feature (featureAt 1),
      QueueOp.imu (imuAt 1), QueueOp.relocalization (reloAt 1 0), QueueOp.imu (imuAt 2),
      QueueOp.imu (imuAt (3 / 2)), QueueOp.feature (featureAt 2),
      QueueOp.relocalization (reloAt 3 0)].filterMap QueueOp.feature?).Pairwise
      (fun a b => a.stamp ≤ b.stamp) := by
    norm_num [List.filterMap_cons, QueueOp.feature?, featureAt]
  have hr : ([QueueOp.feature (featureAt 0), QueueOp.feature (featureAt 1),
      QueueOp.imu (imuAt 1), QueueOp.relocalization (reloAt 1 0), QueueOp.imu (imuAt 2),
      QueueOp.imu (imuAt (3 / 2)), QueueOp.feature (featureAt 2),
      QueueOp.relocalization (reloAt 3 0)].filterMap QueueOp.relocalization?).Pairwise
      (fun a b => a.stamp ≤ b.stamp) := by
    norm_num [List.filterMap_cons, QueueOp.relocalization?, reloAt]
  refine ⟨hf, hr, ?_, ?_⟩
  · obtain ⟨s, h, _, q2, _, _, q5, q6⟩ :=
      C14_queue_order idleEnv (estimatorWith 0 SolverFlag.INITIAL)
        [QueueOp.feature (featureAt 0), QueueOp.feature (featureAt 1), QueueOp.imu (imuAt 1),
          QueueOp.relocalization (reloAt 1 0), QueueOp.imu (imuAt 2),
          QueueOp.imu (imuAt (3 / 2)), QueueOp.feature (featureAt 2),
          QueueOp.relocalization (reloAt 3 0)]
    exact ⟨s, h, q2, q5 hf, q6 hr⟩
  · norm_num [hflag, queueStamps, applyOps, applyOp, imu_callback, feature_callback,
      relocalization_callback, predict, State.initial, estimatorWith, imuAt, featureAt, reloAt]

/-- Counterexample to C14 as stated: the skipped first feature, then features
delivered at times 2 and 1, and relocalization messages delivered at times 2
and 1, leave `feature_buf` and `relo_buf` with the time stamps 2, 1 from front
to back, which is not non-decreasing. -/
theorem C14_counterexample :
    queueStamps (applyOps idleEnv
        [QueueOp.feature (featureAt 0), QueueOp.feature (featureAt 2),
          QueueOp.feature (featureAt 1), QueueOp.relocalization (reloAt 2 0),
          QueueOp.relocalization (reloAt 1 0)]
        (State.initial (estimatorWith 0 SolverFlag.INITIAL))) = some ([], [2, 1], [2, 1]) ∧
      ¬ ([2, 1] : List ℚ).Pairwise (fun a b => a ≤ b) := by
  constructor
  · norm_num [queueStamps, applyOps, applyOp, feature_callback, relocalization_callback,
      State.initial, estimatorWith, featureAt, reloAt]
  · norm_num
/-- A thread that holds `m_buf` and performs only queue accesses has no
unguarded access. -/
theorem unguarded_accesses (held : List Mutex) (h : Mutex.m_buf ∈ held) :
    ∀ acts : List Act, (∀ a ∈ acts, ∃ q, a = Act.access q) → unguarded held acts = [] := by
  intro acts
  induction acts with
  | nil => intro _; rfl
  | cons a acts ih =>
    intro hall
    obtain ⟨q, rfl⟩ := hall a (List.mem_cons_self _ _)
    simp only [unguarded, if_pos h]
    exact ih (fun b hb => hall b (List.mem_cons_of_mem _ hb))

/-- Accesses performed with `m_buf` held leave the rest of the trace to decide. -/
theorem unguarded_append_accesses (held : List Mutex) (h : Mutex.m_buf ∈ held) :
    ∀ acts rest : List Act, (∀ a ∈ acts, ∃ q, a = Act.access q) →
      unguarded held (acts ++ rest) = unguarded held rest := by
  intro acts
  induction acts with
  | nil => intro rest _; rfl
  | cons a acts ih =>
    intro rest hall
    obtain ⟨q, rfl⟩ := hall a (List.mem_cons_self _ _)
    simp only [List.cons_append, unguarded, if_pos h]
    exact ih rest (fun b hb => hall b (List.mem_cons_of_mem _ hb))

/-- Accesses to `relo_buf` performed without `m_buf` are all unguarded. -/
theorem unguarded_append_relo (held : List Mutex) (h : Mutex.m_buf ∉ held) :
    ∀ acts rest : List Act, (∀ a ∈ acts, a = Act.access Queue.relo_buf) →
      unguarded held (acts ++ rest) =
        List.replicate acts.length Queue.relo_buf ++ unguarded held rest := by
  intro acts
  induction acts with
  | nil => intro rest _; rfl
  | cons a acts ih =>
    intro rest hall
    have ha := hall a (List.mem_cons_self _ _)
    subst ha
    have key := ih rest (fun b hb => hall b (List.mem_cons_of_mem _ hb))
    simp only [List.cons_append, unguarded, if_neg h, List.length_cons, List.replicate_succ]
    exact congrArg (fun l => Queue.relo_buf :: l) key

theorem unguarded_lock (held : List Mutex) (m : Mutex) (rest : List Act) :
    unguarded held (Act.lock m :: rest) = unguarded (m :: held) rest := rfl

theorem unguarded_unlock (held : List Mutex) (m : Mutex) (rest : List Act) :
    unguarded held (Act.unlock m :: rest) = unguarded (held.erase m) rest := rfl

theorem collectIMUsActs_accesses (tf : ℚ) :
    ∀ imu_buf : List ImuMsg, ∀ a ∈ collectIMUsActs tf imu_buf, ∃ q, a = Act.access q := by
  intro imu_buf
  induction imu_buf with
  | nil => simp [collectIMUsActs]
  | cons m rest ih =>
    unfold collectIMUsActs
    split
    · simp only [List.forall_mem_append, List.forall_mem_cons]
      exact ⟨⟨⟨_, rfl⟩, ⟨_, rfl⟩, ⟨_, rfl⟩, by simp⟩, ih⟩
    · simp

theorem getMeasurementsActs_accesses (td : ℚ) :
    ∀ (feature_buf : List PointCloud) (imu_buf : List ImuMsg),
      ∀ a ∈ getMeasurementsActs td feature_buf imu_buf, ∃ q, a = Act.access q := by
  intro feature_buf
  induction feature_buf with
  | nil =>
    intro imu_buf
    cases imu_buf with
    | nil => simp [getMeasurementsActs]
    | cons front rest => simp [getMeasurementsActs]
  | cons img feature_buf ih =>
    intro imu_buf
    cases imu_buf with
    | nil => simp [getMeasurementsActs]
    | cons front rest =>
      unfold getMeasurementsActs
      simp only [List.forall_mem_append, List.forall_mem_cons]
      refine ⟨⟨⟨_, rfl⟩, ⟨_, rfl⟩, ⟨_, rfl⟩, ⟨_, rfl⟩, by simp⟩, ?_⟩
      split
      · simp
      · simp only [List.forall_mem_append, List.forall_mem_cons]
        refine ⟨⟨⟨_, rfl⟩, ⟨_, rfl⟩, by simp⟩, ?_⟩
        split
        · simp only [List.forall_mem_append, List.forall_mem_cons]
          exact ⟨⟨⟨_, rfl⟩, by simp⟩, ih _⟩
        · simp only [List.forall_mem_append, List.forall_mem_cons]
          refine ⟨⟨⟨⟨_, rfl⟩, ⟨_, rfl⟩, by simp⟩, collectIMUsActs_accesses _ _⟩, ?_⟩
          split
          · simp
          · exact ih _

theorem popAllActs_accesses (q : Queue) :
    ∀ n : Nat, ∀ a ∈ popAllActs q n, ∃ q1, a = Act.access q1 := by
  intro n
  induction n with
  | zero => simp [popAllActs]
  | succ n ih =>
    unfold popAllActs
    simp only [List.forall_mem_append, List.forall_mem_cons]
    exact ⟨⟨⟨_, rfl⟩, ⟨_, rfl⟩, by simp⟩, ih⟩

theorem drainReloActs_relo : ∀ n : Nat, ∀ a ∈ drainReloActs n, a = Act.access Queue.relo_buf := by
  intro n
  induction n with
  | zero => intro a ha; simpa [drainReloActs] using ha
  | succ n ih =>
    intro a ha
    unfold drainReloActs at ha
    rcases List.mem_append.mp ha with h | h
    · simp at h; exact h
    · exact ih a h

theorem drainReloActs_length : ∀ n : Nat, (drainReloActs n).length = 3 * n + 1 := by
  intro n
  induction n with
  | zero => rfl
  | succ n ih => simp [drainReloActs, ih]; ring

theorem processLoopActs_relo (env : Env) :
    ∀ (measurements : List Batch) (s : State),
      ∀ a ∈ processLoopActs env measurements s, a = Act.access Queue.relo_buf := by
  intro measurements
  induction measurements with
  | nil => intro s a ha; simp [processLoopActs] at ha
  | cons b rest ih =>
    intro s a ha
    unfold processLoopActs at ha
    rcases List.mem_append.mp ha with h | h
    · unfold processMeasurementActs at h
      split at h
      · simp at h
      · exact drainReloActs_relo _ a h
    · split at h
      · simp at h
      · exact ih _ a h

/-- C17: the lock discipline of the queue accesses. The four callbacks access
the queues only with `m_buf` held, and so do `getMeasurements` (inside the wait
predicate) and `update` in the dispatcher; but every access the dispatcher
performs without `m_buf` is an access to `relo_buf`, and there is at least one
of them for every batch whose IMU loop completes. With one pending batch and an
empty `relo_buf` the test `relo_buf.empty()` of line 347 runs with `m_estimator`
only; with two relocalization messages queued, the seven calls of `empty()`,
`front()` and `pop()` of lines 347-351 do. -/
theorem C17_relo_buf_drained_without_m_buf (env : Env) (s : State) :
    (∀ imu_msg, unguarded [] (imu_callbackActs s imu_msg) = []) ∧
    unguarded [] (feature_callbackActs s) = [] ∧
    (∀ data, unguarded [] (restart_callbackActs s data) = []) ∧
    unguarded [] relocalization_callbackActs = [] ∧
    unguarded [Mutex.m_buf]
      (getMeasurementsActs s.estimator.td s.feature_buf s.imu_buf) = [] ∧
    unguarded [Mutex.m_state, Mutex.m_buf] updateActs = [] ∧
    (∃ n, unguarded [] (processIterationActs env s) = List.replicate n Queue.relo_buf) ∧
    unguarded [] (processIterationActs idleEnv stateOneBatch) = [Queue.relo_buf] ∧
    unguarded [] (processIterationActs idleEnv stateReloBatch) =
      List.replicate 7 Queue.relo_buf := by
  have hb : Mutex.m_buf ∈ [Mutex.m_buf] := List.mem_singleton.mpr rfl
  have he : Mutex.m_buf ∉ [Mutex.m_estimator] := by decide
  refine ⟨?_, ?_, ?_, rfl, ?_, rfl, ?_, ?_, ?_⟩
  · intro m
    unfold imu_callbackActs
    split <;> rfl
  · unfold feature_callbackActs
    split <;> rfl
  · intro data
    cases data with
    | false => rfl
    | true =>
      simp only [restart_callbackActs, if_true, List.singleton_append, List.cons_append, List.nil_append, List.append_assoc]
      rw [unguarded_lock, unguarded_append_accesses _ hb _ _ (popAllActs_accesses _ _),
        unguarded_append_accesses _ hb _ _ (popAllActs_accesses _ _)]
      rfl
  · exact unguarded_accesses _ hb _ (getMeasurementsActs_accesses _ _ _)
  · unfold processIterationActs
    simp only [List.singleton_append, List.cons_append, List.nil_append, List.append_assoc]
    rw [unguarded_lock, unguarded_append_accesses _ hb _ _ (getMeasurementsActs_accesses _ _ _)]
    cases hg : getMeasurements s with
    | none => exact ⟨0, rfl⟩
    | some r =>
      obtain ⟨measurements, s1⟩ := r
      simp only []
      by_cases hlen : measurements.length ≠ 0
      · rw [if_neg (not_not.mpr hlen)]
        have h0 : ([Mutex.m_buf].erase Mutex.m_buf) = [] := by decide
        rw [unguarded_unlock, unguarded_lock, h0, unguarded_append_relo _ he _ _ (processLoopActs_relo env measurements s1)]
        refine ⟨(processLoopActs env measurements s1).length, ?_⟩
        cases processLoop env measurements s1 with
        | error f => simp [unguarded]
        | ok s2 =>
          have h1 : ([Mutex.m_estimator].erase Mutex.m_estimator) = [] := by decide
          rw [unguarded_unlock, unguarded_lock, unguarded_lock, h1]
          by_cases hf : s2.estimator.solver_flag = SolverFlag.NON_LINEAR
          · simp [hf, updateActs, unguarded]
          · simp [hf, unguarded]
      · rw [if_pos hlen]
        exact ⟨0, rfl⟩
  · have hflag : (SolverFlag.INITIAL = SolverFlag.NON_LINEAR) = False := eq_false (by decide)
    have hne : (Mutex.m_buf = Mutex.m_estimator) = False := eq_false (by decide)
    norm_num [hflag, hne, unguarded, processIterationActs, getMeasurementsActs, collectIMUsActs,
      collectIMUs, getMeasurements, getMeasurementsBufs, getMeasurementsLoop, processLoopActs,
      processMeasurementActs, processLoop, processMeasurement, imuLoop, processImuMsg, setRelo,
      drainRelo, drainReloActs, buildImage, updateActs, stateOneBatch, stateWith, State.initial,
      State.setClock, estimatorWith, idleEnv, imuAt, featureAt, Estimator.doProcessIMU,
      Estimator.doProcessImage, vec3_add, vec3_smul, vec3_muls, List.getLast]
  · have hflag : (SolverFlag.INITIAL = SolverFlag.NON_LINEAR) = False := eq_false (by decide)
    have hne : (Mutex.m_buf = Mutex.m_estimator) = False := eq_false (by decide)
    have hfloor : toInt 9 = 9 := by
      unfold toInt
      norm_num
    norm_num [hflag, hne, hfloor, unguarded, processIterationActs, getMeasurementsActs,
      collectIMUsActs, collectIMUs, getMeasurements, getMeasurementsBufs, getMeasurementsLoop,
      processLoopActs, processMeasurementActs, processLoop, processMeasurement, imuLoop,
      processImuMsg, setRelo, drainRelo, drainReloActs, buildImage, updateActs, stateReloBatch,
      stateOneBatch, stateWith, State.initial, State.setClock, estimatorWith, idleEnv, imuAt,
      featureAt, reloAt, PointCloud.chan, Estimator.doProcessIMU, Estimator.doProcessImage,
      Estimator.doSetReloFrame, vec3_add, vec3_smul, vec3_muls, List.getLast, List.replicate]

/-- Witness of C16: with IMU samples at 0.01 and 0.03 and a frame at 0.02 queued,
`getMeasurements` emits one batch, holding the two samples, and no warning. -/
theorem C16_batches_have_two_samples_witness :
    (∃ bs s1, getMeasurements stateOneBatch = some (bs, s1) ∧
      (∀ b ∈ bs, 2 ≤ b.1.length ∧
        ∃ first, b.1.head? = some first ∧
          first.stamp < b.2.stamp + stateOneBatch.estimator.td) ∧
      s1.warns.count Warn.no_imu_between =
        stateOneBatch.warns.count Warn.no_imu_between) ∧
    (getMeasurements stateOneBatch).map (fun r => (r.1, r.2.warns)) =
      some ([([imuAt (1 / 100), imuAt (3 / 100)], featureAt (2 / 100))], []) := by
  refine ⟨C16_batches_have_two_samples stateOneBatch, ?_⟩
  norm_num [getMeasurements, getMeasurementsBufs, getMeasurementsLoop, collectIMUs,
    stateOneBatch, stateWith, State.initial, estimatorWith, imuAt, featureAt, List.getLast]

/-- Witness of C19: with IMU samples at 0.02, 0.03, 0.05 and frames at 0.01 and
0.04 queued, the frame at 0.01 is dropped with one warning, the frame at 0.04
is returned with all three samples, and the straddle sample at 0.05 stays in
`imu_buf`. -/
theorem C19_getMeasurements_frame_witness :
    (∃ bs s1, getMeasurements (stateWith [imuAt (2 / 100), imuAt (3 / 100), imuAt (5 / 100)]
        [featureAt (1 / 100), featureAt (4 / 100)]) = some (bs, s1) ∧
      (∃ marks : List (PointCloud × Bool),
        (stateWith [imuAt (2 / 100), imuAt (3 / 100), imuAt (5 / 100)]
          [featureAt (1 / 100), featureAt (4 / 100)]).feature_buf =
          marks.map Prod.fst ++ s1.feature_buf ∧
        (marks.filter (fun x => x.2)).map Prod.fst = bs.map Prod.snd ∧
        s1.warns =
          (stateWith [imuAt (2 / 100), imuAt (3 / 100), imuAt (5 / 100)]
            [featureAt (1 / 100), featureAt (4 / 100)]).warns ++
            List.replicate (marks.filter (fun x => !x.2)).length Warn.throw_img) ∧
      (bs.map (fun b => b.1.dropLast)).flatten ++ s1.imu_buf =
        (stateWith [imuAt (2 / 100), imuAt (3 / 100), imuAt (5 / 100)]
          [featureAt (1 / 100), featureAt (4 / 100)]).imu_buf) ∧
    (getMeasurements (stateWith [imuAt (2 / 100), imuAt (3 / 100), imuAt (5 / 100)]
        [featureAt (1 / 100), featureAt (4 / 100)])).map
        (fun r => (r.1, r.2.imu_buf, r.2.feature_buf, r.2.warns)) =
      some ([([imuAt (2 / 100), imuAt (3 / 100), imuAt (5 / 100)], featureAt (4 / 100))],
        [imuAt (5 / 100)], [], [Warn.throw_img]) := by
  refine ⟨C19_getMeasurements_frame _, ?_⟩
  norm_num [getMeasurements, getMeasurementsBufs, getMeasurementsLoop, collectIMUs,
    stateWith, State.initial, estimatorWith, imuAt, featureAt, List.getLast]
/-- With the identity for rounding, the rounded loop body is the exact one. -/
theorem processImuMsgRounded_id (env : Env) (img_msg : PointCloud) (s : State) (d r : Vec3)
    (imu_msg : ImuMsg) :
    processImuMsgRounded id env img_msg s d r imu_msg = processImuMsg env img_msg s d r imu_msg :=
  rfl

/-- With the identity for rounding, the rounded IMU loop is the exact one. -/
theorem imuLoopRounded_id (env : Env) (img_msg : PointCloud) :
    ∀ (IMUs : List ImuMsg) (s : State) (d r : Vec3),
      imuLoopRounded id env img_msg IMUs s d r = imuLoop env img_msg IMUs s d r := by
  intro IMUs
  induction IMUs with
  | nil => intro s d r; rfl
  | cons m rest ih =>
    intro s d r
    simp only [imuLoopRounded, imuLoop, processImuMsgRounded_id]
    cases processImuMsg env img_msg s d r m with
    | error f => rfl
    | ok v => exact ih _ _ _

theorem queueClockInv_initial (e : Estimator) : QueueClockInv (State.initial e) := by
  refine ⟨List.Pairwise.nil, ?_, le_refl _, Or.inl rfl⟩
  intro m hm
  simp [State.initial] at hm

theorem queueClockInv_imu_callback (s : State) (m : ImuMsg) (hI : QueueClockInv s) :
    QueueClockInv (imu_callback s m) := by
  by_cases h : m.stamp ≤ s.last_imu_t
  · rw [imu_callback_reject s m h]
    exact hI
  · obtain ⟨f1, f2, _, f4, _, _, _⟩ := imu_callback_accept_fields s m h
    obtain ⟨i1, i2, i3, i4⟩ := hI
    have hlt : s.last_imu_t < m.stamp := not_le.mp h
    unfold QueueClockInv
    rw [f1, f2, f4]
    refine ⟨?_, ?_, le_of_lt (lt_of_le_of_lt i3 hlt), ?_⟩
    · rw [List.pairwise_append]
      refine ⟨i1, List.pairwise_singleton _ _, ?_⟩
      intro a ha b hb
      simp at hb
      subst hb
      exact le_of_lt (lt_of_le_of_lt (i2 a ha).2 hlt)
    · intro x hx
      rcases List.mem_append.mp hx with hx | hx
      · exact ⟨(i2 x hx).1, le_of_lt (lt_of_le_of_lt (i2 x hx).2 hlt)⟩
      · simp at hx
        subst hx
        exact ⟨le_of_lt (lt_of_le_of_lt i3 hlt), le_refl _⟩
    · rcases i4 with i4 | i4
      · exact Or.inl i4
      · right
        refine ⟨i4.1, le_of_lt (lt_of_le_of_lt i4.2.1 hlt), ?_⟩
        intro x hx
        rcases List.mem_append.mp hx with hx | hx
        · exact i4.2.2 x hx
        · simp at hx
          subst hx
          exact le_of_lt (lt_of_le_of_lt i4.2.1 hlt)

/-- A list of batches formed from an IMU queue splits at any batch: the batches
before it leave the queue from which the rest is formed. -/
theorem batchesOK_split (td : ℚ) :
    ∀ (before : List Batch) (rest : List Batch) (imu imu1 : List ImuMsg),
      BatchesOK td imu (before ++ rest) imu1 →
      ∃ mid, BatchesOK td imu before mid ∧ BatchesOK td mid rest imu1 := by
  intro before
  induction before with
  | nil =>
    intro rest imu imu1 h
    exact ⟨imu, rfl, h⟩
  | cons b before ih =>
    intro rest imu imu1 h
    obtain ⟨IMUs, img⟩ := b
    obtain ⟨first, pre, last, post, h1, h2, h3, h4, h5⟩ := h
    obtain ⟨mid, m1, m2⟩ := ih rest _ _ h5
    exact ⟨mid, ⟨first, pre, last, post, h1, h2, h3, h4, m1⟩, m2⟩

/-- The queue and clock invariant before and after the batches of one
dispatcher iteration, and what the state before any one of its batches
satisfies. -/
theorem processLoop_before_batch (env : Env) (hk : env.KeepsTd) (s : State)
    (hI : QueueClockInv s) (bs : List Batch) (s0 : State)
    (hg : getMeasurements s = some (bs, s0)) (before : List Batch) (b : Batch)
    (after : List Batch) (hbs : bs = before ++ b :: after) (si : State)
    (hsi : processLoop env before s0 = Except.ok si) :
    si.estimator.td = s.estimator.td ∧ BatchInv s.estimator.td b ∧
      (si.current_time = -1 ∨ 0 ≤ si.current_time) ∧
      ∃ first rest, b.1 = first :: rest ∧ 0 ≤ first.stamp ∧
        (first :: rest).Pairwise (fun x y => x.stamp ≤ y.stamp) ∧
        (si.current_time < 0 ∨ si.current_time ≤ first.stamp) := by
  obtain ⟨r, hr, hb, g1, g2, g3, g4, g5, g6, g7⟩ := getMeasurements_some s bs s0 hg
  obtain ⟨b1, _, _⟩ := getMeasurementsLoop_batchesOK _ _ _ _ _ r hr
  obtain ⟨r2, hr2, hinv⟩ :=
    getMeasurementsLoop_batchInv s.estimator.td s.feature_buf s.imu_buf s.sum_of_wait s.warns
  rw [hr] at hr2
  cases hr2
  obtain ⟨i1, i2, i3, i4⟩ := hI
  have hmem : b ∈ r.1 := by
    rw [← hb, hbs]
    simp
  rw [← hb, hbs] at b1
  obtain ⟨mid, m1, m2⟩ := batchesOK_split _ _ _ _ _ b1
  obtain ⟨done, hdone⟩ := batchesOK_suffix _ _ _ _ m1
  have hsub : mid.Sublist s.imu_buf := by
    rw [hdone]; exact List.sublist_append_right _ _
  have htd0 : s0.estimator.td = s.estimator.td := by rw [g3]
  have hclock0 : s0.current_time < 0 ∨ ∀ m ∈ s.imu_buf, s0.current_time ≤ m.stamp := by
    rw [g4]
    rcases i4 with i4 | i4
    · left; rw [i4]; norm_num
    · exact Or.inr i4.2.2
  rcases processLoop_outcome env hk before s.imu_buf mid s0 (by rw [htd0]; exact m1) i1
      (fun m hm => (i2 m hm).1) hclock0 with
    ⟨s1, e1, a1, a2, _, _, _, _, _, _, a9⟩ | ⟨e1, _⟩
  · rw [hsi] at e1
    cases e1
    obtain ⟨IMUs, img⟩ := b
    obtain ⟨first, pre, last, post, h1, h2, _, _, _⟩ := m2
    have hpre : (first :: pre ++ [last]).Sublist mid := by
      rw [h1]
      have : first :: pre ++ last :: post = (first :: pre ++ [last]) ++ post := by simp
      rw [this]
      exact List.sublist_append_left _ _
    have hfirst : first ∈ s.imu_buf := by
      apply hsub.subset
      rw [h1]
      simp
    have hsign : si.current_time = -1 ∨ 0 ≤ si.current_time := by
      by_cases hbe : before = []
      · subst hbe
        simp only [processLoop, Except.ok.injEq] at hsi
        subst hsi
        rw [g4]
        rcases i4 with i4 | i4
        · exact Or.inl i4
        · exact Or.inr i4.1
      · exact Or.inr (a2 (Or.inl hbe))
    refine ⟨a9.trans htd0, hinv _ hmem, hsign, first, pre ++ [last], h2, (i2 first hfirst).1,
      ?_, ?_⟩
    · exact (i1.sublist hsub).sublist hpre
    · rcases a1 with a1 | a1
      · exact Or.inl a1
      · right
        apply a1
        rw [h1]
        simp
  · rcases e1 with e1 | e1 <;> rw [hsi] at e1 <;> cases e1

theorem queueClockInv_processIteration (env : Env) (hk : env.KeepsTd) (s s2 : State)
    (hI : QueueClockInv s) (h : processIteration env s = Except.ok s2) : QueueClockInv s2 := by
  obtain ⟨bs, s0, hg⟩ := getMeasurements_total s
  obtain ⟨r, hr, hbs, g1, g2, g3, g4, g5, g6, g7⟩ := getMeasurements_some s bs s0 hg
  obtain ⟨b1, _, _⟩ := getMeasurementsLoop_batchesOK _ _ _ _ _ r hr
  obtain ⟨i1, i2, i3, i4⟩ := hI
  obtain ⟨done, hdone⟩ := batchesOK_suffix _ _ _ _ b1
  have hsuf : r.2.imu_buf.Sublist s.imu_buf := by
    rw [hdone]; exact List.sublist_append_right _ _
  unfold processIteration at h
  rw [hg] at h
  simp only at h
  by_cases hlen : bs.length ≠ 0
  · rw [if_neg (not_not.mpr hlen)] at h
    have hne : r.1 ≠ [] := by
      rw [← hbs]; intro h0; rw [h0] at hlen; simp at hlen
    have hclock0 : s0.current_time < 0 ∨ ∀ m ∈ s.imu_buf, s0.current_time ≤ m.stamp := by
      rw [g4]
      rcases i4 with i4 | i4
      · left; rw [i4]; norm_num
      · exact Or.inr i4.2.2
    rcases processLoop_outcome env hk bs s.imu_buf r.2.imu_buf s0
        (by rw [g3, hbs]; exact b1) i1 (fun m hm => (i2 m hm).1) hclock0 with
      ⟨s1, e1, a1, a2, _, _, a5, _, _, a8, _⟩ | ⟨e1, _⟩
    · have hnonneg : 0 ≤ s1.current_time := a2 (Or.inl (by rw [hbs]; exact hne))
      have hbuf : s1.imu_buf = r.2.imu_buf := a5.trans g1
      have hInv1 : QueueClockInv s1 := by
        unfold QueueClockInv
        rw [hbuf, a8, g6]
        refine ⟨i1.sublist hsuf, fun m hm => i2 m (hsuf.subset hm), i3, ?_⟩
        right
        have hall : ∀ m ∈ r.2.imu_buf, s1.current_time ≤ m.stamp := by
          rcases a1 with a1 | a1
          · exact absurd a1 (not_lt.mpr hnonneg)
          · exact a1
        refine ⟨hnonneg, ?_, hall⟩
        have hne1 := batchesOK_left_nonempty _ _ _ _ b1 hne
        obtain ⟨m, hm⟩ := List.exists_mem_of_ne_nil _ hne1
        exact le_trans (hall m hm) (i2 m (hsuf.subset hm)).2
      rw [e1] at h
      simp only at h
      by_cases hf : s1.estimator.solver_flag = SolverFlag.NON_LINEAR
      · rw [if_pos hf] at h
        cases h
        obtain ⟨_, u2, _, _, u5, u6, _⟩ := update_frame env s1
        unfold QueueClockInv
        rw [u2, u5, u6]
        exact hInv1
      · rw [if_neg hf] at h
        cases h
        exact hInv1
    · rcases e1 with e1 | e1 <;> rw [e1] at h <;> cases h
  · rw [if_pos hlen] at h
    have hs2 : s0 = s2 := Except.ok.inj h
    rw [← hs2]
    have hnil : r.1 = [] := by
      rw [← hbs]
      exact List.length_eq_zero.mp (not_not.mp hlen)
    have hbuf : s0.imu_buf = s.imu_buf := by
      rw [g1]
      have := b1
      rw [hnil] at this
      exact this
    unfold QueueClockInv
    rw [hbuf, g4, g6]
    exact ⟨i1, i2, i3, i4⟩

theorem queueClockInv_step (env : Env) (hk : env.KeepsTd) (s s1 : State) (ev : Event)
    (hI : QueueClockInv s) (h : step env s ev = Except.ok s1) : QueueClockInv s1 := by
  cases ev with
  | imu m =>
    simp only [step, Except.ok.injEq] at h
    subst h
    exact queueClockInv_imu_callback s m hI
  | feature f =>
    simp only [step, Except.ok.injEq] at h
    subst h
    unfold feature_callback
    split
    · exact hI
    · exact hI
  | relocalization m =>
    simp only [step, Except.ok.injEq] at h
    subst h
    exact hI
  | restart data =>
    simp only [step, Except.ok.injEq] at h
    subst h
    cases data with
    | false => exact hI
    | true =>
      refine ⟨?_, ?_, ?_, ?_⟩
      · simp [restart_callback, popAll_eq_nil, State.setClock]
      · simp [restart_callback, popAll_eq_nil, State.setClock]
      · simp [restart_callback, State.setClock]
      · left
        simp [restart_callback, State.setClock]
  | dispatch => exact queueClockInv_processIteration env hk s s1 hI h

theorem queueClockInv_run (env : Env) (hk : env.KeepsTd) :
    ∀ (evs : List Event) (s s1 : State), QueueClockInv s → run env evs s = Except.ok s1 →
      QueueClockInv s1 := by
  intro evs
  induction evs with
  | nil =>
    intro s s1 hI h
    simp only [run, Except.ok.injEq] at h
    subst h
    exact hI
  | cons ev evs ih =>
    intro s s1 hI h
    rw [run] at h
    cases hs : step env s ev with
    | error f => rw [hs] at h; cases h
    | ok sa =>
      rw [hs] at h
      exact ih sa s1 (queueClockInv_step env hk s sa ev hI hs) h

/-- C4, amended: in exact arithmetic, for every batch `(IMUs, img)` that a
dispatcher iteration hands to the IMU loop of `process` in a run of the node
from the initial state (callbacks, restarts included, and dispatcher iterations
as atomic steps; `td` not changed by the back-end calls of the dispatcher): the
batch satisfies the batch invariant for `tf = img.t + td`, the starting clock is
the sentinel `-1` or is at most the first sample's time stamp, and the IMU loop
runs through, calls `processIMU` once per sample of the batch, ends with
`current_time = tf`, and the `dt` arguments it passed sum to `tf` minus the
starting clock (minus the first sample's time stamp when the start was the
sentinel). -/
theorem C4_received_batch_clock_and_dt_sum (env : Env) (hk : env.KeepsTd) (e : Estimator)
    (evs : List Event) (s : State) (hrun : run env evs (State.initial e) = Except.ok s)
    (b : Batch) (si : State) (hrec : Receives env s b si) :
    BatchInv si.estimator.td b ∧
    (si.current_time = -1 ∨ ∀ first, b.1.head? = some first → si.current_time ≤ first.stamp) ∧
    ∃ sj, imuLoop env b.2 b.1 si ⟨0, 0, 0⟩ ⟨0, 0, 0⟩ = Except.ok sj ∧
      sj.current_time = b.2.stamp + si.estimator.td ∧
      ∃ args, sj.estimator.calls = si.estimator.calls ++ imuCalls args ∧
        args.length = b.1.length ∧
        ∀ first, b.1.head? = some first →
          (args.map Prod.fst).sum = b.2.stamp + si.estimator.td -
            (if si.current_time = -1 then first.stamp else si.current_time) := by
  have hI := queueClockInv_run env hk evs _ s (queueClockInv_initial e) hrun
  obtain ⟨bs, s0, before, after, hg, hbs, hsi⟩ := hrec
  obtain ⟨htd, hinv, hsign, first, rest, hb, h0, hsorted, hc⟩ :=
    processLoop_before_batch env hk s hI bs s0 hg before b after hbs si hsi
  rw [← htd] at hinv
  have hinv2 := hinv
  obtain ⟨_, ⟨last, hl1, hl2⟩, ⟨first1, hf1, hf2⟩⟩ := hinv2
  rw [hb] at hf1 hl1
  simp only [List.head?_cons, Option.some.injEq] at hf1
  subst hf1
  obtain ⟨sj, e1, _, _, _, c4, _, args, k, n, _, sum⟩ :=
    imuLoop_batch env hk.1 b.2 first rest si ⟨0, 0, 0⟩ ⟨0, 0, 0⟩ (le_of_lt hf2) h0 hsorted hc
  have hfin := c4 ⟨last, List.mem_of_mem_getLast? hl1, hl2⟩
  have hneg : si.current_time < 0 ↔ si.current_time = -1 := by
    constructor
    · intro hlt
      rcases hsign with h1 | h1
      · exact h1
      · exact absurd hlt (not_lt.mpr h1)
    · intro h1; rw [h1]; norm_num
  refine ⟨hinv, ?_, sj, by rw [hb]; exact e1, hfin, args, k, by rw [hb]; exact n, ?_⟩
  · rcases hc with hc | hc
    · exact Or.inl (hneg.mp hc)
    · right
      intro f hf
      rw [hb] at hf
      simp only [List.head?_cons, Option.some.injEq] at hf
      subst hf
      exact hc
  · intro f hf
    rw [hb] at hf
    simp only [List.head?_cons, Option.some.injEq] at hf
    subst hf
    rw [sum, hfin]
    by_cases hlt : si.current_time < 0
    · rw [if_pos hlt, if_pos (hneg.mp hlt)]
    · rw [if_neg hlt, if_neg (fun h1 => hlt (hneg.mpr h1))]
/-- Counterexample to C4 as stated. The messages `eventsGap` go through the
callbacks; `getMeasurements` then returns one batch, with the IMU samples at the
`double` values of 0.05, 0.1, 0.5 and the frame at the `double` value of 0.45
(`td = 0`), which satisfies the batch invariant, and the clock is the sentinel.
Run in `double` arithmetic the IMU loop hands `processIMU` the `dt` values 0,
`0.1 - 0.05` (exact) and `0.45 - 0.1` rounded to a `double`; their sum is not
`tf` minus the first time stamp, neither exactly nor when the sum and the
difference are themselves computed in `double`. In exact arithmetic the same
batch gives `dt` values that do sum to `tf` minus the first time stamp. -/
theorem C4_counterexample :
    batchesOf (run idleEnv eventsGap (State.initial (estimatorWith 0 SolverFlag.INITIAL))) =
      some [([imuAt (roundDouble (1 / 20)), imuAt (roundDouble (1 / 10)),
        imuAt (roundDouble (1 / 2))], featureAt (roundDouble (9 / 20)))] ∧
    firstBatchClockAndDts roundDouble idleEnv
        (run idleEnv eventsGap (State.initial (estimatorWith 0 SolverFlag.INITIAL))) =
      some (roundDouble (9 / 20),
        [0, roundDouble (1 / 10) - roundDouble (1 / 20),
          3152519739159347 / 9007199254740992]) ∧
    (0 : ℚ) + (roundDouble (1 / 10) - roundDouble (1 / 20)) +
        3152519739159347 / 9007199254740992 ≠ roundDouble (9 / 20) - roundDouble (1 / 20) ∧
    roundDouble (roundDouble (0 + (roundDouble (1 / 10) - roundDouble (1 / 20))) +
        3152519739159347 / 9007199254740992) ≠
      roundDouble (roundDouble (9 / 20) - roundDouble (1 / 20)) ∧
    firstBatchClockAndDts id idleEnv
        (run idleEnv eventsGap (State.initial (estimatorWith 0 SolverFlag.INITIAL))) =
      some (roundDouble (9 / 20),
        [0, roundDouble (1 / 10) - roundDouble (1 / 20),
          roundDouble (9 / 20) - roundDouble (1 / 10)]) := by
  decide!

/-- Witness of C4: the messages of scenario S1 delivered through the callbacks
(`td = 0`). The sample at 0.00 is rejected by `imu_callback` (it is not after the
initial `last_imu_t = 0`), so the batch received for the frame at 0.025 holds
the samples at 0.01, 0.02, 0.03; the clock starts at the sentinel, the `dt`
sequence is 0, 0.01, 0.005 and `current_time` ends at 0.025. -/
theorem C4_received_batch_clock_and_dt_sum_witness :
    idleEnv.KeepsTd ∧
    run idleEnv eventsS1 (State.initial (estimatorWith 0 SolverFlag.INITIAL)) =
      Except.ok stateS1 ∧
    Receives idleEnv stateS1
      ([imuAt (1 / 100), imuAt (2 / 100), imuAt (3 / 100)], featureAt (25 / 1000))
      (afterGetMeasurements stateS1) ∧
    (BatchInv (afterGetMeasurements stateS1).estimator.td
        ([imuAt (1 / 100), imuAt (2 / 100), imuAt (3 / 100)], featureAt (25 / 1000)) ∧
      ((afterGetMeasurements stateS1).current_time = -1 ∨
        ∀ first, [imuAt (1 / 100), imuAt (2 / 100), imuAt (3 / 100)].head? = some first →
          (afterGetMeasurements stateS1).current_time ≤ first.stamp) ∧
      ∃ sj, imuLoop idleEnv (featureAt (25 / 1000))
          [imuAt (1 / 100), imuAt (2 / 100), imuAt (3 / 100)] (afterGetMeasurements stateS1)
          ⟨0, 0, 0⟩ ⟨0, 0, 0⟩ = Except.ok sj ∧
        sj.current_time =
          (featureAt (25 / 1000)).stamp + (afterGetMeasurements stateS1).estimator.td ∧
        ∃ args, sj.estimator.calls =
            (afterGetMeasurements stateS1).estimator.calls ++ imuCalls args ∧
          args.length = [imuAt (1 / 100), imuAt (2 / 100), imuAt (3 / 100)].length ∧
          ∀ first, [imuAt (1 / 100), imuAt (2 / 100), imuAt (3 / 100)].head? = some first →
            (args.map Prod.fst).sum =
              (featureAt (25 / 1000)).stamp + (afterGetMeasurements stateS1).estimator.td -
                (if (afterGetMeasurements stateS1).current_time = -1 then first.stamp
                  else (afterGetMeasurements stateS1).current_time)) ∧
    clockAndDts (imuLoop idleEnv (featureAt (25 / 1000))
        [imuAt (1 / 100), imuAt (2 / 100), imuAt (3 / 100)] (afterGetMeasurements stateS1)
        ⟨0, 0, 0⟩ ⟨0, 0, 0⟩) = some (25 / 1000, [0, 1 / 100, 5 / 1000]) := by
  have hk : idleEnv.KeepsTd := ⟨fun _ _ _ _ => rfl, fun _ _ _ => rfl, fun _ _ _ _ _ _ => rfl⟩
  have hrun : run idleEnv eventsS1 (State.initial (estimatorWith 0 SolverFlag.INITIAL)) =
      Except.ok stateS1 := rfl
  have hg : getMeasurements stateS1 =
      some ([([imuAt (1 / 100), imuAt (2 / 100), imuAt (3 / 100)], featureAt (25 / 1000))],
        afterGetMeasurements stateS1) := by
    decide!
  have hrec : Receives idleEnv stateS1
      ([imuAt (1 / 100), imuAt (2 / 100), imuAt (3 / 100)], featureAt (25 / 1000))
      (afterGetMeasurements stateS1) :=
    ⟨_, _, [], [], hg, rfl, rfl⟩
  refine ⟨hk, hrun, hrec,
    C4_received_batch_clock_and_dt_sum idleEnv hk (estimatorWith 0 SolverFlag.INITIAL) eventsS1
      stateS1 hrun _ _ hrec, ?_⟩
  decide!
end VinsNode
